import Mathlib

/-!
# jhblib: the file-backed key/value store (`jhb_keystore.h`, `jhbRegistry.h`)

A shallow embedding of `ValStore<char>`, `KeyTree<char>` and `_valKey<char>`.

Conventions of the embedding.

* A `char` / `BYTE` is a `Fin 256`; a `std::string`, a `std::vector<BYTE>` and the
  content of a file are lists of bytes.  `size_t` quantities are unbounded naturals,
  a cast to `UINT` is `% 2^32`, a cast to `int` is the two's complement reading of
  the low 32 bits.
* A `std::tr1::unordered_map` is an association list with pairwise different keys;
  the order of the list is the iteration order of the container.  `operator[]`
  assignment overwrites in place or appends.  A `std::tr1::unordered_set` is a list
  in which `insert` adds an element only when absent.
* A `FILE*` opened for reading is the list of bytes not yet read plus the
  end-of-file indicator; `fread` into a buffer overwrites a prefix of the buffer.
-/

namespace jhblib

/-! # Part 1: the embedding (definitions) -/

/-- An `unsigned char`. -/
abbrev BYTE := Fin 256

/-- The string type `_str_t` for `CHAR = char`. -/
abbrev _str_t := List BYTE

/-- The key path delimiter `_del`, a backslash. -/
def _del : BYTE := 92

/-- Conversion of a `size_t` to `UINT`. -/
def toUINT (n : Nat) : Nat := n % 4294967296

/-- Conversion of a `size_t` to `int` (32 bits, two's complement). -/
def toInt (n : Nat) : Int :=
  if n % 4294967296 < 2147483648 then ((n % 4294967296 : Nat) : Int)
  else ((n % 4294967296 : Nat) : Int) - 4294967296

/-- An unordered map: association list, list order is iteration order. -/
abbrev umap (κ : Type) (ν : Type) := List (κ × ν)

namespace umap

variable {κ ν : Type} [DecidableEq κ]

/-- The mapped value of `find(k)`, `none` for `end()`. -/
def find (m : umap κ ν) (k : κ) : Option ν :=
  match m with
  | [] => none
  | (k', v) :: rest => if k' = k then some v else find rest k

/-- The number of entries with key `k` as reported by `count(k)`. -/
def count (m : umap κ ν) (k : κ) : Nat :=
  if (find m k).isSome then 1 else 0

/-- The assignment `m[k] = v`. -/
def assign (m : umap κ ν) (k : κ) (v : ν) : umap κ ν :=
  match m with
  | [] => [(k, v)]
  | (k', v') :: rest => if k' = k then (k', v) :: rest else (k', v') :: assign rest k v

/-- The call `erase(k)`. -/
def erase (m : umap κ ν) (k : κ) : umap κ ν :=
  m.filter (fun e => decide (e.1 ≠ k))

/-- The keys in iteration order. -/
def keys (m : umap κ ν) : List κ := m.map Prod.fst

end umap

/-- The call `insert(x)` on an unordered set. -/
def uset_insert {α : Type} [DecidableEq α] (s : List α) (x : α) : List α :=
  if x ∈ s then s else s ++ [x]

namespace ValStore

/-- The enumerators of `type_t`; the stored tag is the 32-bit value itself. -/
def RT_NUL : Nat := 0

/-- Tag `REG_BINARY`. -/
def RT_BIN : Nat := 3

/-- Tag `REG_DWORD`. -/
def RT_U4 : Nat := 4

/-- Tag `REG_QWORD`. -/
def RT_U8 : Nat := 11

/-- Tag `REG_SZ`. -/
def RT_SZ : Nat := 1

/-- The record `_val_t`: a type tag and the payload bytes. -/
structure _val_t where
  type : Nat
  data : List BYTE
deriving DecidableEq, Repr

end ValStore

/-- The class `ValStore<char>`: its only data member is `_MAP`. -/
structure ValStore where
  _MAP : umap _str_t ValStore._val_t
deriving DecidableEq, Repr

namespace ValStore

/-- A default-constructed store. -/
def empty : ValStore := ⟨[]⟩

/-- The private `_setVal(name, type, pdata, size)`; `pdata` is the `size` bytes of
the caller's buffer. -/
def _setVal (S : ValStore) (name : _str_t) (type : Nat) (pdata : List BYTE) : ValStore :=
  let v : _val_t := ⟨type, if 0 < pdata.length then pdata else []⟩
  ⟨S._MAP.assign name v⟩

/-- The private `_getVal(name, ptype, pdata, psize)`: `none` when it returns false,
otherwise what it stores through `ptype`, `pdata` and `psize` when they are non-null. -/
def _getVal (S : ValStore) (name : _str_t) : Option (Nat × List BYTE × Nat) :=
  match S._MAP.find name with
  | none => none
  | some v => some (v.type, v.data, v.data.length)

/-- The public `SetVal(name, type, pby, size)`. -/
def SetVal (S : ValStore) (name : _str_t) (type : Nat) (pby : List BYTE) : ValStore :=
  S._setVal name type pby

/-- The call `IsValue(name)`. -/
def IsValue (S : ValStore) (name : _str_t) : Bool :=
  (S._getVal name).isSome

/-- The call `GetType(name)`. -/
def GetType (S : ValStore) (name : _str_t) : Nat :=
  match S._getVal name with
  | some (type, _, _) => type
  | none => RT_NUL

/-- The call `GetSize(name)`: the size converted to `int`, or `-1`. -/
def GetSize (S : ValStore) (name : _str_t) : Int :=
  match S._getVal name with
  | some (_, _, size) => toInt size
  | none => -1

/-- The call `GetVal(name, MemBuf&)`: the flag returned and the content of the buffer.
The buffer is allocated with `(UINT)size` bytes, so it holds that many leading bytes of
the stored data. -/
def GetVal (S : ValStore) (name : _str_t) : Bool × List BYTE :=
  match S._getVal name with
  | some (_, data, size) => (true, data.take (toUINT size))
  | none => (false, [])

/-- The call `DeleteVal(name)`. -/
def DeleteVal (S : ValStore) (name : _str_t) : Bool × ValStore :=
  if S.IsValue name then (true, ⟨S._MAP.erase name⟩) else (false, S)

/-- The call `clear()`. -/
def clear (_S : ValStore) : ValStore := ⟨[]⟩

end ValStore

/-- A file system: the content of each file that exists (`fopen` with mode `rb` fails on
a path without content), and for each path whether `fopen` with mode `wb` succeeds on it;
when it succeeds it creates or truncates the file. -/
structure FS where
  files : _str_t → Option (List BYTE)
  canWrite : _str_t → Bool

instance : CoeFun FS (fun _ => _str_t → Option (List BYTE)) := ⟨FS.files⟩

/-- The file system with the files `f` in which every path can be opened for writing. -/
def FS.ofFiles (f : _str_t → Option (List BYTE)) : FS := ⟨f, fun _ => true⟩

/-- The content of file `file` replaced by `content`. -/
def FS.write (fs : FS) (file : _str_t) (content : List BYTE) : FS :=
  { fs with files := fun p => if p = file then some content else fs p }

/-- A `FILE*` opened with mode `rb`: the bytes not yet read and the end-of-file flag. -/
structure File where
  rest : List BYTE
  eof : Bool
deriving DecidableEq, Repr

/-- The call `fread(buf, 1, count, f)`: the buffer afterwards and the stream afterwards.
A short read sets the end-of-file flag and leaves the tail of the buffer as it was; a
read of zero bytes does nothing. -/
def fread (buf : List BYTE) (count : Nat) (f : File) : List BYTE × File :=
  if count = 0 then (buf, f)
  else if count ≤ f.rest.length then
    (f.rest.take count ++ buf.drop count, ⟨f.rest.drop count, f.eof⟩)
  else (f.rest ++ buf.drop f.rest.length, ⟨[], true⟩)

/-- The call `feof(f)`. -/
def feof (f : File) : Bool := f.eof

/-- The four bytes of a `UINT` (or of a `type_t`) in memory, least significant first. -/
def leU32 (n : Nat) : List BYTE :=
  [⟨n % 256, Nat.mod_lt _ (by decide)⟩, ⟨n / 256 % 256, Nat.mod_lt _ (by decide)⟩,
   ⟨n / 65536 % 256, Nat.mod_lt _ (by decide)⟩, ⟨n / 16777216 % 256, Nat.mod_lt _ (by decide)⟩]

/-- The value of an integer variable whose bytes in memory are `bs`. -/
def ofLE (bs : List BYTE) : Nat :=
  match bs with
  | [] => 0
  | b :: rest => b.val + 256 * ofLE rest

namespace ValStore

/-- The macro `_PACK`. -/
def _PACK : Nat := 0

/-- The macro `_VER`. -/
def _VER : Nat := 0

/-- The 16 bytes of a default-constructed `_hdr_t`: `magic` holds `WDQAPI00`, then
`version`, `packing`, `reserved` (2 bytes) and `flags` (4 bytes). -/
def _hdr_t : List BYTE :=
  [87, 68, 81, 65, 80, 73, 48, 48] ++ [⟨_VER % 256, Nat.mod_lt _ (by decide)⟩] ++
  [⟨_PACK % 256, Nat.mod_lt _ (by decide)⟩] ++ [0, 0] ++ [0, 0, 0, 0]

/-- The field `magic` of a header held as 16 bytes. -/
def _hdr_t.magic (hdr : List BYTE) : List BYTE := hdr.take 8

/-- The field `packing` of a header held as 16 bytes. -/
def _hdr_t.packing (hdr : List BYTE) : Nat := (hdr.getD 9 0).val

/-- The number of filler bytes `_pack` transfers for a field of `len` bytes. -/
def _pack_count (len pack : Nat) : Nat :=
  if pack < 2 then 0 else (pack - len % pack) % pack

/-- The call `_wpack(len, pack, f)`: the zero filler bytes written. -/
def _wpack (len pack : Nat) : List BYTE :=
  List.replicate (_pack_count len pack) 0

/-- The call `_rpack(len, pack, f)`: the filler bytes are read and dropped. -/
def _rpack (len pack : Nat) (f : File) : File :=
  if pack < 2 then f
  else (fread (List.replicate 4 0) (_pack_count len pack) f).2

/-- The bytes one iteration of the loop of `_serialize` writes for an entry, with the
packing unit `pack` passed to `_wpack` (the source passes `_PACK`). -/
def _serialize_record (pack : Nat) (e : _str_t × _val_t) : List BYTE :=
  let name := e.1
  let val := e.2
  let len := toUINT name.length
  let len2 := toUINT val.data.length
  leU32 len ++ name.take len ++ _wpack len pack ++
  leU32 val.type ++ leU32 len2 ++ (if 0 < len2 then val.data.take len2 else []) ++
  _wpack len2 pack

/-- Everything `_serialize` writes to the file it opened: the header, then one record
per entry in iteration order. -/
def _serialize_bytes (S : ValStore) : List BYTE :=
  _hdr_t ++ (S._MAP.map (_serialize_record _PACK)).flatten

/-- The call `_serialize(file)`: the flag returned and the file system afterwards; when
`fopen` fails it returns false and writes nothing. -/
def _serialize (S : ValStore) (fs : FS) (file : _str_t) : Bool × FS :=
  if fs.canWrite file then (true, fs.write file S._serialize_bytes) else (false, fs)

/-- The `while (!feof(f))` loop of `_deserialize`.  `junk` is the indeterminate initial
value of the local `val.type`; `fuel` bounds the number of iterations. -/
def _deserialize_loop (junk packing : Nat) :
    Nat → File → umap _str_t _val_t → umap _str_t _val_t
  | 0, _, m => m
  | fuel + 1, f, m =>
    if feof f then m
    else
      let r1 := fread (leU32 0) 4 f
      if feof r1.2 then m
      else
        let len := ofLE r1.1
        let r2 := fread (List.replicate len 0) len r1.2
        let name := r2.1
        let f2 := _rpack len packing r2.2
        let r3 := fread (leU32 junk) 4 f2
        let r4 := fread r1.1 4 r3.2
        let len2 := ofLE r4.1
        let r5 := if 0 < len2 then fread (List.replicate len2 0) len2 r4.2 else ([], r4.2)
        let f5 := _rpack len2 packing r5.2
        _deserialize_loop junk packing fuel f5 (m.assign name ⟨ofLE r3.1, r5.1⟩)

/-- What `_deserialize` does once the file is open, on its content: the flag returned
and the map afterwards. -/
def _deserialize_bytes (content : List BYTE) (junk : Nat) : Bool × ValStore :=
  let r0 := fread _hdr_t 16 ⟨content, false⟩
  if _hdr_t.magic _hdr_t ≠ _hdr_t.magic r0.1 then (false, ⟨[]⟩)
  else (true, ⟨_deserialize_loop junk (_hdr_t.packing r0.1) (content.length + 1) r0.2 []⟩)

/-- The call `_deserialize(file)`: the flag returned and the store afterwards. -/
def _deserialize (S : ValStore) (fs : FS) (file : _str_t) (junk : Nat) : Bool × ValStore :=
  match fs file with
  | none => (false, S)
  | some content => _deserialize_bytes content junk

/-- The public `Serialize(file)`. -/
def Serialize (S : ValStore) (fs : FS) (file : _str_t) : Bool × FS := S._serialize fs file

/-- The public `Deserialize(file)`. -/
def Deserialize (S : ValStore) (fs : FS) (file : _str_t) (junk : Nat) : Bool × ValStore :=
  S._deserialize fs file junk

/-- The container invariants of a store: keys are pairwise different and every type
tag fits the 32-bit `type_t`. -/
def WF (S : ValStore) : Prop :=
  (S._MAP.keys).Nodup ∧ ∀ e ∈ S._MAP, e.2.type < 4294967296

/-- Every name and every payload of the store is shorter than 2^32 bytes. -/
def lengthsBelow (S : ValStore) : Prop :=
  ∀ e ∈ S._MAP, e.1.length < 4294967296 ∧ e.2.data.length < 4294967296

instance (S : ValStore) : Decidable S.WF := by
  unfold WF; infer_instance

instance (S : ValStore) : Decidable S.lengthsBelow := by
  unfold lengthsBelow; infer_instance

end ValStore

/-- The call `s.rfind(c)`: the position of the last occurrence of `c`, `none` for `npos`. -/
def rfind (s : _str_t) (c : BYTE) : Option Nat :=
  match s with
  | [] => none
  | x :: xs =>
    match rfind xs c with
    | some p => some (p + 1)
    | none => if x = c then some 0 else none

namespace umap

variable {κ ν : Type} [DecidableEq κ]

/-- The update `m.find(k)->second = g(m.find(k)->second)` of the entry `find` returns;
nothing is changed when there is no such entry. -/
def modify (m : umap κ ν) (k : κ) (g : ν → ν) : umap κ ν :=
  match m with
  | [] => []
  | (k', v) :: rest => if k' = k then (k', g v) :: rest else (k', v) :: modify rest k g

end umap

namespace KeyTree

/-- The record `_val_t` of a key: the names of its subkeys and of its values. -/
structure _val_t where
  children : List _str_t
  values : List _str_t
deriving DecidableEq, Repr

end KeyTree

/-- The class `KeyTree<char>`: its only data member is `_MAP`. -/
structure KeyTree where
  _MAP : umap _str_t KeyTree._val_t
deriving DecidableEq, Repr

namespace KeyTree

/-- A default-constructed tree. -/
def empty : KeyTree := ⟨[]⟩

/-- The static `_splitpath(path, branch, leaf)`: the flag returned, `branch` and `leaf`. -/
def _splitpath (path : _str_t) : Bool × _str_t × _str_t :=
  match rfind path _del with
  | none => (false, [], path)
  | some pos => (decide (0 < (path.take pos).length), path.take pos, path.drop (pos + 1))

/-- The static `_buildpath(branch, leaf)`. -/
def _buildpath (branch leaf : _str_t) : _str_t := branch ++ [_del] ++ leaf

/-- The public `SplitPath`. -/
def SplitPath (path : _str_t) : Bool × _str_t × _str_t := _splitpath path

/-- The public `BuildPath`. -/
def BuildPath (branch leaf : _str_t) : _str_t := _buildpath branch leaf

/-- The two statements that shorten `s` in the first loop of `AddKey`:
`pos = s.rfind(_del); if (npos == pos) pos = 0; s.erase(pos, s.size())`. -/
def erase_last (s : _str_t) : _str_t :=
  s.take ((rfind s _del).getD 0)

/-- The first loop of `AddKey`: insert `s` and its ancestors until one is present or the
path is used up.  Returns the map and `nAdded`. -/
def AddKey_loop1 : Nat → _str_t → umap _str_t _val_t → Nat → umap _str_t _val_t × Nat
  | 0, _, m, nAdded => (m, nAdded)
  | fuel + 1, s, m, nAdded =>
    if 0 < s.length ∧ m.count s = 0 then
      AddKey_loop1 fuel (erase_last s) (m.assign s ⟨[], []⟩) (nAdded + 1)
    else (m, nAdded)

/-- The second loop of `AddKey`, with `n` iterations left: link `s` into its parent. -/
def AddKey_loop2 : Nat → _str_t → umap _str_t _val_t → umap _str_t _val_t
  | 0, _, m => m
  | n + 1, s, m =>
    let r := _splitpath s
    if r.1 = false then m
    else
      AddKey_loop2 n r.2.1
        (m.modify r.2.1 (fun v => { v with children := uset_insert v.children r.2.2 }))

/-- The call `AddKey(keyPath)`: the count returned and the tree afterwards. -/
def AddKey (KT : KeyTree) (keyPath : _str_t) : Nat × KeyTree :=
  let r := AddKey_loop1 (keyPath.length + 1) keyPath KT._MAP 0
  (r.2, ⟨AddKey_loop2 r.2 keyPath r.1⟩)

/-- The call `AddValue(keyPath, valName)`. -/
def AddValue (KT : KeyTree) (keyPath valName : _str_t) : Bool × KeyTree :=
  let m := (KT.AddKey keyPath).2._MAP
  let v := (m.find keyPath).getD ⟨[], []⟩
  (true, ⟨m.assign keyPath { v with values := uset_insert v.values valName }⟩)

/-- The call `EnumSubkeys(keyPath, subkeys)`: `none` when it returns false, otherwise
the vector filled. -/
def EnumSubkeys (KT : KeyTree) (keyPath : _str_t) : Option (List _str_t) :=
  match KT._MAP.find keyPath with
  | none => none
  | some v => some v.children

/-- The call `EnumValues(keyPath, subkeys)`: `none` when it returns false, otherwise the
vector filled. -/
def EnumValues (KT : KeyTree) (keyPath : _str_t) : Option (List _str_t) :=
  match KT._MAP.find keyPath with
  | none => none
  | some v => some v.values

/-- The call `DeleteKey(keyPath)`. -/
def DeleteKey (KT : KeyTree) (keyPath : _str_t) : Bool × KeyTree :=
  match KT._MAP.find keyPath with
  | none => (false, KT)
  | some v => if 0 < v.children.length then (false, KT) else (true, ⟨KT._MAP.erase keyPath⟩)

/-- The call `IsKey(keyPath)`. -/
def IsKey (KT : KeyTree) (keyPath : _str_t) : Bool :=
  decide (0 < KT._MAP.count keyPath)

/-- The call `clear()`. -/
def clear (_KT : KeyTree) : KeyTree := ⟨[]⟩

end KeyTree

/-- The call `VS.BuildKeyTree(KT)`: the tree afterwards (the call returns true). -/
def ValStore.BuildKeyTree (S : ValStore) (KT : KeyTree) : KeyTree :=
  S._MAP.foldl
    (fun kt e => (kt.AddValue (KeyTree.SplitPath e.1).2.1 (KeyTree.SplitPath e.1).2.2).2)
    KT.clear

/-- The class `__vkdata`: a hive shared by the handles that point to it. -/
structure __vkdata where
  VS : ValStore
  KT : KeyTree
  hive : _str_t
  refCount : Int

/-- The constructor `__vkdata()`. -/
def __vkdata.new : __vkdata := ⟨ValStore.empty, KeyTree.empty, [], 1⟩

/-- The data members of a `_valKey` object: `_d` (`none` for `NULL`, otherwise the
address of a `__vkdata`), `_key`, `_write` and the inherited `_lasterr`. -/
structure _valKey where
  _d : Option Nat
  _key : _str_t
  _write : Bool
  _lasterr : Int

/-- The state of the program: the `__vkdata` objects on the heap by address, the next
address `new` hands out, the `_valKey` objects by the name of the variable that holds
them, and the file system. -/
structure World where
  heap : Nat → Option __vkdata
  next : Nat
  keys : Nat → _valKey
  fs : FS

namespace _valKey

/-- The member `_init()` of `_valKey`. -/
def _init (k : _valKey) : _valKey := { k with _d := none, _key := [], _write := false }

/-- A default-constructed handle: `KeyStore()` sets `_lasterr`, `_valKey()` runs `_init`. -/
def null : _valKey := ⟨none, [], false, 0⟩

/-- The call `IsNull()`. -/
def IsNull (k : _valKey) : Bool := k._d.isNone

/-- The call `Name()`. -/
def Name (k : _valKey) : _str_t := k._key

/-- The member `_rel(name)`: `_d->KT.BuildPath(_key, name)`, a static function. -/
def _rel (k : _valKey) (name : _str_t) : _str_t := KeyTree.BuildPath k._key name

end _valKey

namespace World

/-- A world without hives in which every handle is default-constructed. -/
def init (fs : FS) : World := ⟨fun _ => none, 0, fun _ => _valKey.null, fs⟩

/-- The `__vkdata` the handle `h` points to; `none` when `_d` is `NULL`. -/
def data (w : World) (h : Nat) : Option __vkdata :=
  match (w.keys h)._d with
  | none => none
  | some a => w.heap a

/-- The world with the `__vkdata` at address `a` replaced. -/
def setData (w : World) (a : Nat) (d : Option __vkdata) : World :=
  { w with heap := fun b => if b = a then d else w.heap b }

/-- The world with the handle `h` replaced. -/
def setKey (w : World) (h : Nat) (k : _valKey) : World :=
  { w with keys := fun g => if g = h then k else w.keys g }

end World

namespace _valKey

/-- The member `_flush()` of handle `h`, called with `_d` pointing to `d`:
`!_write || _d->VS.Serialize(_d->hive)`. -/
def _flush (w : World) (h : Nat) (d : __vkdata) : Bool × World :=
  if (w.keys h)._write = false then (true, w)
  else ((d.VS.Serialize w.fs d.hive).1, { w with fs := (d.VS.Serialize w.fs d.hive).2 })

/-- The member `_close()` of handle `h`.  The result is `none` when `_d` points to a
`__vkdata` that was deleted. -/
def _close (w : World) (h : Nat) : Option (Bool × World) :=
  match (w.keys h)._d with
  | none => some (true, w)
  | some a =>
    match w.heap a with
    | none => none
    | some d =>
      let w1 := (_flush w h d).2
      let d1 : __vkdata := { d with refCount := d.refCount - 1 }
      let w2 := if d1.refCount < 1 then w1.setData a none else w1.setData a (some d1)
      some (true, w2.setKey h (_init (w.keys h)))

/-- The member `_open(file_t hive, keyPath, bWrite)` of handle `h`; `junk` is the
indeterminate value `Deserialize` may pick up. -/
def _open_file (w : World) (h : Nat) (hive keyPath : _str_t) (bWrite : Bool) (junk : Nat) :
    Option World :=
  match _close w h with
  | none => none
  | some (_, w1) =>
    let a := w1.next
    let r := __vkdata.new.VS.Deserialize w1.fs hive junk
    let d1 : __vkdata := { __vkdata.new with VS := r.2 }
    let d2 : __vkdata := if r.1 then { d1 with KT := d1.VS.BuildKeyTree d1.KT } else d1
    let k1 : _valKey := { w1.keys h with _d := some a }
    if r.1 || bWrite then
      some ({ w1 with next := a + 1 }.setData a (some { d2 with hive := hive })
        |>.setKey h { k1 with _key := keyPath, _write := bWrite })
    else
      some ({ w1 with next := a + 1 }.setData a (some d2) |>.setKey h k1)

/-- The member `_open(_valKey &vkey, keyPath, bWrite)` of handle `h`.  The result is
`none` when `vkey._d` is `NULL` or dangling at the moment it is dereferenced. -/
def _open_key (w : World) (h vkey : Nat) (keyPath : _str_t) (bWrite : Bool) : Option World :=
  match _close w h with
  | none => none
  | some (_, w1) =>
    match (w1.keys vkey)._d with
    | none => none
    | some a =>
      match w1.heap a with
      | none => none
      | some d =>
        some (w1.setData a (some { d with refCount := d.refCount + 1 })
          |>.setKey h { w1.keys h with _d := some a, _key := (w1.keys vkey)._rel keyPath,
                                       _write := bWrite })

/-- The call `Open(hive, keyPath, bWrite)`: the handle is opened, `!IsNull()` returned. -/
def Open_file (w : World) (h : Nat) (hive keyPath : _str_t) (bWrite : Bool) (junk : Nat) :
    Option (Bool × World) :=
  (_open_file w h hive keyPath bWrite junk).map (fun w1 => (!(w1.keys h).IsNull, w1))

/-- The call `Open(vkey, keyPath, bWrite)`. -/
def Open_key (w : World) (h vkey : Nat) (keyPath : _str_t) (bWrite : Bool) :
    Option (Bool × World) :=
  (_open_key w h vkey keyPath bWrite).map (fun w1 => (!(w1.keys h).IsNull, w1))

/-- The member `_setVal(name, type, data, size)` of handle `h`; `type` is a `DWORD`. -/
def _setVal (w : World) (h : Nat) (name : _str_t) (type : Nat) (data : List BYTE) :
    Option (Bool × World) :=
  match (w.keys h)._d with
  | none => none
  | some a =>
    match w.heap a with
    | none => none
    | some d =>
      let KT := (d.KT.AddValue (w.keys h)._key name).2
      let VS := d.VS.SetVal ((w.keys h)._rel name) (toUINT type) data
      some (true, (w.setData a (some { d with KT := KT, VS := VS })).setKey h
        { w.keys h with _lasterr := 0 })

/-- The member `_getVal(name, data, size)` of handle `h`: the flag returned, the bytes
copied to `data` and the value stored in `size`. -/
def _getVal (w : World) (h : Nat) (name : _str_t) : Option (Bool × List BYTE × Nat) :=
  match w.data h with
  | none => none
  | some d =>
    let r := d.VS.GetVal ((w.keys h)._rel name)
    if r.1 = false then some (false, [], 0) else some (true, r.2, r.2.length)

/-- The member `_valLength(name)` of handle `h`. -/
def _valLength (w : World) (h : Nat) (name : _str_t) : Option Int :=
  (_getVal w h name).map (fun r => if r.1 then toInt r.2.2 else -1)

/-- The member `_getSubKeys(sk)` of handle `h`: `some none` when it returns false. -/
def _getSubKeys (w : World) (h : Nat) : Option (Option (List _str_t)) :=
  (w.data h).map (fun d => d.KT.EnumSubkeys (w.keys h)._key)

/-- The call `GetValues(sk)` on handle `h`: `some none` when it returns false. -/
def GetValues (w : World) (h : Nat) : Option (Option (List _str_t)) :=
  (w.data h).map (fun d => d.KT.EnumValues (w.keys h)._key)

/-- The member `_delSubKey(name)` of handle `h`. -/
def _delSubKey (w : World) (h : Nat) (name : _str_t) : Option (Bool × World) :=
  match (w.keys h)._d with
  | none => none
  | some a =>
    match w.heap a with
    | none => none
    | some d =>
      let subkey := (w.keys h)._rel name
      match d.KT.EnumValues subkey with
      | none => some (false, w)
      | some values =>
        let r := d.KT.DeleteKey subkey
        if r.1 = false then some (false, w.setData a (some { d with KT := r.2 }))
        else
          let VS := values.foldl
            (fun vs v => (vs.DeleteVal (KeyTree.BuildPath subkey v)).2) d.VS
          some (true, w.setData a (some { d with KT := r.2, VS := VS }))

/-- The call `Close()` on handle `h`. -/
def Close (w : World) (h : Nat) : Option (Bool × World) := _close w h

end _valKey

/-- An operation on a handle: opening handle `h` as a subkey of handle `vkey`, setting a
value, deleting a subkey, closing. -/
inductive Op where
  | openKey (h vkey : Nat) (keyPath : _str_t) (bWrite : Bool)
  | setVal (h : Nat) (name : _str_t) (type : Nat) (data : List BYTE)
  | delSubKey (h : Nat) (name : _str_t)
  | close (h : Nat)

/-- One operation; `none` when it dereferences a null or dangling `_d`. -/
def World.step (w : World) : Op → Option World
  | .openKey h vkey keyPath bWrite => _valKey._open_key w h vkey keyPath bWrite
  | .setVal h name type data => (_valKey._setVal w h name type data).map Prod.snd
  | .delSubKey h name => (_valKey._delSubKey w h name).map Prod.snd
  | .close h => (_valKey._close w h).map Prod.snd

/-- A sequence of operations, left to right. -/
def World.run (w : World) : List Op → Option World
  | [] => some w
  | op :: ops =>
    match w.step op with
    | none => none
    | some w1 => w1.run ops

namespace ValStore

/-- The three bounds under which an entry is written in full. -/
def entryFits (e : _str_t × _val_t) : Prop :=
  e.2.type < 4294967296 ∧ e.1.length < 4294967296 ∧ e.2.data.length < 4294967296

instance (e : _str_t × _val_t) : Decidable (entryFits e) := by
  unfold entryFits; infer_instance

/-- A hive file image: a 16-byte header followed by the records of `l`, written with the
packing unit the header stores, and then `t`. -/
def hiveImage (hdr : List BYTE) (l : List (_str_t × _val_t)) (t : List BYTE) : List BYTE :=
  hdr ++ ((l.map (_serialize_record (_hdr_t.packing hdr))).flatten ++ t)

/-- The store of the concrete scenario: `root\mid1\leaf` holds the `UINT` 12345678. -/
def scenarioStore : ValStore :=
  empty.SetVal [114, 111, 111, 116, 92, 109, 105, 100, 49, 92, 108, 101, 97, 102] RT_U4
    [78, 97, 188, 0]

/-- The header as the format description spells it: the ASCII bytes of `WDQAPI00`, a
version byte 0, a packing byte 0, two reserved bytes and four flag bytes, all zero. -/
def layoutHeader : List BYTE := [87, 68, 81, 65, 80, 73, 48, 48, 0, 0, 0, 0, 0, 0, 0, 0]

/-- The record as the format description spells it: name length, name bytes, type tag,
value length, value bytes, with no padding. -/
def layoutRecord (e : _str_t × _val_t) : List BYTE :=
  leU32 e.1.length ++ e.1 ++ leU32 e.2.type ++ leU32 e.2.data.length ++ e.2.data

/-- The stream `f` is reading a file that was cut off inside the bytes `w` that were
still to come: either it already hit the end of the file, or what is left in the
stream is a proper prefix of `w`. -/
def cut (f : File) (w : List BYTE) : Prop :=
  (f.eof = true ∧ f.rest = []) ∨ (f.eof = false ∧ ∃ u, u ≠ [] ∧ w = f.rest ++ u)

end ValStore

namespace KeyTree

/-- The key `k` is present in the map. -/
def indexed (m : umap _str_t _val_t) (k : _str_t) : Prop := (m.find k).isSome = true

/-- The children set stored for `k`, empty when `k` is absent. -/
def kids (m : umap _str_t _val_t) (k : _str_t) : List _str_t :=
  match m.find k with
  | some v => v.children
  | none => []

/-- The value-name set stored for `k`, empty when `k` is absent. -/
def vals (m : umap _str_t _val_t) (k : _str_t) : List _str_t :=
  match m.find k with
  | some v => v.values
  | none => []

/-- The keys the first loop inserts in `j` iterations from `s`. -/
def New : Nat → _str_t → _str_t → Prop
  | 0, _, _ => False
  | j + 1, s, k => k = s ∨ New j (erase_last s) k

/-- Each of the `j` keys visited from `s` is non-empty and absent from `m`. -/
def AllNew : Nat → _str_t → umap _str_t _val_t → Prop
  | 0, _, _ => True
  | j + 1, s, m => s ≠ [] ∧ ¬ indexed m s ∧ AllNew j (erase_last s) m

/-- The path reached after `j` shortenings of `s` is empty or present in `m`. -/
def Stop : Nat → _str_t → umap _str_t _val_t → Prop
  | 0, s, m => s = [] ∨ indexed m s
  | j + 1, s, m => Stop j (erase_last s) m

/-- Within `j` iterations from `s` the second loop inserts `c` into the children of `k`. -/
def Link : Nat → _str_t → _str_t → _str_t → Prop
  | 0, _, _, _ => False
  | j + 1, s, k, c =>
    erase_last s ≠ [] ∧ ((erase_last s = k ∧ (_splitpath s).2.2 = c) ∨ Link j (erase_last s) k c)

/-- Every parent the second loop looks up in `j` iterations from `s` is present in `m`. -/
def Present : Nat → _str_t → umap _str_t _val_t → Prop
  | 0, _, _ => True
  | j + 1, s, m => erase_last s = [] ∨ (indexed m (erase_last s) ∧ Present j (erase_last s) m)

/-- The key `k` is `p` or an ancestor of `p`, and it is not empty. -/
def Anc (p k : _str_t) : Prop := k ≠ [] ∧ ∃ i : Nat, erase_last^[i] p = k

/-- Every non-empty present key has its parent present, unless the parent is empty. -/
def Closed (m : umap _str_t _val_t) : Prop :=
  ∀ k, indexed m k → erase_last k ≠ [] → indexed m (erase_last k)

/-- The map `m` is the index derived from the full names in `N`: the present keys are
the key paths of the names and their non-empty ancestors, the children sets link every
present key to its present parent, and the value sets hold the leaves of the names. -/
def Derived (m : umap _str_t _val_t) (N : List _str_t) : Prop :=
  (∀ k, indexed m k ↔ ∃ f ∈ N, k = erase_last f ∨ Anc (erase_last f) k) ∧
  (∀ k c, c ∈ kids m k ↔
    ∃ k', indexed m k' ∧ erase_last k' = k ∧ k ≠ [] ∧ (_splitpath k').2.2 = c) ∧
  (∀ k n, n ∈ vals m k ↔ ∃ f ∈ N, erase_last f = k ∧ (_splitpath f).2.2 = n)

/-- Two trees with the same indexed key paths and, for each key path, the same children
set and the same value-name set. -/
def TreeEq (T1 T2 : KeyTree) : Prop :=
  (∀ k, T1.IsKey k = T2.IsKey k) ∧
  (∀ k, (T1.EnumSubkeys k).isSome = (T2.EnumSubkeys k).isSome) ∧
  (∀ k, (T1.EnumValues k).isSome = (T2.EnumValues k).isSome) ∧
  (∀ k c, c ∈ (T1.EnumSubkeys k).getD [] ↔ c ∈ (T2.EnumSubkeys k).getD []) ∧
  (∀ k n, n ∈ (T1.EnumValues k).getD [] ↔ n ∈ (T2.EnumValues k).getD [])

end KeyTree

namespace World

/-- Every hive on the heap of `w'` is on the heap of `w` with the same store, the same
tree and the same file. -/
def SameHives (w w' : World) : Prop :=
  ∀ b d', w'.heap b = some d' →
    ∃ d, w.heap b = some d ∧ d'.VS = d.VS ∧ d'.KT = d.KT ∧ d'.hive = d.hive

end World

/-- The operation is an open, a close, or a `SetVal` whose value name has no delimiter. -/
def Op.plain : Op → Prop
  | .setVal _ name _ _ => _del ∉ name
  | .delSubKey _ _ => False
  | _ => True

namespace World

/-- The world reached by opening the root handle `r` on the file `hive` in a world that
has no hive yet, and then running `ops`. -/
def openRun (fs : FS) (r : Nat) (hive keyPath : _str_t) (bWrite : Bool) (junk : Nat)
    (ops : List Op) : Option World :=
  (_valKey._open_file (init fs) r hive keyPath bWrite junk).bind (fun w => w.run ops)

/-- Every hive on the heap of the world `ow`, when that world is defined, satisfies `P`. -/
def AllHives (ow : Option World) (P : __vkdata → Prop) : Prop :=
  ∀ w, ow = some w → ∀ a d, w.heap a = some d → P d

/-- The index of every hive is the one derived from the names in its store. -/
def Consistent (w : World) : Prop :=
  ∀ a d, w.heap a = some d → KeyTree.Derived d.KT._MAP d.VS._MAP.keys

end World

namespace umap

variable {κ ν : Type} [DecidableEq κ]

/-- The value last assigned to `f` in a list of assignments. -/
def lastWrite (l : List (κ × ν)) (f : κ) : Option ν :=
  match l with
  | [] => none
  | e :: rest =>
    match lastWrite rest f with
    | some v => some v
    | none => if e.1 = f then some e.2 else none

end umap

namespace ValStore

/-- Keys are pairwise different and every entry fits the 32-bit fields of a record. -/
def AllFit (m : umap _str_t _val_t) : Prop :=
  (umap.keys m).Nodup ∧ ∀ e ∈ m, entryFits e

end ValStore

/-- The operation is not a `DelSubKey`. -/
def Op.noDel : Op → Prop
  | .delSubKey _ _ => False
  | _ => True

namespace World

/-- The entries `_setVal` stores during a run, in order: the full name
`BuildPath(handle key path, value name)`, the tag and the bytes. -/
def writes (w : World) : List Op → List (_str_t × ValStore._val_t)
  | [] => []
  | op :: ops =>
    match w.step op with
    | none => []
    | some w1 =>
      match op with
      | .setVal h name type data =>
        ((w.keys h)._rel name, ⟨toUINT type, data⟩) :: w1.writes ops
      | _ => w1.writes ops

/-- The entries stored during the run that follows the opening of the root handle. -/
def openWrites (fs : FS) (r : Nat) (hive keyPath : _str_t) (bWrite : Bool) (junk : Nat)
    (ops : List Op) : List (_str_t × ValStore._val_t) :=
  match _valKey._open_file (init fs) r hive keyPath bWrite junk with
  | none => []
  | some w => w.writes ops

/-- The world has at most one hive, at address 0; it belongs to the file `hive` and its
store holds the entries `m`. -/
def OneHive (hive : _str_t) (m : umap _str_t ValStore._val_t) (w : World) : Prop :=
  (∀ b, b ≠ 0 → w.heap b = none) ∧ (∀ g a, (w.keys g)._d = some a → a = 0) ∧
  (∀ d, w.heap 0 = some d → d.hive = hive ∧ d.VS._MAP = m)

end World

namespace KeyTree

/-- The tree of `cmdKTree` after its first two calls: `AddKey` of `r\m\l`, then
`AddValue` of `v` under `r`. -/
def ktreeExample : KeyTree :=
  ((KeyTree.empty.AddKey [114, 92, 109, 92, 108]).2.AddValue [114] [118]).2

/-- The list of the keys the first loop inserts in `j` iterations from `s`. -/
def chain : Nat → _str_t → List _str_t
  | 0, _ => []
  | j + 1, s => s :: chain j (erase_last s)

/-- The states a `KeyTree` object can be in: default-constructed, or the result of one of
its public operations on such a state. -/
inductive Reachable : KeyTree → Prop
  | empty : Reachable KeyTree.empty
  | addKey (t : KeyTree) (p : _str_t) : Reachable t → Reachable (t.AddKey p).2
  | addValue (t : KeyTree) (p n : _str_t) : Reachable t → Reachable (t.AddValue p n).2
  | deleteKey (t : KeyTree) (k : _str_t) : Reachable t → Reachable (t.DeleteKey k).2
  | clear (t : KeyTree) : Reachable t → Reachable t.clear

/-- Every indexed key with a non-empty parent path has its parent indexed and is listed
among the parent's children. -/
def Linked (m : umap _str_t _val_t) : Prop :=
  ∀ c, indexed m c → erase_last c ≠ [] →
    indexed m (erase_last c) ∧ (_splitpath c).2.2 ∈ kids m (erase_last c)

/-- The key path `s1\s2\...\sn` of the segments `s1, ..., sn`. -/
def joinPath : List _str_t → _str_t
  | [] => []
  | s :: rest => rest.foldl BuildPath s

end KeyTree

namespace World

/-- A world with one hive for the file `h`, holding nothing, and one handle, number 0,
open on it in write mode with key path `k`. -/
def sample : World :=
  ⟨fun b => if b = 0 then some ⟨ValStore.empty, KeyTree.empty, [104], 1⟩ else none, 1,
   fun g => if g = 0 then ⟨some 0, [107], true, 0⟩ else _valKey.null,
   FS.ofFiles (fun _ => none)⟩

/-- A store holding the values `k\s\v`, `k\s\t\u` and `k\w`. -/
def sample2Store : ValStore :=
  ((ValStore.empty.SetVal [107, 92, 115, 92, 118] 4 [1]).SetVal
    [107, 92, 115, 92, 116, 92, 117] 4 [2]).SetVal [107, 92, 119] 4 [3]

/-- A world like `sample` whose hive holds `sample2Store` and the key tree built from it. -/
def sample2 : World :=
  ⟨fun b => if b = 0 then some
      ⟨sample2Store, sample2Store.BuildKeyTree KeyTree.empty, [104], 1⟩ else none,
   1, fun g => if g = 0 then ⟨some 0, [107], true, 0⟩ else _valKey.null,
   FS.ofFiles (fun _ => none)⟩

end World

namespace _valKey

/-- The call `LastErr()`. -/
def LastErr (k : _valKey) : Int := k._lasterr

end _valKey

namespace World

/-- The worlds a program can be in: it starts without hives, with default-constructed
handles, and opens, uses and closes handles. -/
inductive Reachable : World → Prop
  | init (fs : FS) : Reachable (init fs)
  | openFile (w w' : World) (h : Nat) (hive keyPath : _str_t) (bWrite : Bool) (junk : Nat) :
      Reachable w → _valKey._open_file w h hive keyPath bWrite junk = some w' → Reachable w'
  | step (w w' : World) (op : Op) : Reachable w → w.step op = some w' → Reachable w'

/-- Every hive on the heap is counted at least once and its tree links every indexed key
to its parent. -/
def Sound (w : World) : Prop :=
  ∀ a d, w.heap a = some d → 1 ≤ d.refCount ∧ KeyTree.Linked d.KT._MAP

/-- The world `sample2` with a second handle, number 1, opened read-only from handle 0
with name `s`. -/
def sample3 : World :=
  ⟨fun b => if b = 0 then some
      ⟨sample2Store, sample2Store.BuildKeyTree KeyTree.empty, [104], 2⟩ else none,
   1, fun g => if g = 0 then ⟨some 0, [107], true, 0⟩
     else if g = 1 then ⟨some 0, [107, 92, 115], false, 0⟩ else _valKey.null,
   FS.ofFiles (fun _ => none)⟩

end World

namespace ValStore

/-- The filler count as the format description gives it: `(a - len mod a) mod a` for a
packing unit `a >= 2`, none for `a <= 1`. -/
def fillerCount (a len : Nat) : Nat := if 2 ≤ a then (a - len % a) % a else 0

/-- A record as the format description gives it for the packing unit `a`: the name
length, the name, its filler, the type tag, the value length, the value, its filler.
`fill k` is the content of a filler of `k` bytes. -/
def packedRecord (a : Nat) (fill : Nat → List BYTE) (e : _str_t × _val_t) : List BYTE :=
  leU32 e.1.length ++ (e.1 ++ (fill (fillerCount a e.1.length) ++ (leU32 e.2.type ++
    (leU32 e.2.data.length ++ (e.2.data ++ fill (fillerCount a e.2.data.length))))))

/-- A file made of the header `hdr` followed by the records of `l`, packed with the
packing unit `hdr` stores. -/
def packedFile (hdr : List BYTE) (fill : Nat → List BYTE) (l : List (_str_t × _val_t)) :
    List BYTE :=
  hdr ++ (l.map (packedRecord (_hdr_t.packing hdr) fill)).flatten

/-- A header with the magic of the format and the packing byte `a`. -/
def headerWithPacking (a : BYTE) : List BYTE :=
  [87, 68, 81, 65, 80, 73, 48, 48, 0, a, 0, 0, 0, 0, 0, 0]

end ValStore

/-- The characters of the zero-terminated string at a pointer: the bytes before the first
NUL of `p`, the memory from the pointer on. -/
def cstr (p : List BYTE) : List BYTE := p.takeWhile (fun c => c ≠ 0)

/-- The call `strncpy(p, src, n)`: the buffer `p` afterwards.  The characters of the
string at `src`, at most `n`, are copied and NULs are added until `n` bytes are written. -/
def strncpy (p src : List BYTE) (n : Nat) : List BYTE :=
  (cstr src).take n ++ List.replicate (n - (cstr src).length) 0 ++ p.drop n

namespace ValStore

/-- The call `SetVal(name, psz)`: `_str_t s(psz)`, then `(s.size()+1) * _ch_size()` bytes
at `psz` are stored with tag `RT_SZ`. -/
def SetVal_psz (S : ValStore) (name : _str_t) (psz : List BYTE) : ValStore :=
  let s := cstr psz
  S._setVal name RT_SZ (psz.take (s.length + 1))

/-- The call `GetVal(name, _str_t &val)`: the flag returned and `val` afterwards. -/
def GetVal_str (S : ValStore) (name : _str_t) (val : _str_t) : Bool × _str_t :=
  match S._getVal name with
  | some (_, data, size) => if 0 < size then (true, data) else (true, [])
  | none => (false, val)

end ValStore

namespace _valKey

/-- The registry type `REG_SZ`. -/
def REG_SZ : Nat := 1

/-- The member `_setVal(name, LPCSTR p, maxlen)` of handle `h`: `std::string s(p, maxlen)`,
then `s.size()` bytes of the converted string `_CvtCh(s.c_str())` are stored, which for
`char` is the string at `s.c_str()` and its terminator.  A `maxlen` beyond the terminator
of `p` would copy from behind the converted string; callers pass at most `strlen(p)+1`. -/
def _setVal_sz (w : World) (h : Nat) (name : _str_t) (p : List BYTE) (maxlen : Nat) :
    Option (Bool × World) :=
  let s := p.take maxlen
  let conv := cstr s ++ [0]
  _setVal w h name REG_SZ (conv.take s.length)

/-- The call `SetVal(name, LPCSTR v)`: `_setVal(name, v, strlen(v) + 1)`. -/
def SetVal_sz (w : World) (h : Nat) (name : _str_t) (v : List BYTE) : Option (Bool × World) :=
  _setVal_sz w h name v ((cstr v).length + 1)

/-- The member `_getVal(name, char *p, maxlen)` of handle `h`: the flag returned and the
buffer `p` afterwards.  The result is `none` also when `s.resize(len)` is called with a
negative `len` or the value does not fit the `len` bytes of `s`. -/
def _getVal_sz (w : World) (h : Nat) (name : _str_t) (p : List BYTE) (maxlen : Nat) :
    Option (Bool × List BYTE) :=
  match _valLength w h name with
  | none => none
  | some len =>
    if len = -1 then some (false, p)
    else if len < 0 then none
    else
      match _getVal w h name with
      | none => none
      | some r =>
        if r.1 = false then some (false, p)
        else if r.2.2 ≠ len.toNat then none
        else some (true, strncpy p r.2.1 maxlen)

/-- The call `GetVal(name, std::string &s)`: the flag returned and `s` afterwards. -/
def GetVal_str (w : World) (h : Nat) (name : _str_t) (s : List BYTE) :
    Option (Bool × List BYTE) :=
  match _getVal w h name with
  | none => none
  | some r =>
    if r.1 = false then some (false, s)
    else _getVal_sz w h name (s.take r.2.2 ++ List.replicate (r.2.2 - s.length) 0) r.2.2

end _valKey

namespace KeyTree

/-- The second loop of `AddKey` with the dereference of `_MAP.find(branch)` made explicit:
`none` when `find` returns `end()`. -/
def AddKey_loop2_checked : Nat → _str_t → umap _str_t _val_t → Option (umap _str_t _val_t)
  | 0, _, m => some m
  | n + 1, s, m =>
    let r := _splitpath s
    if r.1 = false then some m
    else
      match m.find r.2.1 with
      | none => none
      | some _ =>
        AddKey_loop2_checked n r.2.1
          (m.modify r.2.1 (fun v => { v with children := uset_insert v.children r.2.2 }))

/-- The call `AddKey(keyPath)` with the parent lookups checked. -/
def AddKey_checked (KT : KeyTree) (keyPath : _str_t) : Option (Nat × KeyTree) :=
  let r := AddKey_loop1 (keyPath.length + 1) keyPath KT._MAP 0
  (AddKey_loop2_checked r.2 keyPath r.1).map (fun m => (r.2, ⟨m⟩))

end KeyTree

/-- Conversion of an `int` to `UINT`. -/
def intToUINT (x : Int) : Nat := (x % 4294967296).toNat

/-- The function `RoundUp(value, modulus)` on `UINT`s. -/
def RoundUp (value modulus : Nat) : Nat :=
  if modulus = 0 then 0
  else if value % modulus = 0 then value
  else toUINT (modulus * (1 + value / modulus))

/-- The function `PadLen(len, blocksize)`; `len++` and the conversions between `int` and
`UINT` wrap. -/
def PadLen (len blocksize : Int) : Int :=
  if blocksize = 0 then 0
  else
    let len1 := if Int.tmod len blocksize = 0 then toInt (intToUINT (len + 1)) else len
    toInt (RoundUp (intToUINT len1) (intToUINT blocksize))

/-- The function `PadWrite(ptLen, blocksize, pt)`: the buffer `pt` afterwards.  The loop
stores `pad` at the indexes `ptLen`, ..., `padLen - 1`; `ptLen` is taken non-negative. -/
def PadWrite (ptLen blocksize : Int) (pt : List BYTE) : List BYTE :=
  let padLen := PadLen ptLen blocksize
  let pad : BYTE := ⟨((padLen - ptLen) % 256).toNat % 256, Nat.mod_lt _ (by decide)⟩
  (List.range' ptLen.toNat (padLen - ptLen).toNat).foldl (fun b i => b.set i pad) pt

/-- The loop of `PadCheckGet`, started at index `i`: the index it stops at and the buffer
afterwards. -/
def PadCheckGet_loop (pad : Int) (bClear : Bool) : Nat → List BYTE → Nat × List BYTE
  | 0, ct => (0, ct)
  | i + 1, ct =>
    if pad = ((ct.getD (i + 1) 0).val : Int) then
      PadCheckGet_loop pad bClear i (if bClear then ct.set (i + 1) 0 else ct)
    else (i + 1, ct)

/-- The function `PadCheckGet(ct, ctLen, bClear)`: the value returned and the buffer
afterwards; `ctLen` is taken positive. -/
def PadCheckGet (ct : List BYTE) (ctLen : Int) (bClear : Bool) : Int × List BYTE :=
  let i0 := (ctLen - 1).toNat
  let pad : Int := ((ct.getD i0 0).val : Int)
  let r := PadCheckGet_loop pad bClear i0 ct
  (if pad = ctLen - 1 - (r.1 : Int) then pad else -1, r.2)

/-- The table `Hex` of `FmtHex`: the characters `0`-`9`, `a`-`f`. -/
def Hex : List BYTE := [48, 49, 50, 51, 52, 53, 54, 55, 56, 57, 97, 98, 99, 100, 101, 102]

/-- The loop of `FmtHex` from index `i` on: for each byte the delimiter, when there is one
and `i` is not 0, and the two digits `Hex[*p >> 4]`, `Hex[*p & 0x0f]` are appended to `s`. -/
def FmtHex_loop (chDelim : BYTE) : Nat → List BYTE → List BYTE → List BYTE
  | _, [], s => s
  | i, b :: rest, s =>
    let s1 := if chDelim ≠ 0 ∧ i ≠ 0 then s ++ [chDelim] else s
    FmtHex_loop chDelim (i + 1) rest
      (s1 ++ [Hex.getD (b.val >>> 4) 0, Hex.getD (b.val &&& 15) 0])

/-- The function `FmtHex(s, p, cnt, chDelim)` for `char`: the string `s` afterwards, for
the `cnt` bytes `p`. -/
def FmtHex (p : List BYTE) (chDelim : BYTE) : List BYTE := FmtHex_loop chDelim 0 p []

/-- The function `HexDigit(c)`; `(BYTE)-1` is 255. -/
def HexDigit (c : BYTE) : BYTE :=
  if 48 ≤ c ∧ c ≤ 57 then c - 48
  else if 65 ≤ c ∧ c ≤ 70 then c - 65 + 10
  else if 97 ≤ c ∧ c ≤ 102 then c - 97 + 10
  else 255

/-- The loop of `CvtHex` from index `i` on, over the characters left: `accum` and the
bytes stored in `m` so far. -/
def CvtHex_loop : List BYTE → Nat → BYTE → List BYTE → List BYTE
  | [], _, _, m => m
  | c :: cs, i, accum, m =>
    let nib := HexDigit c
    let nib1 := if i % 2 = 0 then nib <<< 4 else nib
    let accum1 := accum + nib1
    if i % 2 = 1 then CvtHex_loop cs (i + 1) 0 (m ++ [accum1])
    else CvtHex_loop cs (i + 1) accum1 m

/-- The function `CvtHex(pHex, pBy)` for `char` and a non-null `pHex`: the count returned
and the bytes copied to `pBy`.  `len` is `(int)strlen(pHex)`; the loop runs over the
first `len` characters, over none when `len` is not positive. -/
def CvtHex (pHex : List BYTE) : Int × List BYTE :=
  let len := toInt (cstr pHex).length
  let m := CvtHex_loop ((cstr pHex).take len.toNat) 0 0 []
  ((m.length : Int), m)

/-- The function `toupper` on a character. -/
def toupper (c : BYTE) : BYTE := if 97 ≤ c ∧ c ≤ 122 then c - 32 else c

/-- The two digits `FmtHex` writes for a byte. -/
def hexDigits (b : BYTE) : List BYTE := [Hex.getD (b.val >>> 4) 0, Hex.getD (b.val &&& 15) 0]

/-- The call `memcpy(dst, src, n)`: the buffer `dst` afterwards (`src` holds at least `n`
bytes). -/
def memcpy (dst src : List BYTE) (n : Nat) : List BYTE := src.take n ++ dst.drop n

/-- The loop `for (i = 0; i < n; i++) buf[i] ^= c` of `hmac`: the buffer afterwards. -/
def xorLoop (n : Nat) (c : BYTE) (buf : List BYTE) : List BYTE :=
  (List.range n).foldl (fun b i => b.set i (b.getD i 0 ^^^ c)) buf

/-- The constant `HMAC_KEY_LEN`. -/
def HMAC_KEY_LEN : Nat := 64

/-- The constant `HMAC_IPAD_BYTE` (0x36). -/
def HMAC_IPAD_BYTE : BYTE := 54

/-- The constant `HMAC_OPAD_BYTE` (0x5C). -/
def HMAC_OPAD_BYTE : BYTE := 92

/-- The function `hmac(txt, txtlen, key, keylen, out, hash, hashlen)`: the bytes the last call
of `hash` writes to `out`. The delegate `hash(p, cb, pOut)` is the function `hash` from the
bytes `p[0..cb)` to the bytes it writes at `pOut`; `txtlen` and `keylen` are the lengths of
`txt` and `key`. A `MemBuf` starts out as zero bytes. -/
def hmac (hash : List BYTE → List BYTE) (hashlen : Nat) (txt key : List BYTE) : List BYTE :=
  let K0 := List.replicate HMAC_KEY_LEN (0 : BYTE)
  let K := if key.length ≤ HMAC_KEY_LEN then memcpy K0 key key.length
    else memcpy K0 (hash key) (hash key).length
  let inner0 := List.replicate (HMAC_KEY_LEN + txt.length) (0 : BYTE)
  let inner1 := memcpy inner0 K HMAC_KEY_LEN
  let inner2 := inner1.take HMAC_KEY_LEN ++ memcpy (inner1.drop HMAC_KEY_LEN) txt txt.length
  let inner := xorLoop HMAC_KEY_LEN HMAC_IPAD_BYTE inner2
  let innerhash := memcpy (List.replicate hashlen (0 : BYTE)) (hash inner) (hash inner).length
  let outer0 := List.replicate (HMAC_KEY_LEN + innerhash.length) (0 : BYTE)
  let outer1 := memcpy outer0 K HMAC_KEY_LEN
  let outer2 := outer1.take HMAC_KEY_LEN ++
    memcpy (outer1.drop HMAC_KEY_LEN) innerhash innerhash.length
  let outer := xorLoop HMAC_KEY_LEN HMAC_OPAD_BYTE outer2
  hash outer

/-- Byte-wise exclusive or of two byte strings, as the RFC texts write `a XOR b`. -/
def xorBytes (a b : List BYTE) : List BYTE := List.zipWith (fun x y => x ^^^ y) a b

/-- The formula of RFC 2104 in the words of the specification:
`H((K0 xor opad) || H((K0 xor ipad) || text))`, with `K0` the key, or `H(key)` for a key of
more than 64 bytes, followed by zero bytes up to 64 bytes. -/
def hmacRFC (H : List BYTE → List BYTE) (txt key : List BYTE) : List BYTE :=
  let K0 := if key.length ≤ 64 then key ++ List.replicate (64 - key.length) (0 : BYTE)
    else H key ++ List.replicate (64 - (H key).length) (0 : BYTE)
  let ipad := List.replicate 64 (54 : BYTE)
  let opad := List.replicate 64 (92 : BYTE)
  H (xorBytes K0 opad ++ H (xorBytes K0 ipad ++ txt))

/-- A one-byte checksum, used as a sample hash function: the sum of the bytes. -/
def sumHash (x : List BYTE) : List BYTE := [x.foldl (fun a b => a + b) 0]

/-- The constant `BLK_SIZE`. -/
def BLK_SIZE : Nat := 16

namespace MemBuf

/-- The function `MemBuf::xor(dst, src, count)`: the buffer `dst` afterwards, its first `count`
bytes xored with those of `src` (both hold at least `count` bytes). -/
def xor (dst src : List BYTE) (count : Nat) : List BYTE :=
  List.zipWith (fun x y => x ^^^ y) (dst.take count) (src.take count) ++ dst.drop count

/-- The function `MemBuf::xor(dst, src1, src2, count)`: the buffer `dst` afterwards, its first
`count` bytes replaced by the xor of those of `src1` and `src2`. -/
def xor3 (dst src1 src2 : List BYTE) (count : Nat) : List BYTE :=
  List.zipWith (fun x y => x ^^^ y) (src1.take count) (src2.take count) ++ dst.drop count

/-- The loop of `MemBuf::lsh1`, which runs from the last byte to the first: the bytes written
and the value of `overflow` after the first byte of the list was handled. -/
def lsh1_loop : List BYTE → List BYTE × BYTE
  | [] => ([], 0)
  | x :: xs =>
    let r := lsh1_loop xs
    (((x <<< 1) ||| r.2) :: r.1, if x &&& 128 ≠ 0 then 1 else 0)

/-- The function `MemBuf::lsh1(dst, src, count)`: the buffer `dst` afterwards. -/
def lsh1 (dst src : List BYTE) (count : Nat) : List BYTE :=
  (lsh1_loop (src.take count)).1 ++ dst.drop count

end MemBuf

/-- The function `AES_128(key, in, out)` of `CMAC.cpp`: the block written to `out`, with the
one-block encryption `aes(in, out, 16, key, iv, 1)` under a zero `iv` taken as the function
`E key` of the 16 bytes at `in`. -/
def AES_128 (E : List BYTE → List BYTE → List BYTE) (key inp : List BYTE) : List BYTE :=
  E key (inp.take BLK_SIZE)

/-- The constant `const_Rb`. -/
def const_Rb : List BYTE := [0, 0, 0, 0, 0, 0, 0, 0, 0, 0, 0, 0, 0, 0, 0, 135]

/-- The function `GenSubkeys(key, K1, K2)`: the two blocks `(K1, K2)` afterwards. -/
def GenSubkeys (E : List BYTE → List BYTE → List BYTE) (key : List BYTE) :
    List BYTE × List BYTE :=
  let Z := List.replicate BLK_SIZE (0 : BYTE)
  let L := AES_128 E key Z
  let K1 := MemBuf.lsh1 (List.replicate BLK_SIZE 0) L BLK_SIZE
  let K1 := if L.getD 0 0 &&& 128 ≠ 0 then MemBuf.xor K1 const_Rb BLK_SIZE else K1
  let K2 := MemBuf.lsh1 (List.replicate BLK_SIZE 0) K1 BLK_SIZE
  let K2 := if K1.getD 0 0 &&& 128 ≠ 0 then MemBuf.xor K2 const_Rb BLK_SIZE else K2
  (K1, K2)

/-- The function `Pad(buf, len, out)`: the block written to `out`. -/
def Pad (buf : List BYTE) (len : Nat) : List BYTE :=
  (List.range BLK_SIZE).map
    (fun i => if i < len then buf.getD i 0 else if i = len then 128 else 0)

/-- The function `cmac_aes128(key, in, length, out)`: the block written to `out`. The pointer
`&in[k]` is the list `inp.drop k`. -/
def cmac_aes128 (E : List BYTE → List BYTE → List BYTE) (key inp : List BYTE)
    (length : Nat) : List BYTE :=
  let K := GenSubkeys E key
  let Blks := max 1 ((length + BLK_SIZE - 1) / BLK_SIZE)
  let bPad := decide (length < Blks * BLK_SIZE)
  let M_last :=
    if bPad then
      MemBuf.xor (Pad (inp.drop (BLK_SIZE * (Blks - 1))) (length % BLK_SIZE)) K.2 BLK_SIZE
    else
      MemBuf.xor3 (List.replicate BLK_SIZE 0) (inp.drop (BLK_SIZE * (Blks - 1))) K.1 BLK_SIZE
  let X := (List.range (Blks - 1)).foldl
    (fun X i => AES_128 E key (MemBuf.xor X (inp.drop (BLK_SIZE * i)) BLK_SIZE))
    (List.replicate BLK_SIZE 0)
  AES_128 E key (MemBuf.xor X M_last BLK_SIZE)

/-- The number a byte string spells, most significant byte first. -/
def ofBE : List BYTE → Nat
  | [] => 0
  | x :: xs => x.val * 256 ^ xs.length + ofBE xs

/-- The `n` low bytes of a number, most significant byte first. -/
def toBE : Nat → Nat → List BYTE
  | 0, _ => []
  | n + 1, v => ⟨v / 256 ^ n % 256, Nat.mod_lt _ (by decide)⟩ :: toBE n v

/-- The one-bit left shift `L << 1` of RFC 4493 on a bit string given as bytes: the number
doubled, the bit shifted out dropped. -/
def shiftLeftRFC (b : List BYTE) : List BYTE :=
  toBE b.length ((2 * ofBE b) % 256 ^ b.length)

/-- The test `MSB(L) = 1` of RFC 4493: the most significant bit of the bit string. -/
def msbRFC (b : List BYTE) : Bool := decide (256 ^ b.length ≤ 2 * ofBE b)

/-- One subkey step of RFC 4493 figure 2.2 in the words of the specification: a one-bit left
shift and, when the most significant bit was set, an xor with 0x87 in the last byte. -/
def subkeyRFC (L : List BYTE) : List BYTE :=
  if msbRFC L then xorBytes (shiftLeftRFC L) (List.replicate 15 0 ++ [135]) else shiftLeftRFC L

/-- The function `padding(x)` of RFC 4493: `x`, the byte 0x80, then zero bytes up to 16
bytes. -/
def paddingRFC (x : List BYTE) : List BYTE := x ++ [128] ++ List.replicate (15 - x.length) 0

/-- The algorithm AES-CMAC of RFC 4493 figure 2.3 in the words of the specification, over a
block cipher `E`: `n = max(1, ceil(len/16))` blocks, the subkeys from `L = E(0^128)`, the last
block xored with `K1` when `len` is a positive multiple of 16 and otherwise padded and xored
with `K2`, and `E` applied along the CBC chain. -/
def cmacRFC (E : List BYTE → List BYTE → List BYTE) (key M : List BYTE) : List BYTE :=
  let L := E key (List.replicate 16 0)
  let K1 := subkeyRFC L
  let K2 := subkeyRFC K1
  let n := max 1 (if M.length % 16 = 0 then M.length / 16 else M.length / 16 + 1)
  let flag := decide (0 < M.length ∧ M.length % 16 = 0)
  let block := fun i => (M.drop (16 * i)).take 16
  let M_last :=
    if flag then xorBytes (block (n - 1)) K1 else xorBytes (paddingRFC (block (n - 1))) K2
  let X := (List.range (n - 1)).foldl (fun X i => E key (xorBytes X (block i)))
    (List.replicate 16 0)
  E key (xorBytes M_last X)

/-- A sample block cipher: byte-wise sum of block and key, plus one. -/
def addCipher (k x : List BYTE) : List BYTE :=
  (List.range 16).map (fun i => x.getD i 0 + k.getD i 0 + 1)

namespace ValStore

/-- The entry as `_serialize` writes it: the value cut to the length the `UINT` cast
leaves. -/
def cutEntry (e : _str_t × _val_t) : _str_t × _val_t :=
  (e.1, ⟨e.2.type, e.2.data.take (toUINT e.2.data.length)⟩)

/-- The store as `_serialize` writes it: every value cut to the length the `UINT` cast
leaves. -/
def cutStore (S : ValStore) : ValStore := ⟨S._MAP.map cutEntry⟩

/-- Keys are pairwise different, and every type tag and every name length fits 32 bits. -/
def NamesFit (m : umap _str_t _val_t) : Prop :=
  (umap.keys m).Nodup ∧ ∀ e ∈ m, e.2.type < 4294967296 ∧ e.1.length < 4294967296

end ValStore

namespace World

/-- The hive `d` is written to its file by `Serialize`, and the file is opened with the root
handle `r` of a program that has no hive yet. -/
def reload (fs : FS) (d : __vkdata) (r : Nat) (keyPath : _str_t) (bWrite : Bool) (junk : Nat) :
    Option World :=
  _valKey._open_file (init (d.VS.Serialize fs d.hive).2) r d.hive keyPath bWrite junk

/-- Every reload of the hive `d` from its file, in a file system where the file can be
opened for writing, gives a hive whose tree equals the tree of `d`: same indexed key paths,
same children sets, same value-name sets. -/
def Reloads (d : __vkdata) : Prop :=
  ∀ (fs : FS) (r : Nat) (keyPath : _str_t) (bWrite : Bool) (junk : Nat),
    fs.canWrite d.hive = true →
    ∃ w' d', reload fs d r keyPath bWrite junk = some w' ∧ w'.data r = some d' ∧
      KeyTree.TreeEq d.KT d'.KT

end World

/-! # Part 2: lemmas and the claims (theorems) -/

/-! ## Facts about the containers -/

namespace umap

variable {κ ν : Type} [DecidableEq κ]

theorem find_assign_same (m : umap κ ν) (k : κ) (v : ν) :
    find (assign m k v) k = some v := by
  induction m with
  | nil => simp [assign, find]
  | cons e rest ih =>
    obtain ⟨k', v'⟩ := e
    by_cases h : k' = k
    · simp [assign, find, h]
    · simp [assign, find, h, ih]

theorem find_assign_other (m : umap κ ν) (k k2 : κ) (v : ν) (h : k ≠ k2) :
    find (assign m k v) k2 = find m k2 := by
  induction m with
  | nil => simp [assign, find, h]
  | cons e rest ih =>
    obtain ⟨k', v'⟩ := e
    by_cases h1 : k' = k
    · subst h1
      simp [assign, find, h]
    · by_cases h2 : k' = k2
      · subst h2
        simp [assign, find, h1]
      · simp [assign, find, h1, h2, ih]

end umap

/-! ## C1: set/get round trip -/

namespace ValStore

/-- The size reported after a `SetVal` is the payload length converted to `int`. -/
theorem GetSize_SetVal (S : ValStore) (n : _str_t) (k : Nat) (b : List BYTE) :
    (S.SetVal n k b).GetSize n = toInt b.length := by
  have hdata : (if 0 < b.length then b else []) = b := by
    cases b <;> simp
  simp only [SetVal, _setVal, GetSize, _getVal, umap.find_assign_same, hdata]

/-- C1 (refuted as stated): a payload of 2^31 bytes is stored, but `GetSize` converts
its size to `int` and reports a negative number instead of the length. -/
theorem C1_getsize_wraps :
    ¬ (∀ (S : ValStore) (n : _str_t) (k : Nat) (b : List BYTE),
        (S.SetVal n k b).IsValue n = true ∧ (S.SetVal n k b).GetType n = k ∧
        (S.SetVal n k b).GetSize n = (b.length : Int) ∧
        (S.SetVal n k b).GetVal n = (true, b)) := by
  intro h
  have h3 := (h empty [] RT_BIN (List.replicate 2147483648 0)).2.2.1
  rw [GetSize_SetVal, List.length_replicate] at h3
  revert h3
  decide

/-- C1 (amended): for every store, name, tag and payload shorter than 2^31 bytes, after
`SetVal(n, k, b)` the name is present, `GetType` is `k`, `GetSize` is the length of `b`
and `GetVal` returns exactly `b`. -/
theorem C1_set_get_round_trip (S : ValStore) (n : _str_t) (k : Nat) (b : List BYTE)
    (hb : b.length < 2147483648) :
    (S.SetVal n k b).IsValue n = true ∧ (S.SetVal n k b).GetType n = k ∧
    (S.SetVal n k b).GetSize n = (b.length : Int) ∧
    (S.SetVal n k b).GetVal n = (true, b) := by
  have hdata : (if 0 < b.length then b else []) = b := by
    cases b <;> simp
  have hU : toUINT b.length = b.length := by
    unfold toUINT; omega
  have hI : toInt b.length = (b.length : Int) := by
    unfold toInt
    have : b.length % 4294967296 = b.length := by omega
    rw [this, if_pos hb]
  simp only [SetVal, _setVal, IsValue, GetType, GetSize, GetVal, _getVal,
    umap.find_assign_same, hdata, hU, hI, List.take_length, Option.isSome_some, and_self]

/-- Witness for C1 on the store of `cmdRHash` after its first `SetVal`. -/
theorem C1_set_get_round_trip_witness :
    (empty.SetVal [98] RT_U4 [78, 97, 188, 0]).IsValue [98] = true ∧
    (empty.SetVal [98] RT_U4 [78, 97, 188, 0]).GetType [98] = RT_U4 ∧
    (empty.SetVal [98] RT_U4 [78, 97, 188, 0]).GetSize [98] = (([78, 97, 188, 0] : List BYTE).length : Int) ∧
    (empty.SetVal [98] RT_U4 [78, 97, 188, 0]).GetVal [98] = (true, [78, 97, 188, 0]) :=
  C1_set_get_round_trip empty [98] RT_U4 [78, 97, 188, 0] (by decide)

end ValStore

/-! ## Facts about streams -/

theorem ofLE_leU32 (n : Nat) : ofLE (leU32 n) = n % 4294967296 := by
  simp only [leU32, ofLE]
  omega

theorem leU32_length (n : Nat) : (leU32 n).length = 4 := rfl

/-- A read that the stream can satisfy leaves the bytes after the ones requested. -/
theorem fread_append_snd (buf a r : List BYTE) (e : Bool) :
    (fread buf a.length ⟨a ++ r, e⟩).2 = ⟨r, e⟩ := by
  unfold fread
  by_cases h0 : a.length = 0
  · have ha : a = [] := List.length_eq_zero.mp h0
    subst ha
    simp
  · simp [h0]

/-- A read that the stream can satisfy returns the next `count` bytes. -/
theorem fread_append (buf a r : List BYTE) (e : Bool) (h : buf.length = a.length) :
    fread buf a.length ⟨a ++ r, e⟩ = (a, ⟨r, e⟩) := by
  unfold fread
  by_cases h0 : a.length = 0
  · have ha : a = [] := List.length_eq_zero.mp h0
    subst ha
    have hb : buf = [] := List.length_eq_zero.mp (by simpa using h)
    simp [hb]
  · simp [h0, List.drop_eq_nil_of_le (Nat.le_of_eq h)]

namespace umap

variable {κ ν : Type} [DecidableEq κ]

/-- Assigning to a key that is absent appends the entry. -/
theorem assign_fresh (m : umap κ ν) (k : κ) (v : ν) (h : k ∉ keys m) :
    assign m k v = m ++ [(k, v)] := by
  induction m with
  | nil => rfl
  | cons e rest ih =>
    obtain ⟨k', v'⟩ := e
    have h1 : k' ≠ k := fun hk => h (by simp [keys, hk])
    have h2 : k ∉ keys rest := fun hk => h (by
      simp only [keys, List.map_cons, List.mem_cons]
      exact Or.inr hk)
    simp [assign, h1, ih h2]

/-- Re-inserting the entries of a map with pairwise different keys rebuilds it. -/
theorem foldl_assign_fresh (l m : umap κ ν) (h : (keys m ++ keys l).Nodup) :
    l.foldl (fun acc e => assign acc e.1 e.2) m = m ++ l := by
  induction l generalizing m with
  | nil => simp
  | cons e rest ih =>
    obtain ⟨k, v⟩ := e
    have hk : k ∉ keys m := by
      intro hk
      have := (List.nodup_append.mp h).2.2
      exact this hk (by simp [keys])
    have hn : (keys (m ++ [(k, v)]) ++ keys rest).Nodup := by
      have : keys (m ++ [(k, v)]) ++ keys rest = keys m ++ keys ((k, v) :: rest) := by
        simp [keys]
      rw [this]; exact h
    simp only [List.foldl_cons]
    rw [assign_fresh m k v hk, ih _ hn]
    simp

end umap

namespace ValStore

theorem _wpack_length (len pack : Nat) : (_wpack len pack).length = _pack_count len pack := by
  simp [_wpack]

/-- Reading the filler skips exactly the filler that was written. -/
theorem _rpack_wpack (len pack : Nat) (r : List BYTE) (e : Bool) :
    _rpack len pack ⟨_wpack len pack ++ r, e⟩ = ⟨r, e⟩ := by
  unfold _rpack
  by_cases h : pack < 2
  · simp [h, _wpack, _pack_count]
  · rw [if_neg h]
    have := fread_append_snd (List.replicate 4 0) (_wpack len pack) r e
    rwa [_wpack_length] at this

/-- The record of an entry that fits, field by field. -/
theorem _serialize_record_eq (pack : Nat) (e : _str_t × _val_t)
    (h1 : e.1.length < 4294967296) (h2 : e.2.data.length < 4294967296) :
    _serialize_record pack e =
    leU32 e.1.length ++ (e.1 ++ (_wpack e.1.length pack ++ (leU32 e.2.type ++
      (leU32 e.2.data.length ++ (e.2.data ++ _wpack e.2.data.length pack))))) := by
  obtain ⟨name, ⟨type, data⟩⟩ := e
  simp only at h1 h2
  have hn : toUINT name.length = name.length := Nat.mod_eq_of_lt h1
  have hd : toUINT data.length = data.length := Nat.mod_eq_of_lt h2
  have hdata : (if 0 < data.length then data else []) = data := by
    cases data <;> simp
  simp only [_serialize_record, hn, hd, List.take_length, hdata, List.append_assoc]

/-- One iteration of the reading loop consumes exactly one written record. -/
theorem _deserialize_loop_record (junk pack fuel : Nat) (e : _str_t × _val_t)
    (r : List BYTE) (m : umap _str_t _val_t) (h : entryFits e) :
    _deserialize_loop junk pack (fuel + 1) ⟨_serialize_record pack e ++ r, false⟩ m =
    _deserialize_loop junk pack fuel ⟨r, false⟩ (m.assign e.1 e.2) := by
  rw [_serialize_record_eq pack e h.2.1 h.2.2]
  obtain ⟨name, ⟨type, data⟩⟩ := e
  obtain ⟨ht, h1, h2⟩ := h
  simp only at ht h1 h2
  simp only [List.append_assoc]
  have e1 : ∀ z, fread (leU32 0) 4 ⟨leU32 name.length ++ z, false⟩ =
      (leU32 name.length, ⟨z, false⟩) :=
    fun z => fread_append (leU32 0) (leU32 name.length) z false rfl
  have e2 : ∀ z, fread (List.replicate name.length 0) name.length ⟨name ++ z, false⟩ =
      (name, ⟨z, false⟩) :=
    fun z => fread_append _ name z false (by simp)
  have e3 : ∀ z, fread (leU32 junk) 4 ⟨leU32 type ++ z, false⟩ = (leU32 type, ⟨z, false⟩) :=
    fun z => fread_append (leU32 junk) (leU32 type) z false rfl
  have e4 : ∀ z, fread (leU32 name.length) 4 ⟨leU32 data.length ++ z, false⟩ =
      (leU32 data.length, ⟨z, false⟩) :=
    fun z => fread_append (leU32 name.length) (leU32 data.length) z false rfl
  have e5 : ∀ z, fread (List.replicate data.length 0) data.length ⟨data ++ z, false⟩ =
      (data, ⟨z, false⟩) :=
    fun z => fread_append _ data z false (by simp)
  have hLn : ofLE (leU32 name.length) = name.length := by
    rw [ofLE_leU32]; exact Nat.mod_eq_of_lt h1
  have hLd : ofLE (leU32 data.length) = data.length := by
    rw [ofLE_leU32]; exact Nat.mod_eq_of_lt h2
  have hLt : ofLE (leU32 type) = type := by
    rw [ofLE_leU32]; exact Nat.mod_eq_of_lt ht
  have h5 : ∀ z : List BYTE, (if 0 < data.length then ((data, ⟨z, false⟩) : List BYTE × File)
      else ([], ⟨data ++ z, false⟩)) = (data, ⟨z, false⟩) := by
    intro z; cases data <;> simp
  rw [_deserialize_loop]
  simp only [feof, e1, hLn, e2, _rpack_wpack, e3, e4, hLd, e5, hLt, h5]
  simp

/-- At the end of the file the reading loop stops without a further assignment. -/
theorem _deserialize_loop_end (junk pack fuel : Nat) (m : umap _str_t _val_t) :
    _deserialize_loop junk pack (fuel + 1) ⟨[], false⟩ m = m := by
  rw [_deserialize_loop]
  simp [feof, fread]

/-- Once the end-of-file flag is set the reading loop stops. -/
theorem _deserialize_loop_eof (junk pack fuel : Nat) (f : File)
    (m : umap _str_t _val_t) (h : f.eof = true) :
    _deserialize_loop junk pack fuel f m = m := by
  cases fuel with
  | zero => rfl
  | succ k => rw [_deserialize_loop]; simp [feof, h]

/-- The reading loop run over the records written for a list of entries performs the
assignments `_MAP[name] = val` in order and goes on with the bytes that follow. -/
theorem _deserialize_loop_records (junk pack : Nat) (l : List (_str_t × _val_t))
    (t : List BYTE) (fuel : Nat) (m : umap _str_t _val_t) (hl : ∀ e ∈ l, entryFits e) :
    _deserialize_loop junk pack (l.length + fuel)
      ⟨(l.map (_serialize_record pack)).flatten ++ t, false⟩ m =
    _deserialize_loop junk pack fuel ⟨t, false⟩ (l.foldl (fun acc e => acc.assign e.1 e.2) m) := by
  induction l generalizing m with
  | nil => simp
  | cons e rest ih =>
    have he := hl e (List.mem_cons_self _ _)
    have hfuel : (e :: rest).length + fuel = (rest.length + fuel) + 1 := by
      simp only [List.length_cons]; omega
    simp only [List.map_cons, List.flatten_cons, List.foldl_cons, List.append_assoc]
    rw [hfuel, _deserialize_loop_record junk pack _ e _ m he]
    exact ih _ (fun e' h' => hl e' (List.mem_cons_of_mem _ h'))

theorem _serialize_record_length_pos (pack : Nat) (e : _str_t × _val_t) :
    0 < (_serialize_record pack e).length := by
  simp [_serialize_record, leU32_length]

theorem length_le_records (pack : Nat) (l : List (_str_t × _val_t)) :
    l.length ≤ ((l.map (_serialize_record pack)).flatten).length := by
  induction l with
  | nil => simp
  | cons e rest ih =>
    have := _serialize_record_length_pos pack e
    simp only [List.map_cons, List.flatten_cons, List.length_cons, List.length_append]
    omega

theorem fread_rest_le (buf : List BYTE) (count : Nat) (f : File) :
    (fread buf count f).2.rest.length ≤ f.rest.length := by
  unfold fread
  split
  · exact Nat.le_refl _
  · split
    · simp
    · simp

theorem _rpack_rest_le (len pack : Nat) (f : File) :
    (_rpack len pack f).rest.length ≤ f.rest.length := by
  unfold _rpack
  split
  · exact Nat.le_refl _
  · exact fread_rest_le _ _ _

/-- A read of four bytes that does not hit the end of the file consumes four bytes. -/
theorem fread_four_rest (buf : List BYTE) (f : File)
    (h : (fread buf 4 f).2.eof = false) :
    (fread buf 4 f).2.rest.length + 4 = f.rest.length := by
  unfold fread at h ⊢
  by_cases hc : 4 ≤ f.rest.length
  · simp [hc]
  · simp [hc] at h

/-- The result of the reading loop does not depend on the fuel once the fuel exceeds
the number of unread bytes: the loop always terminates by itself. -/
theorem _deserialize_loop_fuel (junk pack : Nat) (n k : Nat) (f : File)
    (m : umap _str_t _val_t) (hn : f.rest.length < n) (hk : f.rest.length < k) :
    _deserialize_loop junk pack n f m = _deserialize_loop junk pack k f m := by
  induction n generalizing k f m with
  | zero => omega
  | succ n ih =>
    obtain ⟨k, rfl⟩ : ∃ k', k = k' + 1 := ⟨k - 1, by omega⟩
    rw [_deserialize_loop, _deserialize_loop]
    by_cases h0 : feof f = true
    · simp [h0]
    · by_cases h1 : feof (fread (leU32 0) 4 f).2 = true
      · simp [h0, h1]
      · simp only [h0, h1, if_false, Bool.false_eq_true]
        have h1' : (fread (leU32 0) 4 f).2.eof = false := by simpa [feof] using h1
        have hfour := fread_four_rest (leU32 0) f h1'
        apply ih
        · refine Nat.lt_of_le_of_lt (_rpack_rest_le _ _ _) ?_
          split
          · refine Nat.lt_of_le_of_lt (fread_rest_le _ _ _) ?_
            refine Nat.lt_of_le_of_lt (fread_rest_le _ _ _) ?_
            refine Nat.lt_of_le_of_lt (fread_rest_le _ _ _) ?_
            refine Nat.lt_of_le_of_lt (_rpack_rest_le _ _ _) ?_
            refine Nat.lt_of_le_of_lt (fread_rest_le _ _ _) ?_
            omega
          · refine Nat.lt_of_le_of_lt (fread_rest_le _ _ _) ?_
            refine Nat.lt_of_le_of_lt (fread_rest_le _ _ _) ?_
            refine Nat.lt_of_le_of_lt (_rpack_rest_le _ _ _) ?_
            refine Nat.lt_of_le_of_lt (fread_rest_le _ _ _) ?_
            omega
        · refine Nat.lt_of_le_of_lt (_rpack_rest_le _ _ _) ?_
          split
          · refine Nat.lt_of_le_of_lt (fread_rest_le _ _ _) ?_
            refine Nat.lt_of_le_of_lt (fread_rest_le _ _ _) ?_
            refine Nat.lt_of_le_of_lt (fread_rest_le _ _ _) ?_
            refine Nat.lt_of_le_of_lt (_rpack_rest_le _ _ _) ?_
            refine Nat.lt_of_le_of_lt (fread_rest_le _ _ _) ?_
            omega
          · refine Nat.lt_of_le_of_lt (fread_rest_le _ _ _) ?_
            refine Nat.lt_of_le_of_lt (fread_rest_le _ _ _) ?_
            refine Nat.lt_of_le_of_lt (_rpack_rest_le _ _ _) ?_
            refine Nat.lt_of_le_of_lt (fread_rest_le _ _ _) ?_
            omega

/-- Reading a hive image: the header is accepted, the records of `l` are assigned in
order, and the loop goes on with `t`. -/
theorem _deserialize_bytes_hiveImage (hdr : List BYTE) (l : List (_str_t × _val_t))
    (t : List BYTE) (junk : Nat) (h16 : hdr.length = 16)
    (hmagic : _hdr_t.magic hdr = _hdr_t.magic _hdr_t) (hl : ∀ e ∈ l, entryFits e) :
    _deserialize_bytes (hiveImage hdr l t) junk =
    (true, ⟨_deserialize_loop junk (_hdr_t.packing hdr) (t.length + 1) ⟨t, false⟩
      (l.foldl (fun acc e => acc.assign e.1 e.2) [])⟩) := by
  have hr : fread _hdr_t 16 ⟨hiveImage hdr l t, false⟩ =
      (hdr, ⟨(l.map (_serialize_record (_hdr_t.packing hdr))).flatten ++ t, false⟩) := by
    have := fread_append _hdr_t hdr
      ((l.map (_serialize_record (_hdr_t.packing hdr))).flatten ++ t) false (by rw [h16]; rfl)
    rwa [h16] at this
  have hlen : (hiveImage hdr l t).length + 1 = l.length +
      ((hiveImage hdr l t).length + 1 - l.length) := by
    have := length_le_records (_hdr_t.packing hdr) l
    simp only [hiveImage, List.length_append]
    omega
  unfold _deserialize_bytes
  simp only [hr, hmagic, ne_eq, not_true_eq_false, if_false]
  rw [hlen, _deserialize_loop_records junk _ l t _ [] hl]
  have hfuel : t.length < (hiveImage hdr l t).length + 1 - l.length := by
    have := length_le_records (_hdr_t.packing hdr) l
    simp only [hiveImage, List.length_append]
    omega
  rw [_deserialize_loop_fuel junk _ _ (t.length + 1) ⟨t, false⟩ _ hfuel (Nat.lt_succ_self _)]

/-- What `_serialize` writes is the hive image of the store's entries under the default
header. -/
theorem _serialize_bytes_eq_hiveImage (S : ValStore) :
    S._serialize_bytes = hiveImage _hdr_t S._MAP [] := by
  have hp : _hdr_t.packing _hdr_t = _PACK := by decide
  simp [_serialize_bytes, hiveImage, hp]

theorem WF_entryFits (S : ValStore) (hwf : S.WF) (hlen : S.lengthsBelow) :
    ∀ e ∈ S._MAP, entryFits e :=
  fun e he => ⟨hwf.2 e he, (hlen e he).1, (hlen e he).2⟩

/-- Reading back what `_serialize` wrote for a well-formed store returns that store. -/
theorem _deserialize_bytes_serialize (S : ValStore) (junk : Nat) (hwf : S.WF)
    (hlen : S.lengthsBelow) :
    _deserialize_bytes S._serialize_bytes junk = (true, S) := by
  rw [_serialize_bytes_eq_hiveImage,
    _deserialize_bytes_hiveImage _hdr_t S._MAP [] junk rfl rfl (WF_entryFits S hwf hlen),
    List.length_nil, _deserialize_loop_end,
    umap.foldl_assign_fresh S._MAP [] (by simpa [umap.keys] using hwf.1)]
  simp

end ValStore

/-! ## C2: Serialize/Deserialize round trip -/

namespace ValStore

/-- C2: for every well-formed store `S` whose names and payloads are shorter than 2^32
bytes and every file that `fopen` can open for writing, `Serialize` succeeds, and
`Deserialize` of the file it wrote, into any store `S0`, reports success and leaves a
store with the same name to (type, bytes) mapping as `S` (here: the same entries). -/
theorem C2_serialize_deserialize_round_trip (S S0 : ValStore) (fs : FS) (file : _str_t)
    (junk : Nat) (hwf : S.WF) (hlen : S.lengthsBelow) (hopen : fs.canWrite file = true) :
    (S.Serialize fs file).1 = true ∧
    (S0.Deserialize (S.Serialize fs file).2 file junk).1 = true ∧
    (S0.Deserialize (S.Serialize fs file).2 file junk).2 = S ∧
    ∀ n, (S0.Deserialize (S.Serialize fs file).2 file junk).2._getVal n = S._getVal n := by
  have h : S0.Deserialize (S.Serialize fs file).2 file junk = (true, S) := by
    simp only [Deserialize, Serialize, _deserialize, _serialize, hopen, FS.write, if_true]
    exact _deserialize_bytes_serialize S junk hwf hlen
  rw [h]
  refine ⟨?_, rfl, rfl, fun _ => rfl⟩
  simp only [Serialize, _serialize, hopen, if_true]

/-- Witness for C2: the concrete scenario, serialized to file `h1` and read back into a
fresh store. -/
theorem C2_serialize_deserialize_round_trip_witness :
    (scenarioStore.Serialize (FS.ofFiles (fun _ => none)) [104, 49]).1 = true ∧
    (empty.Deserialize (scenarioStore.Serialize (FS.ofFiles (fun _ => none)) [104, 49]).2
      [104, 49] 0).1 = true ∧
    (empty.Deserialize (scenarioStore.Serialize (FS.ofFiles (fun _ => none)) [104, 49]).2
      [104, 49] 0).2 = scenarioStore ∧
    ∀ n, (empty.Deserialize (scenarioStore.Serialize (FS.ofFiles (fun _ => none)) [104, 49]).2
      [104, 49] 0).2._getVal n = scenarioStore._getVal n :=
  C2_serialize_deserialize_round_trip scenarioStore empty (FS.ofFiles (fun _ => none))
    [104, 49] 0 (by decide) (by decide) rfl

end ValStore

/-! ## C4: the serialized layout -/

namespace ValStore

/-- The record written for an entry with an empty name whose payload length is a
multiple of 2^32: both length fields are zero and no payload byte is written. -/
theorem _serialize_record_wrapped (type : Nat) (data : List BYTE)
    (h : data.length % 4294967296 = 0) :
    _serialize_record _PACK ([], ⟨type, data⟩) = leU32 0 ++ leU32 type ++ leU32 0 := by
  simp [_serialize_record, toUINT, h, _wpack, _pack_count, _PACK]

/-- A store holding one payload of exactly 2^32 bytes under the empty name is written
as 28 bytes. -/
theorem _serialize_bytes_wrapped_length (data : List BYTE) (h : data.length = 4294967296) :
    (ValStore.mk [([], ⟨RT_BIN, data⟩)])._serialize_bytes.length ≠
      16 + ((ValStore.mk [([], ⟨RT_BIN, data⟩)])._MAP.map
        (fun e => 12 + e.1.length + e.2.data.length)).sum := by
  simp only [_serialize_bytes, List.map_cons, List.map_nil, List.flatten_cons,
    List.flatten_nil, List.append_nil, List.sum_cons, List.sum_nil, List.length_append,
    _serialize_record_wrapped RT_BIN data (by rw [h]), h, leU32_length, List.length_nil]
  decide

/-- C4 (refuted as stated): for a store holding one payload of 2^32 bytes under the empty
name, `_serialize` writes 28 bytes, not 16 + (12 + 0 + 2^32). -/
theorem C4_long_payload_truncated :
    ¬ (∀ S : ValStore, S._serialize_bytes.length =
        16 + (S._MAP.map (fun e => 12 + e.1.length + e.2.data.length)).sum) :=
  fun h => _serialize_bytes_wrapped_length (List.replicate 4294967296 0)
    (List.length_replicate _ _) (h ⟨[([], ⟨RT_BIN, List.replicate 4294967296 0⟩)]⟩)

/-- C4 (amended): for every store whose names and payloads are shorter than 2^32 bytes,
the bytes `Serialize` writes to a file it can open are the 16-byte header followed, per
entry in iteration order, by the name length (little-endian u32), the name, the type tag
(little-endian u32), the value length (little-endian u32) and the value, with no padding;
the total length is 16 + the sum of (12 + |name| + |value|); the tags are 0, 1, 3, 4 and
11. -/
theorem C4_serialized_layout (S : ValStore) (fs : FS) (file : _str_t)
    (hlen : S.lengthsBelow) (hopen : fs.canWrite file = true) :
    (S.Serialize fs file).2 file = some (layoutHeader ++ (S._MAP.map layoutRecord).flatten) ∧
    (layoutHeader ++ (S._MAP.map layoutRecord).flatten).length =
      16 + (S._MAP.map (fun e => 12 + e.1.length + e.2.data.length)).sum ∧
    RT_NUL = 0 ∧ RT_SZ = 1 ∧ RT_BIN = 3 ∧ RT_U4 = 4 ∧ RT_U8 = 11 := by
  have hrec : ∀ e ∈ S._MAP, _serialize_record _PACK e = layoutRecord e := by
    intro e he
    rw [_serialize_record_eq _PACK e (hlen e he).1 (hlen e he).2]
    simp [layoutRecord, _wpack, _pack_count, _PACK]
  have hlenrec : ∀ l : List (_str_t × _val_t), ((l.map layoutRecord).flatten).length =
      (l.map (fun e => 12 + e.1.length + e.2.data.length)).sum := by
    intro l
    induction l with
    | nil => rfl
    | cons e rest ih =>
      simp only [List.map_cons, List.flatten_cons, List.length_append, List.sum_cons, ih,
        layoutRecord, leU32_length]
      omega
  refine ⟨?_, ?_, rfl, rfl, rfl, rfl, rfl⟩
  · simp only [Serialize, _serialize, hopen, FS.write, if_true, _serialize_bytes]
    rw [List.map_congr_left hrec]
    rfl
  · rw [List.length_append, hlenrec]
    rfl

/-- Witness for C4 on the store of the concrete scenario. -/
theorem C4_serialized_layout_witness :
    (scenarioStore.Serialize (FS.ofFiles (fun _ => none)) [104, 49]).2 [104, 49] =
      some (layoutHeader ++ (scenarioStore._MAP.map layoutRecord).flatten) ∧
    (layoutHeader ++ (scenarioStore._MAP.map layoutRecord).flatten).length =
      16 + (scenarioStore._MAP.map (fun e => 12 + e.1.length + e.2.data.length)).sum ∧
    RT_NUL = 0 ∧ RT_SZ = 1 ∧ RT_BIN = 3 ∧ RT_U4 = 4 ∧ RT_U8 = 11 :=
  C4_serialized_layout scenarioStore (FS.ofFiles (fun _ => none)) [104, 49] (by decide) rfl

end ValStore

/-! ## C5: a wrong magic is rejected -/

namespace ValStore

/-- The magic field after the header read is the first 8 bytes of the file when the
file has at least 8 bytes. -/
theorem magic_fread (content : List BYTE) (h8 : 8 ≤ content.length) :
    _hdr_t.magic (fread _hdr_t 16 ⟨content, false⟩).1 = content.take 8 := by
  unfold fread _hdr_t.magic
  by_cases hc : 16 ≤ content.length
  · simp only [hc, if_true, Nat.succ_ne_zero, if_false]
    rw [List.take_append_of_le_length (by simp; omega), List.take_take]
    simp
  · simp only [hc, if_false, Nat.succ_ne_zero]
    rw [List.take_append_of_le_length h8]

/-- C5: for every file content of at least 8 bytes whose first 8 bytes differ from
`WDQAPI00`, `Deserialize` returns false. -/
theorem C5_bad_magic_rejected (S : ValStore) (fs : FS) (file : _str_t) (junk : Nat)
    (content : List BYTE) (hfile : fs file = some content) (h8 : 8 ≤ content.length)
    (hm : content.take 8 ≠ [87, 68, 81, 65, 80, 73, 48, 48]) :
    (S.Deserialize fs file junk).1 = false := by
  have hmagic : _hdr_t.magic _hdr_t = [87, 68, 81, 65, 80, 73, 48, 48] := by decide
  simp only [Deserialize, _deserialize, hfile, _deserialize_bytes, magic_fread content h8,
    hmagic]
  rw [if_pos (fun h => hm h.symm)]

/-- Witness for C5: a file that starts with `XDQAPI00`. -/
theorem C5_bad_magic_rejected_witness :
    (empty.Deserialize (FS.ofFiles (fun _ => some [88, 68, 81, 65, 80, 73, 48, 48, 0, 0])) [104] 0).1
      = false :=
  C5_bad_magic_rejected empty (FS.ofFiles (fun _ => some [88, 68, 81, 65, 80, 73, 48, 48, 0, 0])) [104] 0
    [88, 68, 81, 65, 80, 73, 48, 48, 0, 0] rfl (by decide) (by decide)

end ValStore

/-! ## C6: a truncated trailing record -/

namespace ValStore

theorem fread_at_eof (buf : List BYTE) (count : Nat) (f : File)
    (h : f.eof = true ∧ f.rest = []) :
    (fread buf count f).2.eof = true ∧ (fread buf count f).2.rest = [] := by
  unfold fread
  by_cases hc : count = 0
  · simp [hc, h]
  · have : ¬ count ≤ f.rest.length := by rw [h.2]; simpa using hc
    simp [hc, this]

/-- Reading the next field `a` from a cut-off stream: the stream stays cut off with
respect to the rest, and if the end of the file was not hit the field was read in
full. -/
theorem cut_fread (buf a w : List BYTE) (f : File) (h : cut f (a ++ w)) :
    cut (fread buf a.length f).2 w ∧
    ((fread buf a.length f).2.eof = false → (fread buf a.length f).1 = a ++ buf.drop a.length) := by
  rcases h with h | ⟨h0, u, hu, hw⟩
  · have := fread_at_eof buf a.length f h
    exact ⟨Or.inl this, fun hc => by rw [this.1] at hc; cases hc⟩
  · unfold fread
    by_cases hc : a.length = 0
    · have ha : a = [] := List.length_eq_zero.mp hc
      subst ha
      simp only [List.length_nil, if_true, List.nil_append, List.drop_zero]
      exact ⟨Or.inr ⟨h0, u, hu, by simpa using hw⟩, fun _ => trivial⟩
    · by_cases hle : a.length ≤ f.rest.length
      · simp only [hc, hle, if_false, if_true]
        have hpre : a = f.rest.take a.length := by
          have := congrArg (List.take a.length) hw
          rw [List.take_left, List.take_append_of_le_length hle] at this
          exact this
        have hrest : w = f.rest.drop a.length ++ u := by
          have := congrArg (List.drop a.length) hw
          rw [List.drop_left, List.drop_append_of_le_length hle] at this
          exact this
        exact ⟨Or.inr ⟨h0, u, hu, hrest⟩, fun _ => by rw [← hpre]⟩
      · simp only [hc, hle, if_false]
        exact ⟨Or.inl ⟨rfl, rfl⟩, fun hf => by cases hf⟩

theorem cut_nil_eof (f : File) (h : cut f []) : f.eof = true := by
  rcases h with h | ⟨_, u, hu, hw⟩
  · exact h.1
  · exfalso
    have : u = [] := (List.append_eq_nil.mp hw.symm).2
    exact hu this

theorem fread_length (buf : List BYTE) (count : Nat) (f : File) (h : buf.length = count) :
    (fread buf count f).1.length = count := by
  unfold fread
  by_cases hc : count = 0
  · simp [hc, h]
  · by_cases hle : count ≤ f.rest.length
    · simp [hc, hle, h]
    · simp only [hc, hle, if_false, List.length_append, List.length_drop]
      omega

/-- The reading loop on a record that was cut off after its name length field: one
assignment is made from what could be read, and the loop stops. -/
theorem _deserialize_loop_truncated (junk fuel : Nat) (e : _str_t × _val_t)
    (t u : List BYTE) (m : umap _str_t _val_t) (he : entryFits e)
    (hr : _serialize_record _PACK e = t ++ u) (hu : u ≠ []) (h4 : 4 ≤ t.length) :
    ∃ name v, _deserialize_loop junk _PACK (fuel + 1) ⟨t, false⟩ m = m.assign name v ∧
      name.length = e.1.length := by
  rw [_serialize_record_eq _PACK e he.2.1 he.2.2] at hr
  have hw0 : _wpack e.1.length _PACK = [] := by simp [_wpack, _pack_count, _PACK]
  have hw1 : _wpack e.2.data.length _PACK = [] := by simp [_wpack, _pack_count, _PACK]
  rw [hw0, hw1] at hr
  simp only [List.nil_append, List.append_nil] at hr
  have hp : ∀ len f, _rpack len _PACK f = f := fun len f => by simp [_rpack, _PACK]
  -- the stream is cut off inside the record
  have c0 : cut ⟨t, false⟩ (leU32 e.1.length ++ (e.1 ++ (leU32 e.2.type ++
      (leU32 e.2.data.length ++ e.2.data)))) := Or.inr ⟨rfl, u, hu, hr⟩
  have s1 := cut_fread (leU32 0) (leU32 e.1.length) _ _ c0
  rw [leU32_length] at s1
  have h1eof : (fread (leU32 0) 4 ⟨t, false⟩).2.eof = false := by
    unfold fread
    simp [h4]
  have h1val : (fread (leU32 0) 4 ⟨t, false⟩).1 = leU32 e.1.length := by
    rw [s1.2 h1eof]; rfl
  have hLn : ofLE (leU32 e.1.length) = e.1.length := by
    rw [ofLE_leU32]; exact Nat.mod_eq_of_lt he.2.1
  have s2 := cut_fread (List.replicate e.1.length 0) e.1 _ _ s1.1
  have s3 := cut_fread (leU32 junk) (leU32 e.2.type) _ _ s2.1
  rw [leU32_length] at s3
  have s4 := cut_fread (leU32 e.1.length) (leU32 e.2.data.length) _ _ s3.1
  rw [leU32_length] at s4
  rw [_deserialize_loop]
  simp only [feof, h1eof, Bool.false_eq_true, if_false, h1val, hLn, hp]
  refine ⟨_, _, _deserialize_loop_eof _ _ _ _ _ ?_,
    fread_length _ _ _ (List.length_replicate _ _)⟩
  by_cases h4eof : (fread (leU32 e.1.length) 4 (fread (leU32 junk) 4
      (fread (List.replicate e.1.length 0) e.1.length
        (fread (leU32 0) 4 ⟨t, false⟩).2).2).2).2.eof = true
  · -- the end of the file was hit before the payload
    rcases s4.1 with hc | hc
    · split
      · exact (fread_at_eof _ _ _ hc).1
      · exact hc.1
    · rw [hc.1] at h4eof; cases h4eof
  · have h4eof' := Bool.eq_false_iff.mpr h4eof
    have h4val := s4.2 h4eof'
    have hLd : ofLE (leU32 e.2.data.length ++ List.drop 4 (leU32 e.1.length)) =
        e.2.data.length := by
      have : List.drop 4 (leU32 e.1.length) = [] := rfl
      rw [this, List.append_nil, ofLE_leU32]
      exact Nat.mod_eq_of_lt he.2.2
    rw [h4val, hLd]
    split
    · have s5 := cut_fread (List.replicate e.2.data.length 0) e.2.data [] _
        (by simpa using s4.1)
      exact cut_nil_eof _ s5.1
    · rename_i hz
      have hd : e.2.data = [] := List.length_eq_zero.mp (by omega)
      rw [hd] at s4
      exact cut_nil_eof _ s4.1

/-- C6 (refuted as stated): a file made of the header and the first six bytes of the
record for name `a` (its name length, its name and one byte of the type tag) is read
with success, and the store then holds an entry `a` built from the partial record. -/
theorem C6_truncated_record_read_as_entry :
    empty.Deserialize (FS.ofFiles (fun _ => some (empty._serialize_bytes ++ [1, 0, 0, 0, 97, 4]))) [104] 0
      = (true, ⟨[([97], ⟨4, [0]⟩)]⟩) ∧
    (∃ u, u ≠ [] ∧ _serialize_record _PACK ([97], ⟨RT_U4, [1, 2, 3, 4]⟩) =
      [1, 0, 0, 0, 97, 4] ++ u) := by
  refine ⟨by decide, [0, 0, 0, 4, 0, 0, 0, 1, 2, 3, 4], by decide, by decide⟩

/-- C6 (amended): for every well-formed store `S` and every record `r`, if the file is
what `Serialize` writes for `S` followed by a proper prefix of `r` that contains at
least the 4-byte name length, then `Deserialize` reports success: the truncation is
not detected, and the store is `S` with one further assignment, to a name of the
length announced by the record. -/
theorem C6_truncated_record_accepted (S S0 : ValStore) (fs : FS) (file : _str_t)
    (junk : Nat) (e : _str_t × _val_t) (t u : List BYTE) (hwf : S.WF)
    (hlen : S.lengthsBelow) (he : entryFits e)
    (hr : _serialize_record _PACK e = t ++ u) (hu : u ≠ []) (h4 : 4 ≤ t.length)
    (hfile : fs file = some (S._serialize_bytes ++ t)) :
    (S0.Deserialize fs file junk).1 = true ∧
    ∃ name v, (S0.Deserialize fs file junk).2 = ⟨S._MAP.assign name v⟩ ∧
      name.length = e.1.length := by
  have himg : S._serialize_bytes ++ t = hiveImage _hdr_t S._MAP t := by
    have hp : _hdr_t.packing _hdr_t = _PACK := by decide
    simp [_serialize_bytes, hiveImage, hp]
  have hp : _hdr_t.packing _hdr_t = _PACK := by decide
  obtain ⟨name, v, hloop, hname⟩ :=
    _deserialize_loop_truncated junk t.length e t u S._MAP he hr hu h4
  have hres : S0.Deserialize fs file junk = (true, ⟨S._MAP.assign name v⟩) := by
    simp only [Deserialize, _deserialize, hfile]
    rw [himg, _deserialize_bytes_hiveImage _hdr_t S._MAP t junk rfl rfl
      (WF_entryFits S hwf hlen),
      umap.foldl_assign_fresh S._MAP [] (by simpa [umap.keys] using hwf.1), hp]
    simp only [List.nil_append]
    rw [hloop]
  rw [hres]
  exact ⟨rfl, name, v, rfl, hname⟩

/-- Witness for C6: the store of the concrete scenario followed by the first six bytes
of a record. -/
theorem C6_truncated_record_accepted_witness :
    (empty.Deserialize (FS.ofFiles (fun _ => some (scenarioStore._serialize_bytes ++
      [1, 0, 0, 0, 97, 4]))) [104] 0).1 = true ∧
    ∃ name v, (empty.Deserialize (FS.ofFiles (fun _ => some (scenarioStore._serialize_bytes ++
      [1, 0, 0, 0, 97, 4]))) [104] 0).2 = ⟨scenarioStore._MAP.assign name v⟩ ∧
      name.length = (([97], ⟨RT_U4, [1, 2, 3, 4]⟩) : _str_t × _val_t).1.length :=
  C6_truncated_record_accepted scenarioStore empty
    (FS.ofFiles (fun _ => some (scenarioStore._serialize_bytes ++ [1, 0, 0, 0, 97, 4]))) [104] 0
    ([97], ⟨RT_U4, [1, 2, 3, 4]⟩) [1, 0, 0, 0, 97, 4] [0, 0, 0, 4, 0, 0, 0, 1, 2, 3, 4]
    (by decide) (by decide) (by decide) (by decide) (by decide) (by decide) rfl

end ValStore

/-! ## C7: Deserialize replaces the map -/

namespace ValStore

/-- C7: for every valid hive file (a 16-byte header with the right magic and a packing
unit of at most 4, followed by the complete records of pairwise differently named
entries), `Deserialize` succeeds from any prior contents, leaves any two stores with
identical contents, and these are exactly the entries recorded in the file. -/
theorem C7_deserialize_replaces (S1 S2 : ValStore) (fs : FS) (file : _str_t)
    (j1 j2 : Nat) (hdr : List BYTE) (l : List (_str_t × _val_t))
    (h16 : hdr.length = 16) (hmagic : _hdr_t.magic hdr = _hdr_t.magic _hdr_t)
    (_hpack : _hdr_t.packing hdr ≤ 4) (hl : ∀ e ∈ l, entryFits e)
    (hnodup : (umap.keys l).Nodup) (hfile : fs file = some (hiveImage hdr l [])) :
    (S1.Deserialize fs file j1).1 = true ∧ (S2.Deserialize fs file j2).1 = true ∧
    (S1.Deserialize fs file j1).2 = (S2.Deserialize fs file j2).2 ∧
    (S1.Deserialize fs file j1).2._MAP = l := by
  have h : ∀ (S : ValStore) (j : Nat), S.Deserialize fs file j = (true, ⟨l⟩) := by
    intro S j
    simp only [Deserialize, _deserialize, hfile]
    rw [_deserialize_bytes_hiveImage hdr l [] j h16 hmagic hl, List.length_nil,
      _deserialize_loop_end, umap.foldl_assign_fresh l [] (by simpa [umap.keys] using hnodup)]
    simp
  rw [h S1 j1, h S2 j2]
  exact ⟨rfl, rfl, rfl, rfl⟩

/-- Witness for C7: the file of the concrete scenario read into an empty store and into
a store that already holds an entry. -/
theorem C7_deserialize_replaces_witness :
    (empty.Deserialize (FS.ofFiles (fun _ => some (hiveImage _hdr_t scenarioStore._MAP []))) [104] 1).1
      = true ∧
    (scenarioStore.Deserialize (FS.ofFiles (fun _ => some (hiveImage _hdr_t scenarioStore._MAP [])))
      [104] 2).1 = true ∧
    (empty.Deserialize (FS.ofFiles (fun _ => some (hiveImage _hdr_t scenarioStore._MAP []))) [104] 1).2 =
    (scenarioStore.Deserialize (FS.ofFiles (fun _ => some (hiveImage _hdr_t scenarioStore._MAP [])))
      [104] 2).2 ∧
    (empty.Deserialize (FS.ofFiles (fun _ => some (hiveImage _hdr_t scenarioStore._MAP []))) [104] 1).2._MAP
      = scenarioStore._MAP :=
  C7_deserialize_replaces empty scenarioStore
    (FS.ofFiles (fun _ => some (hiveImage _hdr_t scenarioStore._MAP []))) [104] 1 2 _hdr_t
    scenarioStore._MAP rfl rfl (by decide) (by decide) (by decide) rfl

end ValStore

/-! ## Facts about KeyTree -/

namespace umap

variable {κ ν : Type} [DecidableEq κ]

theorem find_assign (m : umap κ ν) (k k2 : κ) (v : ν) :
    find (assign m k v) k2 = if k = k2 then some v else find m k2 := by
  by_cases h : k = k2
  · subst h; simp [find_assign_same]
  · simp [h, find_assign_other m k k2 v h]

theorem find_modify (m : umap κ ν) (k k2 : κ) (g : ν → ν) :
    find (modify m k g) k2 = if k = k2 then (find m k2).map g else find m k2 := by
  induction m with
  | nil => simp [modify, find]
  | cons e rest ih =>
    obtain ⟨k', v'⟩ := e
    by_cases h1 : k' = k
    · subst h1
      by_cases h2 : k' = k2
      · subst h2; simp [modify, find]
      · simp [modify, find, h2]
    · by_cases h2 : k' = k2
      · subst h2
        simp [modify, find, h1, Ne.symm h1]
      · simp [modify, find, h1, h2, ih]

end umap

theorem mem_uset_insert {α : Type} [DecidableEq α] (s : List α) (x y : α) :
    y ∈ uset_insert s x ↔ y ∈ s ∨ y = x := by
  unfold uset_insert
  by_cases h : x ∈ s
  · simp only [h, if_true]
    constructor
    · exact Or.inl
    · rintro (h1 | h1)
      · exact h1
      · rw [h1]; exact h
  · simp [h]

theorem rfind_lt (s : _str_t) (c : BYTE) (p : Nat) (h : rfind s c = some p) :
    p < s.length := by
  induction s generalizing p with
  | nil => simp [rfind] at h
  | cons x xs ih =>
    simp only [rfind] at h
    cases hr : rfind xs c with
    | some q =>
      rw [hr] at h
      simp only [Option.some.injEq] at h
      have := ih q hr
      simp only [List.length_cons]
      omega
    | none =>
      rw [hr] at h
      by_cases hx : x = c
      · simp [hx] at h
        simp [← h]
      · simp [hx] at h

namespace KeyTree

theorem erase_last_nil : erase_last [] = [] := rfl

theorem splitpath_branch (s : _str_t) : (_splitpath s).2.1 = erase_last s := by
  unfold _splitpath erase_last
  cases rfind s _del <;> simp

theorem splitpath_flag (s : _str_t) : (_splitpath s).1 = false ↔ erase_last s = [] := by
  unfold _splitpath erase_last
  cases h : rfind s _del with
  | none => simp
  | some p =>
    simp only [Option.getD_some, decide_eq_false_iff_not, List.length_pos, ne_eq, not_not]

theorem erase_last_length (s : _str_t) (h : s ≠ []) : (erase_last s).length < s.length := by
  unfold erase_last
  cases hr : rfind s _del with
  | none =>
    simp only [Option.getD_none, List.take_zero, List.length_nil]
    exact List.length_pos.mpr h
  | some p =>
    have := rfind_lt s _del p hr
    simp only [Option.getD_some, List.length_take]
    omega

theorem indexed_assign (m : umap _str_t _val_t) (k k2 : _str_t) (v : _val_t) :
    indexed (m.assign k v) k2 ↔ indexed m k2 ∨ k2 = k := by
  unfold indexed
  rw [umap.find_assign]
  by_cases h : k = k2
  · simp [h]
  · simp [h, Ne.symm h]

theorem indexed_modify (m : umap _str_t _val_t) (k k2 : _str_t) (g : _val_t → _val_t) :
    indexed (m.modify k g) k2 ↔ indexed m k2 := by
  unfold indexed
  rw [umap.find_modify]
  by_cases h : k = k2
  · simp [h]
  · simp [h]

theorem kids_of_not_indexed (m : umap _str_t _val_t) (k : _str_t) (h : ¬ indexed m k) :
    kids m k = [] := by
  unfold indexed at h
  unfold kids
  cases hf : m.find k with
  | none => rfl
  | some v => rw [hf] at h; simp at h

theorem vals_of_not_indexed (m : umap _str_t _val_t) (k : _str_t) (h : ¬ indexed m k) :
    vals m k = [] := by
  unfold indexed at h
  unfold vals
  cases hf : m.find k with
  | none => rfl
  | some v => rw [hf] at h; simp at h

theorem AllNew_mono (j : Nat) (s : _str_t) (m m' : umap _str_t _val_t)
    (h : ∀ k, indexed m' k → indexed m k) (ha : AllNew j s m) : AllNew j s m' := by
  induction j generalizing s with
  | zero => trivial
  | succ j ih => exact ⟨ha.1, fun hi => ha.2.1 (h _ hi), ih _ ha.2.2⟩

theorem Present_congr (j : Nat) (s : _str_t) (m m' : umap _str_t _val_t)
    (h : ∀ k, indexed m k → indexed m' k) (hp : Present j s m) : Present j s m' := by
  induction j generalizing s with
  | zero => trivial
  | succ j ih =>
    rcases hp with hp | hp
    · exact Or.inl hp
    · exact Or.inr ⟨h _ hp.1, ih _ hp.2⟩

/-- What the first loop of `AddKey` does. -/
theorem AddKey_loop1_spec (fuel : Nat) (s : _str_t) (m : umap _str_t _val_t) (n : Nat)
    (hf : s.length ≤ fuel) :
    ∃ j, (AddKey_loop1 fuel s m n).2 = n + j ∧
      (∀ k, indexed (AddKey_loop1 fuel s m n).1 k ↔ indexed m k ∨ New j s k) ∧
      (∀ k, kids (AddKey_loop1 fuel s m n).1 k = kids m k) ∧
      (∀ k, vals (AddKey_loop1 fuel s m n).1 k = vals m k) ∧
      AllNew j s m ∧ Stop j s (AddKey_loop1 fuel s m n).1 := by
  induction fuel generalizing s m n with
  | zero =>
    have hs : s = [] := List.length_eq_zero.mp (Nat.le_zero.mp hf)
    exact ⟨0, rfl, fun k => by simp [AddKey_loop1, New], fun _ => rfl, fun _ => rfl, trivial,
      Or.inl hs⟩
  | succ fuel ih =>
    by_cases hc : 0 < s.length ∧ m.count s = 0
    · have hs : s ≠ [] := List.length_pos.mp hc.1
      have hni : ¬ indexed m s := by
        intro hi
        have := hc.2
        unfold umap.count at this
        unfold indexed at hi
        simp [hi] at this
      have hlen : (erase_last s).length ≤ fuel := by
        have := erase_last_length s hs
        omega
      obtain ⟨j, h1, h2, h3, h4, h5, h6⟩ := ih (erase_last s) (m.assign s ⟨[], []⟩) (n + 1) hlen
      have hunf : AddKey_loop1 (fuel + 1) s m n =
          AddKey_loop1 fuel (erase_last s) (m.assign s ⟨[], []⟩) (n + 1) := by
        rw [AddKey_loop1, if_pos hc]
      rw [hunf]
      refine ⟨j + 1, by omega, ?_, ?_, ?_, ?_, h6⟩
      · intro k
        rw [h2 k, indexed_assign]
        simp only [New]
        tauto
      · intro k
        rw [h3 k]
        by_cases hk : s = k
        · subst hk
          rw [kids_of_not_indexed m s hni]
          simp [kids, umap.find_assign_same]
        · simp [kids, umap.find_assign_other m s k _ hk]
      · intro k
        rw [h4 k]
        by_cases hk : s = k
        · subst hk
          rw [vals_of_not_indexed m s hni]
          simp [vals, umap.find_assign_same]
        · simp [vals, umap.find_assign_other m s k _ hk]
      · exact ⟨hs, hni, AllNew_mono j _ _ m
          (fun k hk => (indexed_assign m s k _).mpr (Or.inl hk)) h5⟩
    · have hunf : AddKey_loop1 (fuel + 1) s m n = (m, n) := by
        rw [AddKey_loop1, if_neg hc]
      rw [hunf]
      refine ⟨0, rfl, fun k => by simp [New], fun _ => rfl, fun _ => rfl, trivial, ?_⟩
      by_cases hs : s = []
      · exact Or.inl hs
      · right
        have h0 : 0 < s.length := List.length_pos.mpr hs
        have hcount : m.count s ≠ 0 := fun h => hc ⟨h0, h⟩
        unfold umap.count at hcount
        unfold indexed
        by_contra hi
        simp [hi] at hcount

theorem kids_modify (m : umap _str_t _val_t) (k k2 c leaf : _str_t) :
    c ∈ kids (m.modify k (fun v => { v with children := uset_insert v.children leaf })) k2 ↔
    c ∈ kids m k2 ∨ (k2 = k ∧ indexed m k ∧ c = leaf) := by
  unfold kids indexed
  rw [umap.find_modify]
  by_cases h : k = k2
  · subst h
    cases hf : m.find k with
    | none => simp
    | some v => simp [mem_uset_insert]
  · have h' : ¬ k2 = k := fun e => h e.symm
    simp [h, h']

theorem vals_modify (m : umap _str_t _val_t) (k k2 leaf : _str_t) :
    vals (m.modify k (fun v => { v with children := uset_insert v.children leaf })) k2 =
    vals m k2 := by
  unfold vals
  rw [umap.find_modify]
  by_cases h : k = k2
  · subst h
    cases hf : m.find k <;> simp
  · simp [h]

/-- What the second loop of `AddKey` does when every parent it looks up is present. -/
theorem AddKey_loop2_spec (j : Nat) (s : _str_t) (m : umap _str_t _val_t)
    (hp : Present j s m) :
    (∀ k, indexed (AddKey_loop2 j s m) k ↔ indexed m k) ∧
    (∀ k, vals (AddKey_loop2 j s m) k = vals m k) ∧
    (∀ k c, c ∈ kids (AddKey_loop2 j s m) k ↔ c ∈ kids m k ∨ Link j s k c) := by
  induction j generalizing s m with
  | zero => exact ⟨fun _ => Iff.rfl, fun _ => rfl, fun k c => by simp [AddKey_loop2, Link]⟩
  | succ j ih =>
    by_cases hb : erase_last s = []
    · have hfl : (_splitpath s).1 = false := (splitpath_flag s).mpr hb
      have hunf : AddKey_loop2 (j + 1) s m = m := by
        rw [AddKey_loop2]; simp [hfl]
      rw [hunf]
      exact ⟨fun _ => Iff.rfl, fun _ => rfl, fun k c => by simp [Link, hb]⟩
    · have hfl : ¬ (_splitpath s).1 = false := fun h => hb ((splitpath_flag s).mp h)
      have hunf : AddKey_loop2 (j + 1) s m = AddKey_loop2 j (erase_last s)
          (m.modify (erase_last s)
            (fun v => { v with children := uset_insert v.children (_splitpath s).2.2 })) := by
        rw [AddKey_loop2]
        simp only [hfl, if_false, splitpath_branch]
        simp
      have hpar : indexed m (erase_last s) ∧ Present j (erase_last s) m := by
        rcases hp with hp | hp
        · exact absurd hp hb
        · exact hp
      obtain ⟨h1, h2, h3⟩ := ih (erase_last s) _
        (Present_congr j _ m _ (fun k hk => (indexed_modify m _ k _).mpr hk) hpar.2)
      rw [hunf]
      refine ⟨fun k => by rw [h1 k, indexed_modify], fun k => by rw [h2 k, vals_modify], ?_⟩
      intro k c
      rw [h3 k c, kids_modify]
      simp only [Link]
      constructor
      · rintro ((h | ⟨hk, _, hc⟩) | h)
        · exact Or.inl h
        · exact Or.inr ⟨hb, Or.inl ⟨hk.symm, hc.symm⟩⟩
        · exact Or.inr ⟨hb, Or.inr h⟩
      · rintro (h | ⟨_, ⟨hk, hc⟩ | h⟩)
        · exact Or.inl (Or.inl h)
        · exact Or.inl (Or.inr ⟨hk.symm, hk ▸ hpar.1, hc.symm⟩)
        · exact Or.inr h

theorem New_first (j : Nat) (s : _str_t) : New (j + 1) s s := Or.inl rfl

theorem Present_of_Stop (j : Nat) (s : _str_t) (m : umap _str_t _val_t)
    (hnew : ∀ x, New j s x → indexed m x) (hstop : Stop j s m) : Present j s m := by
  induction j generalizing s with
  | zero => trivial
  | succ j ih =>
    by_cases hb : erase_last s = []
    · exact Or.inl hb
    · right
      have hrest : ∀ x, New j (erase_last s) x → indexed m x :=
        fun x hx => hnew x (Or.inr hx)
      refine ⟨?_, ih _ hrest hstop⟩
      cases j with
      | zero =>
        rcases hstop with h | h
        · exact absurd h hb
        · exact h
      | succ j => exact hrest _ (New_first j _)

/-- The parent of a newly inserted key is empty, or present afterwards. -/
theorem New_parent (j : Nat) (s k : _str_t) (m : umap _str_t _val_t)
    (hnew : ∀ x, New j s x → indexed m x) (hstop : Stop j s m) (hk : New j s k) :
    erase_last k = [] ∨ indexed m (erase_last k) := by
  induction j generalizing s with
  | zero => exact absurd hk (by simp [New])
  | succ j ih =>
    have hrest : ∀ x, New j (erase_last s) x → indexed m x :=
      fun x hx => hnew x (Or.inr hx)
    rcases hk with hk | hk
    · subst hk
      cases j with
      | zero => exact hstop
      | succ j => exact Or.inr (hrest _ (New_first j _))
    · exact ih _ hrest hstop hk

theorem Link_New (j : Nat) (s k c : _str_t) (h : Link j s k c) :
    ∃ k', New j s k' ∧ erase_last k' = k ∧ k ≠ [] ∧ (_splitpath k').2.2 = c := by
  induction j generalizing s with
  | zero => exact absurd h (by simp [Link])
  | succ j ih =>
    obtain ⟨hb, h | h⟩ := h
    · exact ⟨s, Or.inl rfl, h.1, h.1 ▸ hb, h.2⟩
    · obtain ⟨k', h1, h2⟩ := ih _ h
      exact ⟨k', Or.inr h1, h2⟩

theorem New_Link (j : Nat) (s k' : _str_t) (m : umap _str_t _val_t) (ha : AllNew j s m)
    (hk : New j s k') (hb : erase_last k' ≠ []) :
    Link j s (erase_last k') (_splitpath k').2.2 := by
  induction j generalizing s with
  | zero => exact absurd hk (by simp [New])
  | succ j ih =>
    rcases hk with hk | hk
    · subst hk
      exact ⟨hb, Or.inl ⟨rfl, rfl⟩⟩
    · have hs : erase_last s ≠ [] := by
        cases j with
        | zero => exact absurd hk (by simp [New])
        | succ j => exact ha.2.2.1
      exact ⟨hs, Or.inr (ih _ ha.2.2 hk)⟩

theorem New_Anc (j : Nat) (s k : _str_t) (m : umap _str_t _val_t) (ha : AllNew j s m)
    (hk : New j s k) : Anc s k := by
  induction j generalizing s with
  | zero => exact absurd hk (by simp [New])
  | succ j ih =>
    rcases hk with hk | hk
    · subst hk
      exact ⟨ha.1, 0, rfl⟩
    · obtain ⟨h1, i, hi⟩ := ih _ ha.2.2 hk
      exact ⟨h1, i + 1, by rw [Function.iterate_succ_apply]; exact hi⟩

theorem Anc_indexed (m : umap _str_t _val_t) (p k : _str_t) (hcl : Closed m)
    (hp : p ≠ [] → indexed m p) (h : Anc p k) : indexed m k := by
  obtain ⟨hk, i, hi⟩ := h
  induction i generalizing k with
  | zero =>
    simp only [Function.iterate_zero, id_eq] at hi
    subst hi
    exact hp hk
  | succ i ih =>
    rw [Function.iterate_succ_apply'] at hi
    subst hi
    have hne : erase_last^[i] p ≠ [] := by
      intro h0
      rw [h0] at hk
      exact hk rfl
    exact hcl _ (ih _ hne rfl) hk

/-- What `AddKey` does to a map. -/
theorem AddKey_spec (m : umap _str_t _val_t) (p : _str_t) :
    ∃ j, (AddKey ⟨m⟩ p).1 = j ∧
      (∀ k, indexed (AddKey ⟨m⟩ p).2._MAP k ↔ indexed m k ∨ New j p k) ∧
      (∀ k, vals (AddKey ⟨m⟩ p).2._MAP k = vals m k) ∧
      (∀ k c, c ∈ kids (AddKey ⟨m⟩ p).2._MAP k ↔ c ∈ kids m k ∨ Link j p k c) ∧
      AllNew j p m ∧ Stop j p (AddKey ⟨m⟩ p).2._MAP ∧
      (p = [] ∨ indexed m p ∨ New j p p) := by
  obtain ⟨j, h1, h2, h3, h4, h5, h6⟩ :=
    AddKey_loop1_spec (p.length + 1) p m 0 (Nat.le_succ _)
  have hself : p = [] ∨ indexed m p ∨ New j p p := by
    cases j with
    | zero =>
      rcases h6 with h | h
      · exact Or.inl h
      · exact Or.inr ((h2 p).mp h)
    | succ j => exact Or.inr (Or.inr (Or.inl rfl))
  have hj : (AddKey_loop1 (p.length + 1) p m 0).2 = j := by rw [h1]; omega
  have hpres : Present j p (AddKey_loop1 (p.length + 1) p m 0).1 :=
    Present_of_Stop j p _ (fun x hx => (h2 x).mpr (Or.inr hx)) h6
  obtain ⟨g1, g2, g3⟩ := AddKey_loop2_spec j p _ hpres
  have hstop : ∀ (j' : Nat) (s : _str_t), Stop j' s (AddKey_loop1 (p.length + 1) p m 0).1 →
      Stop j' s (AddKey_loop2 j p (AddKey_loop1 (p.length + 1) p m 0).1) := by
    intro j' s
    induction j' generalizing s with
    | zero =>
      intro h
      rcases h with h | h
      · exact Or.inl h
      · exact Or.inr ((g1 _).mpr h)
    | succ j' ih => exact fun h => ih _ h
  refine ⟨j, hj, ?_, ?_, ?_, h5, ?_, hself⟩
  · intro k
    simp only [AddKey, hj]
    rw [g1 k, h2 k]
  · intro k
    simp only [AddKey, hj]
    rw [g2 k, h4 k]
  · intro k c
    simp only [AddKey, hj]
    rw [g3 k c, h3 k]
  · simp only [AddKey, hj]
    exact hstop j p h6

/-- What `AddValue` does to a map. -/
theorem AddValue_spec (m : umap _str_t _val_t) (p n : _str_t) :
    ∃ j, (∀ k, indexed (AddValue ⟨m⟩ p n).2._MAP k ↔
        indexed m k ∨ New j p k ∨ (k = [] ∧ p = [])) ∧
      (∀ k c, c ∈ kids (AddValue ⟨m⟩ p n).2._MAP k ↔ c ∈ kids m k ∨ Link j p k c) ∧
      (∀ k x, x ∈ vals (AddValue ⟨m⟩ p n).2._MAP k ↔ x ∈ vals m k ∨ (k = p ∧ x = n)) ∧
      AllNew j p m ∧ Stop j p (AddValue ⟨m⟩ p n).2._MAP ∧
      indexed (AddValue ⟨m⟩ p n).2._MAP p := by
  obtain ⟨j, _, h2, h3, h4, h5, h6, h7⟩ := AddKey_spec m p
  have hidx : ∀ k, indexed (AddValue ⟨m⟩ p n).2._MAP k ↔
      indexed (AddKey ⟨m⟩ p).2._MAP k ∨ k = p := by
    intro k
    simp only [AddValue]
    exact indexed_assign _ _ _ _
  have hstop : ∀ (j' : Nat) (s : _str_t), Stop j' s (AddKey ⟨m⟩ p).2._MAP →
      Stop j' s (AddValue ⟨m⟩ p n).2._MAP := by
    intro j' s
    induction j' generalizing s with
    | zero =>
      intro h
      rcases h with h | h
      · exact Or.inl h
      · exact Or.inr ((hidx _).mpr (Or.inl h))
    | succ j' ih => exact fun h => ih _ h
  refine ⟨j, ?_, ?_, ?_, h5, hstop j p h6, (hidx p).mpr (Or.inr rfl)⟩
  · intro k
    rw [hidx k, h2 k]
    constructor
    · rintro ((h | h) | h)
      · exact Or.inl h
      · exact Or.inr (Or.inl h)
      · subst h
        rcases h7 with h | h | h
        · exact Or.inr (Or.inr ⟨h, h⟩)
        · exact Or.inl h
        · exact Or.inr (Or.inl h)
    · rintro (h | h | ⟨h, h'⟩)
      · exact Or.inl (Or.inl h)
      · exact Or.inl (Or.inr h)
      · exact Or.inr (h.trans h'.symm)
  · intro k c
    rw [← h4 k c]
    simp only [AddValue, kids]
    rw [umap.find_assign]
    by_cases hk : p = k
    · subst hk
      cases hf : (AddKey ⟨m⟩ p).2._MAP.find p <;> simp
    · simp [hk]
  · intro k x
    rw [← h3 k]
    simp only [AddValue, vals]
    rw [umap.find_assign]
    by_cases hk : p = k
    · subst hk
      cases hf : (AddKey ⟨m⟩ p).2._MAP.find p <;> simp [mem_uset_insert]
    · have hk' : ¬ k = p := fun e => hk e.symm
      simp [hk, hk']

theorem Derived_nil : Derived [] [] := by
  refine ⟨fun k => by simp [indexed, umap.find], fun k c => ?_, fun k n => by simp [vals, umap.find]⟩
  simp [kids, indexed, umap.find]

theorem Anc_parent (p k : _str_t) (h : Anc p k) (hk : erase_last k ≠ []) :
    Anc p (erase_last k) := by
  obtain ⟨_, i, hi⟩ := h
  exact ⟨hk, i + 1, by rw [Function.iterate_succ_apply', hi]⟩

theorem Derived_Closed (m : umap _str_t _val_t) (N : List _str_t) (h : Derived m N) :
    Closed m := by
  intro k hk hb
  obtain ⟨f, hf, h1 | h1⟩ := (h.1 k).mp hk
  · exact (h.1 _).mpr ⟨f, hf, Or.inr ⟨hb, 1, by rw [h1]; rfl⟩⟩
  · exact (h.1 _).mpr ⟨f, hf, Or.inr (Anc_parent _ _ h1 hb)⟩

theorem Derived_congr (m : umap _str_t _val_t) (N N' : List _str_t) (h : Derived m N)
    (hN : ∀ f, f ∈ N' ↔ f ∈ N) : Derived m N' := by
  refine ⟨fun k => ?_, h.2.1, fun k n => ?_⟩
  · rw [h.1 k]
    constructor
    · rintro ⟨f, hf, h1⟩; exact ⟨f, (hN f).mpr hf, h1⟩
    · rintro ⟨f, hf, h1⟩; exact ⟨f, (hN f).mp hf, h1⟩
  · rw [h.2.2 k n]
    constructor
    · rintro ⟨f, hf, h1⟩; exact ⟨f, (hN f).mpr hf, h1⟩
    · rintro ⟨f, hf, h1⟩; exact ⟨f, (hN f).mp hf, h1⟩

/-- Recording one more full name with `AddValue` keeps the index derived. -/
theorem Derived_AddValue (m : umap _str_t _val_t) (N : List _str_t) (f : _str_t)
    (h : Derived m N) :
    Derived (AddValue ⟨m⟩ (erase_last f) (_splitpath f).2.2).2._MAP (f :: N) := by
  obtain ⟨j, a1, a2, a3, a4, a5, a6⟩ := AddValue_spec m (erase_last f) (_splitpath f).2.2
  have hcl := Derived_Closed m N h
  have hnewidx : ∀ x, New j (erase_last f) x →
      indexed (AddValue ⟨m⟩ (erase_last f) (_splitpath f).2.2).2._MAP x :=
    fun x hx => (a1 x).mpr (Or.inr (Or.inl hx))
  -- the map after the call is closed under parents
  have hcl' : Closed (AddValue ⟨m⟩ (erase_last f) (_splitpath f).2.2).2._MAP := by
    intro k hk hb
    rcases (a1 k).mp hk with h1 | h1 | h1
    · exact (a1 _).mpr (Or.inl (hcl k h1 hb))
    · rcases New_parent j _ k _ hnewidx a5 h1 with h2 | h2
      · exact absurd h2 hb
      · exact h2
    · rw [h1.1, erase_last_nil] at hb
      exact absurd rfl hb
  have hanc : ∀ k, Anc (erase_last f) k →
      indexed (AddValue ⟨m⟩ (erase_last f) (_splitpath f).2.2).2._MAP k :=
    fun k hk => Anc_indexed _ _ k hcl' (fun _ => a6) hk
  have hidx : ∀ k, indexed (AddValue ⟨m⟩ (erase_last f) (_splitpath f).2.2).2._MAP k ↔
      ∃ g ∈ f :: N, k = erase_last g ∨ Anc (erase_last g) k := by
    intro k
    constructor
    · intro hk
      rcases (a1 k).mp hk with h1 | h1 | h1
      · obtain ⟨g, hg, h2⟩ := (h.1 k).mp h1
        exact ⟨g, List.mem_cons_of_mem _ hg, h2⟩
      · exact ⟨f, List.mem_cons_self _ _, Or.inr (New_Anc j _ k m a4 h1)⟩
      · exact ⟨f, List.mem_cons_self _ _, Or.inl (h1.1.trans h1.2.symm)⟩
    · rintro ⟨g, hg, h1⟩
      rcases List.mem_cons.mp hg with hg | hg
      · subst hg
        rcases h1 with h1 | h1
        · rw [h1]; exact a6
        · exact hanc k h1
      · exact (a1 k).mpr (Or.inl ((h.1 k).mpr ⟨g, hg, h1⟩))
  refine ⟨hidx, ?_, ?_⟩
  · intro k c
    rw [a2 k c]
    constructor
    · rintro (h1 | h1)
      · obtain ⟨k', h2, h3⟩ := (h.2.1 k c).mp h1
        exact ⟨k', (a1 k').mpr (Or.inl h2), h3⟩
      · obtain ⟨k', h2, h3⟩ := Link_New j _ k c h1
        exact ⟨k', (a1 k').mpr (Or.inr (Or.inl h2)), h3⟩
    · rintro ⟨k', h1, h2, h3, h4⟩
      rcases (a1 k').mp h1 with h5 | h5 | h5
      · exact Or.inl ((h.2.1 k c).mpr ⟨k', h5, h2, h3, h4⟩)
      · right
        have := New_Link j _ k' m a4 h5 (by rw [h2]; exact h3)
        rw [h2, h4] at this
        exact this
      · rw [h5.1, erase_last_nil] at h2
        exact absurd h2.symm h3
  · intro k n
    rw [a3 k n, h.2.2 k n]
    constructor
    · rintro (⟨g, hg, h1⟩ | ⟨h1, h2⟩)
      · exact ⟨g, List.mem_cons_of_mem _ hg, h1⟩
      · exact ⟨f, List.mem_cons_self _ _, h1.symm, h2.symm⟩
    · rintro ⟨g, hg, h1, h2⟩
      rcases List.mem_cons.mp hg with hg | hg
      · subst hg
        exact Or.inr ⟨h1.symm, h2.symm⟩
      · exact Or.inl ⟨g, hg, h1, h2⟩

/-- A run of `AddValue` calls, one per full name, keeps the index derived. -/
theorem Derived_foldl (l : umap _str_t ValStore._val_t) (kt : KeyTree) (N : List _str_t)
    (h : Derived kt._MAP N) :
    Derived (l.foldl (fun kt e => (kt.AddValue (SplitPath e.1).2.1 (SplitPath e.1).2.2).2)
      kt)._MAP (l.keys.reverse ++ N) := by
  induction l generalizing kt N with
  | nil => simpa [umap.keys] using h
  | cons e rest ih =>
    have hstep := Derived_AddValue kt._MAP N e.1 h
    have := ih (kt.AddValue (SplitPath e.1).2.1 (SplitPath e.1).2.2).2 (e.1 :: N)
      (by simpa only [SplitPath, splitpath_branch] using hstep)
    simpa [umap.keys] using this

theorem IsKey_iff (kt : KeyTree) (k : _str_t) : kt.IsKey k = true ↔ indexed kt._MAP k := by
  unfold IsKey umap.count indexed
  cases kt._MAP.find k <;> simp

theorem EnumValues_eq (kt : KeyTree) (k : _str_t) (vs : List _str_t)
    (h : kt.EnumValues k = some vs) : vs = vals kt._MAP k ∧ indexed kt._MAP k := by
  unfold EnumValues at h
  unfold vals indexed
  cases hf : kt._MAP.find k with
  | none => rw [hf] at h; cases h
  | some v =>
    rw [hf] at h
    simp only [Option.some.injEq] at h
    simp [h]

theorem EnumValues_getD (kt : KeyTree) (k : _str_t) :
    (kt.EnumValues k).getD [] = vals kt._MAP k := by
  unfold EnumValues vals
  cases kt._MAP.find k <;> rfl

theorem EnumSubkeys_getD (kt : KeyTree) (k : _str_t) :
    (kt.EnumSubkeys k).getD [] = kids kt._MAP k := by
  unfold EnumSubkeys kids
  cases kt._MAP.find k <;> rfl

theorem EnumValues_isSome (kt : KeyTree) (k : _str_t) :
    (kt.EnumValues k).isSome = kt.IsKey k := by
  unfold EnumValues IsKey umap.count
  cases kt._MAP.find k <;> simp

theorem EnumSubkeys_isSome (kt : KeyTree) (k : _str_t) :
    (kt.EnumSubkeys k).isSome = kt.IsKey k := by
  unfold EnumSubkeys IsKey umap.count
  cases kt._MAP.find k <;> simp

end KeyTree

namespace ValStore

/-- The tree `BuildKeyTree` produces is the index derived from the store's names. -/
theorem BuildKeyTree_Derived (S : ValStore) (KT : KeyTree) :
    KeyTree.Derived (S.BuildKeyTree KT)._MAP S._MAP.keys := by
  have := KeyTree.Derived_foldl S._MAP KT.clear [] KeyTree.Derived_nil
  exact KeyTree.Derived_congr _ _ _ this (fun f => by simp)

end ValStore

/-! ## C8: tree derivability -/

namespace ValStore

/-- C8: for every store `S`, in the tree `BuildKeyTree` produces, the branch part of
every full name of `S` is an indexed key, and for every indexed key `k`, `EnumValues(k)`
lists exactly the leaves `l` such that some full name of `S` splits into `(k, l)`. -/
theorem C8_tree_derivability (S : ValStore) (KT : KeyTree) :
    (∀ f ∈ S._MAP.keys, (S.BuildKeyTree KT).IsKey (KeyTree.SplitPath f).2.1 = true) ∧
    (∀ k vs, (S.BuildKeyTree KT).EnumValues k = some vs →
      ∀ leaf, leaf ∈ vs ↔
        ∃ f ∈ S._MAP.keys, (KeyTree.SplitPath f).2.1 = k ∧ (KeyTree.SplitPath f).2.2 = leaf) := by
  have hd := BuildKeyTree_Derived S KT
  constructor
  · intro f hf
    rw [KeyTree.IsKey_iff, hd.1]
    exact ⟨f, hf, Or.inl (KeyTree.splitpath_branch f)⟩
  · intro k vs hvs leaf
    rw [(KeyTree.EnumValues_eq _ k vs hvs).1, hd.2.2 k leaf]
    simp only [KeyTree.SplitPath, KeyTree.splitpath_branch]

end ValStore

/-! ## C9: the tree is a function of the set of names -/

namespace ValStore

/-- C9: for any two stores that hold the same set of full names, whatever their values
and their iteration orders, `BuildKeyTree` produces trees with the same indexed key
paths and, for each key path, the same children set and the same value-name set. -/
theorem C9_tree_function_of_names (S1 S2 : ValStore) (KT1 KT2 : KeyTree)
    (h : ∀ f, f ∈ S1._MAP.keys ↔ f ∈ S2._MAP.keys) :
    (∀ k, (S1.BuildKeyTree KT1).IsKey k = (S2.BuildKeyTree KT2).IsKey k) ∧
    (∀ k, ((S1.BuildKeyTree KT1).EnumSubkeys k).isSome =
      ((S2.BuildKeyTree KT2).EnumSubkeys k).isSome) ∧
    (∀ k, ((S1.BuildKeyTree KT1).EnumValues k).isSome =
      ((S2.BuildKeyTree KT2).EnumValues k).isSome) ∧
    (∀ k c, c ∈ ((S1.BuildKeyTree KT1).EnumSubkeys k).getD [] ↔
      c ∈ ((S2.BuildKeyTree KT2).EnumSubkeys k).getD []) ∧
    (∀ k n, n ∈ ((S1.BuildKeyTree KT1).EnumValues k).getD [] ↔
      n ∈ ((S2.BuildKeyTree KT2).EnumValues k).getD []) := by
  have d1 := BuildKeyTree_Derived S1 KT1
  have d2 := KeyTree.Derived_congr _ _ _ (BuildKeyTree_Derived S2 KT2) h
  have hidx : ∀ k, KeyTree.indexed (S1.BuildKeyTree KT1)._MAP k ↔
      KeyTree.indexed (S2.BuildKeyTree KT2)._MAP k := fun k => by rw [d1.1 k, d2.1 k]
  have hkey : ∀ k, (S1.BuildKeyTree KT1).IsKey k = (S2.BuildKeyTree KT2).IsKey k := by
    intro k
    rw [Bool.eq_iff_iff, KeyTree.IsKey_iff, KeyTree.IsKey_iff]
    exact hidx k
  refine ⟨hkey, ?_, ?_, ?_, ?_⟩
  · intro k; rw [KeyTree.EnumSubkeys_isSome, KeyTree.EnumSubkeys_isSome, hkey]
  · intro k; rw [KeyTree.EnumValues_isSome, KeyTree.EnumValues_isSome, hkey]
  · intro k c
    rw [KeyTree.EnumSubkeys_getD, KeyTree.EnumSubkeys_getD, d1.2.1 k c, d2.2.1 k c]
    constructor
    · rintro ⟨k', h1, h2⟩; exact ⟨k', (hidx k').mp h1, h2⟩
    · rintro ⟨k', h1, h2⟩; exact ⟨k', (hidx k').mpr h1, h2⟩
  · intro k n
    rw [KeyTree.EnumValues_getD, KeyTree.EnumValues_getD, d1.2.2 k n, d2.2.2 k n]

/-- Witness for C9: the names `r\m\x` and `r\y` stored in the two possible orders with
different values, indexed into trees with different prior contents. -/
theorem C9_tree_function_of_names_witness :
    (∀ k, ((ValStore.mk [([114, 92, 109, 92, 120], ⟨RT_U4, [1, 0, 0, 0]⟩),
        ([114, 92, 121], ⟨RT_BIN, []⟩)]).BuildKeyTree KeyTree.empty).IsKey k =
      ((ValStore.mk [([114, 92, 121], ⟨RT_SZ, [65, 0]⟩),
        ([114, 92, 109, 92, 120], ⟨RT_BIN, [7]⟩)]).BuildKeyTree ⟨[([9], ⟨[], []⟩)]⟩).IsKey k) ∧
    (∀ k, (((ValStore.mk [([114, 92, 109, 92, 120], ⟨RT_U4, [1, 0, 0, 0]⟩),
        ([114, 92, 121], ⟨RT_BIN, []⟩)]).BuildKeyTree KeyTree.empty).EnumSubkeys k).isSome =
      (((ValStore.mk [([114, 92, 121], ⟨RT_SZ, [65, 0]⟩),
        ([114, 92, 109, 92, 120], ⟨RT_BIN, [7]⟩)]).BuildKeyTree
          ⟨[([9], ⟨[], []⟩)]⟩).EnumSubkeys k).isSome) ∧
    (∀ k, (((ValStore.mk [([114, 92, 109, 92, 120], ⟨RT_U4, [1, 0, 0, 0]⟩),
        ([114, 92, 121], ⟨RT_BIN, []⟩)]).BuildKeyTree KeyTree.empty).EnumValues k).isSome =
      (((ValStore.mk [([114, 92, 121], ⟨RT_SZ, [65, 0]⟩),
        ([114, 92, 109, 92, 120], ⟨RT_BIN, [7]⟩)]).BuildKeyTree
          ⟨[([9], ⟨[], []⟩)]⟩).EnumValues k).isSome) ∧
    (∀ k c, c ∈ (((ValStore.mk [([114, 92, 109, 92, 120], ⟨RT_U4, [1, 0, 0, 0]⟩),
        ([114, 92, 121], ⟨RT_BIN, []⟩)]).BuildKeyTree KeyTree.empty).EnumSubkeys k).getD [] ↔
      c ∈ (((ValStore.mk [([114, 92, 121], ⟨RT_SZ, [65, 0]⟩),
        ([114, 92, 109, 92, 120], ⟨RT_BIN, [7]⟩)]).BuildKeyTree
          ⟨[([9], ⟨[], []⟩)]⟩).EnumSubkeys k).getD []) ∧
    (∀ k n, n ∈ (((ValStore.mk [([114, 92, 109, 92, 120], ⟨RT_U4, [1, 0, 0, 0]⟩),
        ([114, 92, 121], ⟨RT_BIN, []⟩)]).BuildKeyTree KeyTree.empty).EnumValues k).getD [] ↔
      n ∈ (((ValStore.mk [([114, 92, 121], ⟨RT_SZ, [65, 0]⟩),
        ([114, 92, 109, 92, 120], ⟨RT_BIN, [7]⟩)]).BuildKeyTree
          ⟨[([9], ⟨[], []⟩)]⟩).EnumValues k).getD []) :=
  C9_tree_function_of_names _ _ KeyTree.empty ⟨[([9], ⟨[], []⟩)]⟩
    (fun f => by simp [umap.keys]; tauto)

end ValStore

/-! ## Facts about handles -/

theorem rfind_append (a b : _str_t) (c : BYTE) :
    rfind (a ++ b) c =
      match rfind b c with
      | some p => some (a.length + p)
      | none => rfind a c := by
  induction a with
  | nil =>
    simp only [List.nil_append, List.length_nil, Nat.zero_add]
    cases rfind b c <;> rfl
  | cons x xs ih =>
    simp only [List.cons_append, rfind]
    have ih' : rfind (xs.append b) c =
        match rfind b c with
        | some p => some (xs.length + p)
        | none => rfind xs c := ih
    rw [ih']
    cases rfind b c with
    | some p =>
      simp only [List.length_cons, Option.some.injEq]
      omega
    | none => rfl

theorem rfind_none (n : _str_t) (c : BYTE) (h : c ∉ n) : rfind n c = none := by
  induction n with
  | nil => rfl
  | cons x xs ih =>
    have h1 : c ∉ xs := fun hc => h (List.mem_cons_of_mem _ hc)
    have h2 : ¬ x = c := fun hc => h (by rw [hc]; exact List.mem_cons_self _ _)
    simp [rfind, ih h1, h2]

namespace KeyTree

theorem rfind_buildpath (branch leaf : _str_t) (h : _del ∉ leaf) :
    rfind (BuildPath branch leaf) _del = some branch.length := by
  have h1 : rfind ([_del] ++ leaf) _del = some 0 := by
    simp [rfind, rfind_none leaf _del h]
  unfold BuildPath _buildpath
  rw [List.append_assoc, rfind_append, h1]
  rfl

/-- Splitting a built path whose leaf has no delimiter gives back branch and leaf. -/
theorem splitpath_buildpath (branch leaf : _str_t) (h : _del ∉ leaf) :
    (_splitpath (BuildPath branch leaf)).2 = (branch, leaf) := by
  unfold _splitpath
  rw [rfind_buildpath branch leaf h]
  simp [BuildPath, _buildpath]

theorem erase_last_buildpath (branch leaf : _str_t) (h : _del ∉ leaf) :
    erase_last (BuildPath branch leaf) = branch := by
  rw [← splitpath_branch, splitpath_buildpath branch leaf h]

/-- Two indexes derived from the same names are equal as trees. -/
theorem Derived_TreeEq (T1 T2 : KeyTree) (N : List _str_t) (d1 : Derived T1._MAP N)
    (d2 : Derived T2._MAP N) : TreeEq T1 T2 := by
  have hidx : ∀ k, indexed T1._MAP k ↔ indexed T2._MAP k := fun k => by rw [d1.1 k, d2.1 k]
  have hkey : ∀ k, T1.IsKey k = T2.IsKey k := by
    intro k
    rw [Bool.eq_iff_iff, IsKey_iff, IsKey_iff]
    exact hidx k
  refine ⟨hkey, ?_, ?_, ?_, ?_⟩
  · intro k; rw [EnumSubkeys_isSome, EnumSubkeys_isSome, hkey]
  · intro k; rw [EnumValues_isSome, EnumValues_isSome, hkey]
  · intro k c
    rw [EnumSubkeys_getD, EnumSubkeys_getD, d1.2.1 k c, d2.2.1 k c]
    constructor
    · rintro ⟨k', h1, h2⟩; exact ⟨k', (hidx k').mp h1, h2⟩
    · rintro ⟨k', h1, h2⟩; exact ⟨k', (hidx k').mpr h1, h2⟩
  · intro k n
    rw [EnumValues_getD, EnumValues_getD, d1.2.2 k n, d2.2.2 k n]

end KeyTree

namespace umap

variable {κ ν : Type} [DecidableEq κ]

theorem mem_keys_assign (m : umap κ ν) (k k2 : κ) (v : ν) :
    k2 ∈ keys (assign m k v) ↔ k2 ∈ keys m ∨ k2 = k := by
  induction m with
  | nil => simp [assign, keys]
  | cons e rest ih =>
    obtain ⟨k', v'⟩ := e
    by_cases h : k' = k
    · subst h
      simp [assign, keys]
      exact fun h => Or.inl h
    · simp only [assign, h, if_false, keys, List.map_cons, List.mem_cons]
      simp only [keys] at ih
      rw [ih]
      tauto

end umap

namespace World

theorem SameHives_refl (w : World) : SameHives w w :=
  fun _ d' h => ⟨d', h, rfl, rfl, rfl⟩

theorem SameHives_trans (w1 w2 w3 : World) (h12 : SameHives w1 w2) (h23 : SameHives w2 w3) :
    SameHives w1 w3 := by
  intro b d3 h
  obtain ⟨d2, g1, g2, g3, g4⟩ := h23 b d3 h
  obtain ⟨d1, f1, f2, f3, f4⟩ := h12 b d2 g1
  exact ⟨d1, f1, g2.trans f2, g3.trans f3, g4.trans f4⟩

theorem heap_flush (w : World) (h : Nat) (d : __vkdata) :
    (_valKey._flush w h d).2.heap = w.heap := by
  unfold _valKey._flush
  split <;> rfl

theorem keys_flush (w : World) (h : Nat) (d : __vkdata) :
    (_valKey._flush w h d).2.keys = w.keys := by
  unfold _valKey._flush
  split <;> rfl

theorem next_flush (w : World) (h : Nat) (d : __vkdata) :
    (_valKey._flush w h d).2.next = w.next := by
  unfold _valKey._flush
  split <;> rfl

/-- Closing a handle changes no store and no tree. -/
theorem SameHives_close (w w' : World) (h : Nat) (r : Bool)
    (hc : _valKey._close w h = some (r, w')) : SameHives w w' := by
  unfold _valKey._close at hc
  cases hd : (w.keys h)._d with
  | none =>
    simp only [hd, Option.some.injEq, Prod.mk.injEq] at hc
    rw [← hc.2]
    exact SameHives_refl w
  | some a =>
    simp only [hd] at hc
    cases hh : w.heap a with
    | none => simp [hh] at hc
    | some d =>
      simp only [hh, Option.some.injEq, Prod.mk.injEq] at hc
      rw [← hc.2]
      intro b d' hb
      simp only [setKey] at hb
      by_cases hba : b = a
      · subst hba
        split at hb
        · simp [setData] at hb
        · simp only [setData, if_true, Option.some.injEq] at hb
          exact ⟨d, hh, by rw [← hb], by rw [← hb], by rw [← hb]⟩
      · split at hb
        · simp only [setData, hba, if_false, heap_flush] at hb
          exact ⟨d', hb, rfl, rfl, rfl⟩
        · simp only [setData, hba, if_false, heap_flush] at hb
          exact ⟨d', hb, rfl, rfl, rfl⟩

/-- Opening a subkey handle changes no store and no tree. -/
theorem SameHives_open_key (w w' : World) (h vkey : Nat) (keyPath : _str_t) (bWrite : Bool)
    (ho : _valKey._open_key w h vkey keyPath bWrite = some w') : SameHives w w' := by
  unfold _valKey._open_key at ho
  cases hc : _valKey._close w h with
  | none => simp [hc] at ho
  | some rw1 =>
    obtain ⟨r, w1⟩ := rw1
    simp only [hc] at ho
    have h1 := SameHives_close w w1 h r hc
    cases hd : (w1.keys vkey)._d with
    | none => simp [hd] at ho
    | some a =>
      simp only [hd] at ho
      cases hh : w1.heap a with
      | none => simp [hh] at ho
      | some d =>
        simp only [hh, Option.some.injEq] at ho
        refine SameHives_trans w w1 w' h1 ?_
        rw [← ho]
        intro b d' hb
        simp only [setKey, setData] at hb
        by_cases hba : b = a
        · subst hba
          simp only [if_true, Option.some.injEq] at hb
          exact ⟨d, hh, by rw [← hb], by rw [← hb], by rw [← hb]⟩
        · simp only [hba, if_false] at hb
          exact ⟨d', hb, rfl, rfl, rfl⟩

end World

namespace ValStore

/-- A failed `Deserialize` into an empty store leaves the store empty. -/
theorem Deserialize_failed_empty (fs : FS) (file : _str_t) (junk : Nat)
    (h : (empty.Deserialize fs file junk).1 = false) :
    (empty.Deserialize fs file junk).2 = empty := by
  unfold Deserialize _deserialize at h ⊢
  cases hf : fs file with
  | none => rfl
  | some content =>
    simp only [hf] at h ⊢
    unfold _deserialize_bytes at h ⊢
    by_cases hm : _hdr_t.magic _hdr_t ≠
        _hdr_t.magic (fread _hdr_t 16 { rest := content, eof := false }).1
    · rw [if_pos hm]
      rfl
    · simp [hm] at h

end ValStore

namespace World

theorem Consistent_of_SameHives (w w' : World) (hs : SameHives w w') (hw : w.Consistent) :
    w'.Consistent := by
  intro a d' hd'
  obtain ⟨d, h1, h2, h3, _⟩ := hs a d' hd'
  rw [h2, h3]
  exact hw a d h1

theorem Consistent_init (fs : FS) : (init fs).Consistent := by
  intro a d hd
  simp [init] at hd

/-- Opening a root handle keeps every index consistent with its store. -/
theorem Consistent_open_file (w w' : World) (h : Nat) (hive keyPath : _str_t)
    (bWrite : Bool) (junk : Nat) (hw : w.Consistent)
    (ho : _valKey._open_file w h hive keyPath bWrite junk = some w') : w'.Consistent := by
  unfold _valKey._open_file at ho
  cases hc : _valKey._close w h with
  | none => simp [hc] at ho
  | some rw1 =>
    obtain ⟨r, w1⟩ := rw1
    simp only [hc] at ho
    have h1 := Consistent_of_SameHives w w1 (SameHives_close w w1 h r hc) hw
    intro a d hd
    by_cases hr : (__vkdata.new.VS.Deserialize w1.fs hive junk).1 = true
    · simp only [hr, if_true, Bool.true_or, Option.some.injEq] at ho
      rw [← ho] at hd
      simp only [setKey, setData] at hd
      by_cases ha : a = w1.next
      · simp only [ha, if_true, Option.some.injEq] at hd
        rw [← hd]
        exact ValStore.BuildKeyTree_Derived _ _
      · simp only [ha, if_false] at hd
        exact h1 a d hd
    · have hr' : (ValStore.empty.Deserialize w1.fs hive junk).1 = false := by
        simpa [__vkdata.new] using hr
      have hemp := ValStore.Deserialize_failed_empty w1.fs hive junk hr'
      have hr2 : (__vkdata.new.VS.Deserialize w1.fs hive junk).1 = false := hr'
      have hemp2 : (__vkdata.new.VS.Deserialize w1.fs hive junk).2 = ValStore.empty := hemp
      simp only [hr2, hemp2, Bool.false_or, Bool.false_eq_true, if_false] at ho
      split at ho
      · simp only [Option.some.injEq] at ho
        rw [← ho] at hd
        simp only [setKey, setData] at hd
        by_cases ha : a = w1.next
        · simp only [ha, if_true, Option.some.injEq] at hd
          rw [← hd]
          exact KeyTree.Derived_nil
        · simp only [ha, if_false] at hd
          exact h1 a d hd
      · simp only [Option.some.injEq] at ho
        rw [← ho] at hd
        simp only [setKey, setData] at hd
        by_cases ha : a = w1.next
        · simp only [ha, if_true, Option.some.injEq] at hd
          rw [← hd]
          exact KeyTree.Derived_nil
        · simp only [ha, if_false] at hd
          exact h1 a d hd

/-- A `SetVal` through a handle with a value name without delimiter keeps every index
consistent with its store. -/
theorem Consistent_setVal (w w' : World) (h : Nat) (name : _str_t) (type : Nat)
    (data : List BYTE) (r : Bool) (hn : _del ∉ name) (hw : w.Consistent)
    (hs : _valKey._setVal w h name type data = some (r, w')) : w'.Consistent := by
  unfold _valKey._setVal at hs
  cases hd : (w.keys h)._d with
  | none => simp [hd] at hs
  | some a =>
    simp only [hd] at hs
    cases hh : w.heap a with
    | none => simp [hh] at hs
    | some d =>
      simp only [hh, Option.some.injEq, Prod.mk.injEq] at hs
      intro b d' hb
      rw [← hs.2] at hb
      simp only [setKey, setData] at hb
      by_cases hba : b = a
      · simp only [hba, if_true, Option.some.injEq] at hb
        rw [← hb]
        have hstep := KeyTree.Derived_AddValue d.KT._MAP d.VS._MAP.keys
          (KeyTree.BuildPath (w.keys h)._key name) (hw a d hh)
        rw [KeyTree.erase_last_buildpath _ _ hn, KeyTree.splitpath_buildpath _ _ hn] at hstep
        refine KeyTree.Derived_congr _ _ _ hstep (fun f => ?_)
        simp only [ValStore.SetVal, ValStore._setVal, _valKey._rel, umap.mem_keys_assign,
          List.mem_cons]
        tauto
      · simp only [hba, if_false] at hb
        exact hw b d' hb

theorem Consistent_step (w w' : World) (op : Op) (hp : op.plain) (hw : w.Consistent)
    (hs : w.step op = some w') : w'.Consistent := by
  cases op with
  | openKey h vkey keyPath bWrite =>
    exact Consistent_of_SameHives w w' (SameHives_open_key w w' h vkey keyPath bWrite hs) hw
  | setVal h name type data =>
    simp only [step, Option.map_eq_some'] at hs
    obtain ⟨⟨r, w1⟩, h1, h2⟩ := hs
    simp only at h2
    subst h2
    exact Consistent_setVal w w1 h name type data r hp hw h1
  | delSubKey h name => exact absurd hp (by simp [Op.plain])
  | close h =>
    simp only [step, Option.map_eq_some'] at hs
    obtain ⟨⟨r, w1⟩, h1, h2⟩ := hs
    simp only at h2
    subst h2
    exact Consistent_of_SameHives w w1 (SameHives_close w w1 h r h1) hw

theorem Consistent_run (ops : List Op) (w w' : World) (hp : ∀ op ∈ ops, op.plain)
    (hw : w.Consistent) (hs : w.run ops = some w') : w'.Consistent := by
  induction ops generalizing w with
  | nil =>
    simp only [run, Option.some.injEq] at hs
    rw [← hs]; exact hw
  | cons op rest ih =>
    simp only [run] at hs
    cases h1 : w.step op with
    | none => simp [h1] at hs
    | some w1 =>
      simp only [h1] at hs
      exact ih w1 (fun o ho => hp o (List.mem_cons_of_mem _ ho))
        (Consistent_step w w1 op (hp op (List.mem_cons_self _ _)) hw h1) hs

end World

/-! ## C10: index and store stay consistent -/

namespace World

/-- C10 (refuted as stated): after `SetVal` of the value name `a\b` through a root handle
with key path `k`, the tree has no key `k\a`, while the tree rebuilt from the store
(which holds the full name `k\a\b`) has it. -/
theorem C10_delimiter_in_value_name :
    ((openRun (FS.ofFiles (fun _ => none)) 0 [104] [107] true 0
        [.setVal 0 [97, 92, 98] 4 [1, 0, 0, 0]]).bind (fun w => w.heap 0)).map
      (fun d => (d.KT.IsKey [107, 92, 97], (d.VS.BuildKeyTree d.KT).IsKey [107, 92, 97]))
    = some (false, true) := by decide

/-- C10 (amended): in every hive state reached from a freshly opened root handle by a
sequence of subkey opens, closes and `SetVal` operations whose value names contain no
delimiter, the hive's tree equals the tree `BuildKeyTree` rebuilds from the hive's
store: same indexed key paths, same children sets, same value-name sets. -/
theorem C10_index_consistent (fs : FS) (r : Nat) (hive keyPath : _str_t) (bWrite : Bool)
    (junk : Nat) (ops : List Op) (hp : ∀ op ∈ ops, op.plain) :
    AllHives (openRun fs r hive keyPath bWrite junk ops)
      (fun d => KeyTree.TreeEq d.KT (d.VS.BuildKeyTree d.KT)) := by
  intro w hw a d hd
  unfold openRun at hw
  cases h0 : _valKey._open_file (init fs) r hive keyPath bWrite junk with
  | none => simp [h0] at hw
  | some w0 =>
    simp only [h0, Option.some_bind] at hw
    have hc0 := Consistent_open_file (init fs) w0 r hive keyPath bWrite junk
      (Consistent_init fs) h0
    have hc := Consistent_run ops w0 w hp hc0 hw
    exact KeyTree.Derived_TreeEq d.KT _ _ (hc a d hd) (ValStore.BuildKeyTree_Derived d.VS d.KT)

/-- Witness for C10: the run of `cmdValKey` up to the end of its inner block reaches a
world with a hive, and the hive's tree equals the rebuilt tree. -/
theorem C10_index_consistent_witness :
    ((openRun (FS.ofFiles (fun _ => none)) 0 [104] [107, 49] true 0
        [.setVal 0 [83] 1 [72, 0], .openKey 1 0 [107, 50] true,
         .setVal 1 [68] 4 [1, 0, 0, 0], .close 1]).bind (fun w => w.heap 0)).isSome = true ∧
    AllHives (openRun (FS.ofFiles (fun _ => none)) 0 [104] [107, 49] true 0
        [.setVal 0 [83] 1 [72, 0], .openKey 1 0 [107, 50] true,
         .setVal 1 [68] 4 [1, 0, 0, 0], .close 1])
      (fun d => KeyTree.TreeEq d.KT (d.VS.BuildKeyTree d.KT)) :=
  ⟨by decide, C10_index_consistent (FS.ofFiles (fun _ => none)) 0 [104] [107, 49] true 0 _
    (by simp [Op.plain]; decide)⟩

end World

/-! ## Facts for persistence through handles -/

theorem ofLE_lt (bs : List BYTE) : ofLE bs < 256 ^ bs.length := by
  induction bs with
  | nil => simp [ofLE]
  | cons b rest ih =>
    simp only [ofLE, List.length_cons, Nat.pow_succ]
    have := b.isLt
    omega

theorem ofLE_lt_four (bs : List BYTE) (h : bs.length = 4) : ofLE bs < 4294967296 := by
  have := ofLE_lt bs
  rw [h] at this
  exact this

namespace umap

variable {κ ν : Type} [DecidableEq κ]

theorem keys_assign (m : umap κ ν) (k : κ) (v : ν) :
    keys (assign m k v) = if k ∈ keys m then keys m else keys m ++ [k] := by
  induction m with
  | nil => simp [assign, keys]
  | cons e rest ih =>
    obtain ⟨k', v'⟩ := e
    by_cases h : k' = k
    · subst h
      simp [assign, keys]
    · have h' : ¬ k = k' := fun e => h e.symm
      simp only [keys] at ih
      simp only [assign, h, if_false, keys, List.map_cons, List.mem_cons, h', false_or, ih]
      split <;> simp

theorem nodup_keys_assign (m : umap κ ν) (k : κ) (v : ν) (h : (keys m).Nodup) :
    (keys (assign m k v)).Nodup := by
  rw [keys_assign]
  split
  · exact h
  · rename_i hk
    exact List.Nodup.append h (List.nodup_singleton k) (by
      intro x hx hx'
      rw [List.mem_singleton] at hx'
      exact hk (hx' ▸ hx))

theorem mem_assign (m : umap κ ν) (k : κ) (v : ν) (e : κ × ν) (h : e ∈ assign m k v) :
    e ∈ m ∨ e = (k, v) := by
  induction m with
  | nil =>
    simp only [assign, List.mem_singleton] at h
    exact Or.inr h
  | cons e' rest ih =>
    obtain ⟨k', v'⟩ := e'
    by_cases hk : k' = k
    · subst hk
      simp only [assign, if_true, List.mem_cons] at h
      rcases h with h | h
      · exact Or.inr h
      · exact Or.inl (List.mem_cons_of_mem _ h)
    · simp only [assign, hk, if_false, List.mem_cons] at h
      rcases h with h | h
      · exact Or.inl (by rw [h]; exact List.mem_cons_self _ _)
      · rcases ih h with h1 | h1
        · exact Or.inl (List.mem_cons_of_mem _ h1)
        · exact Or.inr h1

/-- After a run of assignments a key maps to the value last assigned to it, or to its
old value when it was not assigned. -/
theorem find_foldl_assign (l : List (κ × ν)) (m : umap κ ν) (f : κ) :
    find (l.foldl (fun acc e => assign acc e.1 e.2) m) f =
      match lastWrite l f with
      | some v => some v
      | none => find m f := by
  induction l generalizing m with
  | nil => rfl
  | cons e rest ih =>
    simp only [List.foldl_cons, lastWrite]
    rw [ih]
    cases lastWrite rest f with
    | some v => rfl
    | none =>
      simp only
      rw [find_assign]
      split <;> rfl

end umap

namespace ValStore

theorem AllFit_assign (m : umap _str_t _val_t) (k : _str_t) (v : _val_t) (h : AllFit m)
    (he : entryFits (k, v)) : AllFit (m.assign k v) := by
  refine ⟨umap.nodup_keys_assign m k v h.1, fun e hmem => ?_⟩
  rcases umap.mem_assign m k v e hmem with h1 | h1
  · exact h.2 e h1
  · rw [h1]; exact he

theorem AllFit_foldl (l m : umap _str_t _val_t) (h : AllFit m) (hl : ∀ e ∈ l, entryFits e) :
    AllFit (l.foldl (fun acc e => acc.assign e.1 e.2) m) := by
  induction l generalizing m with
  | nil => exact h
  | cons e rest ih =>
    exact ih _ (AllFit_assign m e.1 e.2 h (hl e (List.mem_cons_self _ _)))
      (fun e' he' => hl e' (List.mem_cons_of_mem _ he'))

theorem AllFit_WF (S : ValStore) (h : AllFit S._MAP) : S.WF ∧ S.lengthsBelow :=
  ⟨⟨h.1, fun e he => (h.2 e he).1⟩, fun e he => ⟨(h.2 e he).2.1, (h.2 e he).2.2⟩⟩

/-- Whatever the file holds, the entries the reading loop assigns fit. -/
theorem _deserialize_loop_AllFit (junk pack fuel : Nat) (f : File) (m : umap _str_t _val_t)
    (h : AllFit m) : AllFit (_deserialize_loop junk pack fuel f m) := by
  induction fuel generalizing f m with
  | zero => exact h
  | succ fuel ih =>
    rw [_deserialize_loop]
    split
    · exact h
    · simp only
      split
      · exact h
      · apply ih
        apply AllFit_assign _ _ _ h
        refine ⟨ofLE_lt_four _ (fread_length _ _ _ rfl), ?_, ?_⟩
        · simp only
          rw [fread_length _ _ _ (List.length_replicate _ _)]
          exact ofLE_lt_four _ (fread_length _ _ _ rfl)
        · simp only
          have h4 : (fread (fread (leU32 0) 4 f).1 4
              (fread (leU32 junk) 4 (_rpack (ofLE (fread (leU32 0) 4 f).1) pack
                (fread (List.replicate (ofLE (fread (leU32 0) 4 f).1) 0)
                  (ofLE (fread (leU32 0) 4 f).1) (fread (leU32 0) 4 f).2).2)).2).1.length = 4 :=
            fread_length _ _ _ (fread_length _ _ _ rfl)
          split
          · rw [fread_length _ _ _ (List.length_replicate _ _)]
            exact ofLE_lt_four _ h4
          · simp

/-- Whatever the file holds, the store `Deserialize` leaves in an empty store fits. -/
theorem Deserialize_AllFit (fs : FS) (file : _str_t) (junk : Nat) :
    AllFit (empty.Deserialize fs file junk).2._MAP := by
  have hnil : AllFit ([] : umap _str_t _val_t) := ⟨List.nodup_nil, fun e he => by cases he⟩
  unfold Deserialize _deserialize
  cases fs file with
  | none => exact hnil
  | some content =>
    simp only
    unfold _deserialize_bytes
    simp only
    split
    · exact hnil
    · exact _deserialize_loop_AllFit _ _ _ _ _ hnil

end ValStore

namespace World

theorem run_append (ops : List Op) (w : World) (op : Op) :
    w.run (ops ++ [op]) = (w.run ops).bind (fun w1 => w1.step op) := by
  induction ops generalizing w with
  | nil =>
    simp only [List.nil_append, run, Option.some_bind]
    cases w.step op <;> rfl
  | cons o rest ih =>
    simp only [List.cons_append, run]
    cases w.step o with
    | none => rfl
    | some w1 => exact ih w1

theorem keys_close (w w' : World) (h : Nat) (r : Bool)
    (hc : _valKey._close w h = some (r, w')) :
    ∀ g a, (w'.keys g)._d = some a → (w.keys g)._d = some a := by
  unfold _valKey._close at hc
  cases hd : (w.keys h)._d with
  | none =>
    simp only [hd, Option.some.injEq, Prod.mk.injEq] at hc
    rw [← hc.2]
    exact fun _ _ h => h
  | some a =>
    simp only [hd] at hc
    cases hh : w.heap a with
    | none => simp [hh] at hc
    | some d =>
      simp only [hh, Option.some.injEq, Prod.mk.injEq] at hc
      rw [← hc.2]
      intro g b hg
      simp only [setKey] at hg
      by_cases hgh : g = h
      · simp [hgh, _valKey._init] at hg
      · simp only [hgh, if_false] at hg
        split at hg
        · simpa [setData, keys_flush] using hg
        · simpa [setData, keys_flush] using hg

theorem OneHive_of_SameHives (hive : _str_t) (m : umap _str_t ValStore._val_t) (w w' : World)
    (hs : SameHives w w') (hk : ∀ g a, (w'.keys g)._d = some a → a = 0)
    (hw : OneHive hive m w) : OneHive hive m w' := by
  refine ⟨fun b hb => ?_, hk, fun d' hd' => ?_⟩
  · cases hh : w'.heap b with
    | none => rfl
    | some d' =>
      obtain ⟨d, h1, _⟩ := hs b d' hh
      rw [hw.1 b hb] at h1
      cases h1
  · obtain ⟨d, h1, h2, _, h4⟩ := hs 0 d' hd'
    have := hw.2.2 d h1
    rw [h2, h4]
    exact this

theorem OneHive_close (hive : _str_t) (m : umap _str_t ValStore._val_t) (w w' : World)
    (h : Nat) (r : Bool) (hc : _valKey._close w h = some (r, w')) (hw : OneHive hive m w) :
    OneHive hive m w' :=
  OneHive_of_SameHives hive m w w' (SameHives_close w w' h r hc)
    (fun g a hg => hw.2.1 g a (keys_close w w' h r hc g a hg)) hw

theorem OneHive_open_key (hive : _str_t) (m : umap _str_t ValStore._val_t) (w w' : World)
    (h vkey : Nat) (keyPath : _str_t) (bWrite : Bool)
    (ho : _valKey._open_key w h vkey keyPath bWrite = some w') (hw : OneHive hive m w) :
    OneHive hive m w' := by
  refine OneHive_of_SameHives hive m w w' (SameHives_open_key w w' h vkey keyPath bWrite ho)
    ?_ hw
  unfold _valKey._open_key at ho
  cases hc : _valKey._close w h with
  | none => simp [hc] at ho
  | some rw1 =>
    obtain ⟨r, w1⟩ := rw1
    simp only [hc] at ho
    have h1 := OneHive_close hive m w w1 h r hc hw
    cases hd : (w1.keys vkey)._d with
    | none => simp [hd] at ho
    | some a =>
      simp only [hd] at ho
      cases hh : w1.heap a with
      | none => simp [hh] at ho
      | some d =>
        simp only [hh, Option.some.injEq] at ho
        rw [← ho]
        intro g b hg
        simp only [setKey, setData] at hg
        by_cases hgh : g = h
        · simp only [hgh, if_true, Option.some.injEq] at hg
          rw [← hg]
          exact h1.2.1 vkey a hd
        · simp only [hgh, if_false] at hg
          exact h1.2.1 g b hg

theorem OneHive_setVal (hive : _str_t) (m : umap _str_t ValStore._val_t) (w w' : World)
    (h : Nat) (name : _str_t) (type : Nat) (data : List BYTE) (r : Bool)
    (hs : _valKey._setVal w h name type data = some (r, w')) (hw : OneHive hive m w) :
    OneHive hive (m.assign ((w.keys h)._rel name) ⟨toUINT type, data⟩) w' := by
  unfold _valKey._setVal at hs
  cases hd : (w.keys h)._d with
  | none => simp [hd] at hs
  | some a =>
    simp only [hd] at hs
    have ha : a = 0 := hw.2.1 h a hd
    subst ha
    cases hh : w.heap 0 with
    | none => simp [hh] at hs
    | some d =>
      simp only [hh, Option.some.injEq, Prod.mk.injEq] at hs
      have hdata : (if 0 < data.length then data else []) = data := by
        cases data <;> simp
      rw [← hs.2]
      refine ⟨fun b hb => ?_, fun g b hg => ?_, fun d' hd' => ?_⟩
      · simp only [setKey, setData, hb, if_false]
        exact hw.1 b hb
      · simp only [setKey, setData] at hg
        by_cases hgh : g = h
        · simp only [hgh, if_true] at hg
          exact (Option.some.inj hg).symm
        · simp only [hgh, if_false] at hg
          exact hw.2.1 g b hg
      · simp only [setKey, setData, if_true, Option.some.injEq] at hd'
        rw [← hd']
        refine ⟨(hw.2.2 d hh).1, ?_⟩
        simp only [ValStore.SetVal, ValStore._setVal, hdata, (hw.2.2 d hh).2]

/-- The store of the hive after a run is its store before with the writes applied. -/
theorem OneHive_run (hive : _str_t) (ops : List Op) (m : umap _str_t ValStore._val_t)
    (w w' : World) (hnd : ∀ op ∈ ops, op.noDel) (hrun : w.run ops = some w')
    (hw : OneHive hive m w) :
    OneHive hive ((w.writes ops).foldl (fun acc e => acc.assign e.1 e.2) m) w' := by
  induction ops generalizing w m with
  | nil =>
    simp only [run, Option.some.injEq] at hrun
    rw [← hrun]
    exact hw
  | cons op rest ih =>
    simp only [run] at hrun
    cases h1 : w.step op with
    | none => simp [h1] at hrun
    | some w1 =>
      simp only [h1] at hrun
      have hrest : ∀ o ∈ rest, o.noDel := fun o ho => hnd o (List.mem_cons_of_mem _ ho)
      cases op with
      | openKey h vkey keyPath bWrite =>
        simp only [writes, h1]
        exact ih m w1 hrest hrun (OneHive_open_key hive m w w1 h vkey keyPath bWrite h1 hw)
      | setVal h name type data =>
        simp only [writes, h1, List.foldl_cons]
        simp only [step, Option.map_eq_some'] at h1
        obtain ⟨⟨r, w2⟩, g1, g2⟩ := h1
        simp only at g2
        subst g2
        exact ih _ w2 hrest hrun (OneHive_setVal hive m w w2 h name type data r g1 hw)
      | delSubKey h name => exact absurd (hnd _ (List.mem_cons_self _ _)) (by simp [Op.noDel])
      | close h =>
        simp only [writes, h1]
        simp only [step, Option.map_eq_some'] at h1
        obtain ⟨⟨r, w2⟩, g1, g2⟩ := h1
        simp only at g2
        subst g2
        exact ih m w2 hrest hrun (OneHive_close hive m w w2 h r g1 hw)

theorem writes_type_lt (ops : List Op) (w : World) :
    ∀ e ∈ w.writes ops, e.2.type < 4294967296 := by
  induction ops generalizing w with
  | nil => intro e he; simp [writes] at he
  | cons op rest ih =>
    intro e he
    simp only [writes] at he
    cases h1 : w.step op with
    | none => simp [h1] at he
    | some w1 =>
      simp only [h1] at he
      cases op with
      | setVal h name type data =>
        simp only [List.mem_cons] at he
        rcases he with he | he
        · rw [he]
          exact Nat.mod_lt _ (by decide)
        · exact ih w1 e he
      | openKey h vkey keyPath bWrite => exact ih w1 e he
      | delSubKey h name => exact ih w1 e he
      | close h => exact ih w1 e he

/-- Opening a root handle for writing in a world without hives. -/
theorem open_file_init (fs : FS) (r : Nat) (hive keyPath : _str_t) (junk : Nat) :
    ∃ w0, _valKey._open_file (init fs) r hive keyPath true junk = some w0 ∧
      OneHive hive (ValStore.empty.Deserialize fs hive junk).2._MAP w0 := by
  have hc : _valKey._close (init fs) r = some (true, init fs) := rfl
  unfold _valKey._open_file
  simp only [hc, Bool.or_true, if_true]
  refine ⟨_, rfl, fun b hb => ?_, fun g a hg => ?_, fun d hd => ?_⟩
  · simp [init, setKey, setData, hb]
  · simp only [init, _valKey.null, setKey, setData] at hg
    by_cases hgr : g = r
    · simp only [hgr, if_true, Option.some.injEq] at hg
      exact hg.symm
    · simp [hgr] at hg
  · simp only [init, setKey, setData, if_true, Option.some.injEq] at hd
    rw [← hd]
    refine ⟨rfl, ?_⟩
    by_cases hr : (__vkdata.new.VS.Deserialize fs hive junk).1 = true
    · simp only [hr, if_true]
      rfl
    · simp only [hr, if_false]
      rfl

end World

/-! ## C3: persistence through handles -/

namespace World

/-- The last close of a write-mode handle writes the store to the hive file when the
file can be opened for writing. -/
theorem close_last_write (w : World) (h : Nat) (d : __vkdata)
    (hd : (w.keys h)._d = some 0) (hh : w.heap 0 = some d)
    (hwr : (w.keys h)._write = true) (hlast : d.refCount = 1)
    (hopen : w.fs.canWrite d.hive = true) :
    ∃ w', w.step (.close h) = some w' ∧ (w'.keys h).IsNull = true ∧ w'.heap 0 = none ∧
      w'.fs = w.fs.write d.hive d.VS._serialize_bytes := by
  have hlt : d.refCount - 1 < 1 := by rw [hlast]; decide
  have hstep : w.step (.close h) =
      some (((_valKey._flush w h d).2.setData 0 none).setKey h (_valKey._init (w.keys h))) := by
    simp only [step, _valKey._close, hd, hh, Option.map_some', hlt, if_true]
  refine ⟨_, hstep, ?_, ?_, ?_⟩
  · simp [setKey, _valKey._init, _valKey.IsNull]
  · simp [setKey, setData]
  · simp [setKey, setData, _valKey._flush, hwr, hopen, ValStore.Serialize,
      ValStore._serialize]

/-- A `SetVal` of a text of 2^32 bytes through a write-mode root handle, followed by the
last close: the in-memory store holds 2^32 bytes under `k\v`, the file read back holds
none. -/
theorem long_value_lost (data : List BYTE) (hlen : data.length = 4294967296) :
    ((openRun (FS.ofFiles (fun _ => none)) 0 [104] [107] true 0 [.setVal 0 [118] 1 data]).bind
      (fun w => w.data 0)).map (fun d => (d.VS._getVal [107, 92, 118]).map (fun r => r.2.2))
      = some (some 4294967296) ∧
    (openRun (FS.ofFiles (fun _ => none)) 0 [104] [107] true 0 [.setVal 0 [118] 1 data, .close 0]).map
      (fun w => ((ValStore.empty.Deserialize w.fs [104] 0).2._getVal [107, 92, 118]).map
        (fun r => r.2.2)) = some (some 0) := by
  have hne : 0 < data.length := by rw [hlen]; decide
  have hrun1 : ((openRun (FS.ofFiles (fun _ => none)) 0 [104] [107] true 0 [.setVal 0 [118] 1 data]).bind
      (fun w => w.data 0)).map (fun d => d.VS) =
      some ⟨[([107, 92, 118], ⟨1, if 0 < data.length then data else []⟩)]⟩ := rfl
  have hrun2 : (openRun (FS.ofFiles (fun _ => none)) 0 [104] [107] true 0
      [.setVal 0 [118] 1 data, .close 0]).map (fun w => w.fs [104]) =
      some (some (ValStore._serialize_bytes
        ⟨[([107, 92, 118], ⟨1, if 0 < data.length then data else []⟩)]⟩)) := rfl
  constructor
  · have : ((openRun (FS.ofFiles (fun _ => none)) 0 [104] [107] true 0 [.setVal 0 [118] 1 data]).bind
        (fun w => w.data 0)).map
          (fun d => (d.VS._getVal [107, 92, 118]).map (fun r => r.2.2)) =
        (((openRun (FS.ofFiles (fun _ => none)) 0 [104] [107] true 0 [.setVal 0 [118] 1 data]).bind
        (fun w => w.data 0)).map (fun d => d.VS)).map
          (fun S => (S._getVal [107, 92, 118]).map (fun r => r.2.2)) := by
      rw [Option.map_map]; rfl
    rw [this, hrun1]
    simp [ValStore._getVal, umap.find, hne, hlen]
  · have hdata : (if 0 < data.length then data else []) = data := by rw [if_pos hne]
    have hser : ValStore._serialize_bytes ⟨[([107, 92, 118], ⟨1, data⟩)]⟩ =
        ValStore._serialize_bytes ⟨[([107, 92, 118], ⟨1, []⟩)]⟩ := by
      simp [ValStore._serialize_bytes, ValStore._serialize_record, toUINT, hlen]
    have hback : ValStore._deserialize_bytes
        (ValStore._serialize_bytes ⟨[([107, 92, 118], ⟨1, []⟩)]⟩) 0 =
        (true, ⟨[([107, 92, 118], ⟨1, []⟩)]⟩) :=
      ValStore._deserialize_bytes_serialize _ 0 (by decide) (by decide)
    cases hO : openRun (FS.ofFiles (fun _ => none)) 0 [104] [107] true 0
        [.setVal 0 [118] 1 data, .close 0] with
    | none => rw [hO] at hrun2; cases hrun2
    | some w =>
      rw [hO] at hrun2
      simp only [Option.map_some', Option.some.injEq] at hrun2
      rw [hdata, hser] at hrun2
      simp only [Option.map_some', ValStore.Deserialize, ValStore._deserialize, hrun2, hback]
      rfl

/-- C3 (refuted as stated): a text of 2^32 bytes (2^32 - 1 letters and the terminator)
is set under `v` through a root handle opened with write=true on key `k`, and the handle
is closed: the store held 2^32 bytes under `k\v`, the hive file read back holds none. -/
theorem C3_long_text_not_persisted :
    ((openRun (FS.ofFiles (fun _ => none)) 0 [104] [107] true 0
        [.setVal 0 [118] 1 (List.replicate 4294967295 65 ++ [0])]).bind
      (fun w => w.data 0)).map (fun d => (d.VS._getVal [107, 92, 118]).map (fun r => r.2.2))
      = some (some 4294967296) ∧
    (openRun (FS.ofFiles (fun _ => none)) 0 [104] [107] true 0
        [.setVal 0 [118] 1 (List.replicate 4294967295 65 ++ [0]), .close 0]).map
      (fun w => ((ValStore.empty.Deserialize w.fs [104] 0).2._getVal [107, 92, 118]).map
        (fun r => r.2.2)) = some (some 0) :=
  long_value_lost (List.replicate 4294967295 65 ++ [0])
    (by rw [List.length_append, List.length_replicate]; rfl)

/-- C3 (amended): for every sequence of `SetVal`, subkey open and close operations made
through a root handle opened with write=true and through handles opened from it, in
which every full name and every value written is shorter than 2^32 bytes: if handle `h`
is in write mode and is the last handle of the hive, and the hive file can be opened for
writing, then closing it releases the hive and leaves a hive file that deserializes, into
a fresh store, to exactly the final in-memory store; in that store every full name
`BuildPath(handle key path, value name)` that was set maps to the tag and bytes last
written for it, and every other name to what the hive held when it was opened. -/
theorem C3_persistence (fs : FS) (r : Nat) (hive keyPath : _str_t) (junk junk2 : Nat)
    (ops : List Op) (h : Nat) (hnd : ∀ op ∈ ops, op.noDel)
    (hfit : ∀ e ∈ openWrites fs r hive keyPath true junk ops,
      e.1.length < 4294967296 ∧ e.2.data.length < 4294967296)
    (hwr : (openRun fs r hive keyPath true junk ops).map (fun w => (w.keys h)._write)
      = some true)
    (hlast : ((openRun fs r hive keyPath true junk ops).bind (fun w => w.data h)).map
      (fun d => d.refCount) = some 1)
    (hopen : (openRun fs r hive keyPath true junk ops).map (fun w => w.fs.canWrite hive)
      = some true) :
    ∃ d w', (openRun fs r hive keyPath true junk ops).bind (fun w => w.data h) = some d ∧
      openRun fs r hive keyPath true junk (ops ++ [.close h]) = some w' ∧
      (w'.keys h).IsNull = true ∧ (∀ a, w'.heap a = none) ∧
      ValStore.empty.Deserialize w'.fs hive junk2 = (true, d.VS) ∧
      ∀ f, d.VS._MAP.find f =
        match umap.lastWrite (openWrites fs r hive keyPath true junk ops) f with
        | some v => some v
        | none => (ValStore.empty.Deserialize fs hive junk).2._MAP.find f := by
  obtain ⟨w0, h0, hone0⟩ := open_file_init fs r hive keyPath junk
  have hO : ∀ l, openRun fs r hive keyPath true junk l = w0.run l := by
    intro l; simp only [openRun, h0, Option.some_bind]
  have hW : openWrites fs r hive keyPath true junk ops = w0.writes ops := by
    simp only [openWrites, h0]
  rw [hO] at hwr hlast hopen
  rw [hW] at hfit
  rw [hO, hO, hW]
  cases hrun : w0.run ops with
  | none => rw [hrun] at hwr; cases hwr
  | some w =>
    rw [hrun] at hwr hlast hopen
    simp only [Option.map_some', Option.some.injEq, Option.some_bind] at hwr hlast hopen
    have hone := OneHive_run hive ops _ w0 w hnd hrun hone0
    cases hkd : (w.keys h)._d with
    | none => simp [data, hkd] at hlast
    | some a =>
      have ha : a = 0 := hone.2.1 h a hkd
      subst ha
      cases hh : w.heap 0 with
      | none => simp [data, hkd, hh] at hlast
      | some d =>
        have hdata : w.data h = some d := by simp [data, hkd, hh]
        rw [hdata] at hlast
        simp only [Option.map_some', Option.some.injEq] at hlast
        obtain ⟨w', hstep, hnull, hheap, hfs⟩ := close_last_write w h d hkd hh hwr hlast
          (by rw [(hone.2.2 d hh).1]; exact hopen)
        have hclose : ∃ rr, _valKey._close w h = some (rr, w') := by
          simp only [step, Option.map_eq_some'] at hstep
          obtain ⟨⟨rr, w2⟩, g1, g2⟩ := hstep
          simp only at g2
          subst g2
          exact ⟨rr, g1⟩
        obtain ⟨rr, hcl⟩ := hclose
        have hone' := OneHive_close hive _ w w' h rr hcl hone
        have hfitAll : ∀ e ∈ w0.writes ops, ValStore.entryFits e :=
          fun e he => ⟨writes_type_lt ops w0 e he, (hfit e he).1, (hfit e he).2⟩
        have hall : ValStore.AllFit d.VS._MAP := by
          rw [(hone.2.2 d hh).2]
          exact ValStore.AllFit_foldl _ _ (ValStore.Deserialize_AllFit fs hive junk) hfitAll
        have hwf := ValStore.AllFit_WF d.VS hall
        refine ⟨d, w', by simp only [Option.some_bind, hdata], ?_, hnull, ?_, ?_, ?_⟩
        · rw [run_append, hrun, Option.some_bind, hstep]
        · intro b
          by_cases hb : b = 0
          · rw [hb]; exact hheap
          · exact hone'.1 b hb
        · simp only [ValStore.Deserialize, ValStore._deserialize, hfs, FS.write,
            (hone.2.2 d hh).1, if_true]
          exact ValStore._deserialize_bytes_serialize d.VS junk2 hwf.1 hwf.2
        · intro f
          rw [(hone.2.2 d hh).2, umap.find_foldl_assign]
          cases umap.lastWrite (w0.writes ops) f <;> rfl

/-- Witness for C3: the run of `cmdValKey` with one value per handle; the root handle,
in write mode, is closed last. -/
theorem C3_persistence_witness :
    ∃ d w', (openRun (FS.ofFiles (fun _ => none)) 0 [104] [107, 49] true 0
        [.setVal 0 [83] 1 [72, 0], .openKey 1 0 [107, 50] true,
         .setVal 1 [68] 4 [1, 0, 0, 0], .close 1]).bind (fun w => w.data 0) = some d ∧
      openRun (FS.ofFiles (fun _ => none)) 0 [104] [107, 49] true 0
        ([.setVal 0 [83] 1 [72, 0], .openKey 1 0 [107, 50] true,
         .setVal 1 [68] 4 [1, 0, 0, 0], .close 1] ++ [.close 0]) = some w' ∧
      (w'.keys 0).IsNull = true ∧ (∀ a, w'.heap a = none) ∧
      ValStore.empty.Deserialize w'.fs [104] 7 = (true, d.VS) ∧
      ∀ f, d.VS._MAP.find f =
        match umap.lastWrite (openWrites (FS.ofFiles (fun _ => none)) 0 [104] [107, 49] true 0
          [.setVal 0 [83] 1 [72, 0], .openKey 1 0 [107, 50] true,
           .setVal 1 [68] 4 [1, 0, 0, 0], .close 1]) f with
        | some v => some v
        | none => (ValStore.empty.Deserialize (FS.ofFiles (fun _ => none)) [104] 0).2._MAP.find f :=
  C3_persistence (FS.ofFiles (fun _ => none)) 0 [104] [107, 49] 0 7 _ 0
    (by simp [Op.noDel]) (by decide) (by decide) (by decide) (by decide)

end World

/-! ## C14, C15, C16: SplitPath and BuildPath -/

theorem rfind_mem (s : _str_t) (c : BYTE) (h : c ∈ s) : rfind s c ≠ none := by
  induction s with
  | nil => cases h
  | cons x xs ih =>
    simp only [rfind]
    cases hr : rfind xs c with
    | some q => simp
    | none =>
      have hx : c ∉ xs := fun hc => ih hc hr
      have : x = c := by
        rcases List.mem_cons.mp h with h1 | h1
        · exact h1.symm
        · exact absurd h1 hx
      simp [this]

/-- The position `rfind` returns holds the character, and the character does not occur
after it. -/
theorem rfind_some (s : _str_t) (c : BYTE) (p : Nat) (h : rfind s c = some p) :
    s = s.take p ++ [c] ++ s.drop (p + 1) ∧ c ∉ s.drop (p + 1) := by
  induction s generalizing p with
  | nil => simp [rfind] at h
  | cons x xs ih =>
    simp only [rfind] at h
    cases hr : rfind xs c with
    | some q =>
      rw [hr] at h
      simp only [Option.some.injEq] at h
      subst h
      obtain ⟨h1, h2⟩ := ih q hr
      constructor
      · simp only [List.take_succ_cons, List.drop_succ_cons, List.cons_append]
        rw [List.append_assoc] at h1
        rw [List.append_assoc, ← h1]
      · simpa using h2
    | none =>
      rw [hr] at h
      by_cases hx : x = c
      · simp only [hx, if_true, Option.some.injEq] at h
        subst h
        subst hx
        constructor
        · simp
        · intro hc
          exact rfind_mem xs x (by simpa using hc) hr
      · simp [hx] at h

namespace KeyTree

/-- C14 (refuted as stated): the path `a` has no delimiter; `SplitPath` gives an empty
branch and the leaf `a`, and `BuildPath` of these is `\a`, not `a`. -/
theorem C14_buildpath_of_top_level_key :
    BuildPath (SplitPath [97]).2.1 (SplitPath [97]).2.2 = [92, 97] ∧
    BuildPath (SplitPath [97]).2.1 (SplitPath [97]).2.2 ≠ [97] := by decide

/-- C14 (amended): for every path `p` that contains a delimiter, if `SplitPath(p)` yields
`(branch, leaf)` then `BuildPath(branch, leaf) = p`. -/
theorem C14_buildpath_splitpath (p : _str_t) (h : _del ∈ p) :
    BuildPath (SplitPath p).2.1 (SplitPath p).2.2 = p := by
  unfold SplitPath _splitpath BuildPath _buildpath
  cases hr : rfind p _del with
  | none => exact absurd hr (rfind_mem p _del h)
  | some pos => exact ((rfind_some p _del pos hr).1).symm

/-- Witness for C14 on the path `r\m`. -/
theorem C14_buildpath_splitpath_witness :
    BuildPath (SplitPath [114, 92, 109]).2.1 (SplitPath [114, 92, 109]).2.2 = [114, 92, 109] :=
  C14_buildpath_splitpath [114, 92, 109] (by decide)

/-- C15: for every branch `b` and every leaf `l` without delimiter,
`SplitPath(BuildPath(b, l))` yields branch `b` and leaf `l`; the flag returned tells
whether `b` is non-empty. -/
theorem C15_splitpath_buildpath (b l : _str_t) (h : _del ∉ l) :
    (SplitPath (BuildPath b l)).2.1 = b ∧ (SplitPath (BuildPath b l)).2.2 = l ∧
    (SplitPath (BuildPath b l)).1 = decide (0 < b.length) := by
  have h2 := splitpath_buildpath b l h
  refine ⟨by rw [SplitPath, h2], by rw [SplitPath, h2], ?_⟩
  unfold SplitPath _splitpath
  rw [rfind_buildpath b l h]
  simp [BuildPath, _buildpath]

/-- Witness for C15: branch `r\m` (with a delimiter of its own) and leaf `x`. -/
theorem C15_splitpath_buildpath_witness :
    (SplitPath (BuildPath [114, 92, 109] [120])).2.1 = [114, 92, 109] ∧
    (SplitPath (BuildPath [114, 92, 109] [120])).2.2 = [120] ∧
    (SplitPath (BuildPath [114, 92, 109] [120])).1 =
      decide (0 < ([114, 92, 109] : _str_t).length) :=
  C15_splitpath_buildpath [114, 92, 109] [120] (by decide)

/-- C16: for every path `p`, the leaf `SplitPath` returns has no delimiter; if `p` has no
delimiter the branch is empty and the leaf is `p`; if `p` has a delimiter then
`p = branch + '\' + leaf`, so the delimiter split on is the last one of `p`. -/
theorem C16_splitpath_last_delimiter (p : _str_t) :
    _del ∉ (SplitPath p).2.2 ∧
    (_del ∉ p → (SplitPath p).2.1 = [] ∧ (SplitPath p).2.2 = p) ∧
    (_del ∈ p → p = (SplitPath p).2.1 ++ [_del] ++ (SplitPath p).2.2) := by
  unfold SplitPath _splitpath
  cases hr : rfind p _del with
  | none =>
    have hn : _del ∉ p := fun hc => rfind_mem p _del hc hr
    exact ⟨hn, fun _ => ⟨rfl, rfl⟩, fun hc => absurd hc hn⟩
  | some pos =>
    obtain ⟨h1, h2⟩ := rfind_some p _del pos hr
    refine ⟨h2, fun hn => ?_, fun _ => h1⟩
    exact absurd (rfind_none p _del hn) (by rw [hr]; simp)

end KeyTree

/-! ## C13: the delete guard -/

namespace umap

variable {κ ν : Type} [DecidableEq κ]

theorem find_erase (m : umap κ ν) (k k2 : κ) :
    find (erase m k) k2 = if k2 = k then none else find m k2 := by
  induction m with
  | nil => simp [erase, find]
  | cons e rest ih =>
    obtain ⟨k', v'⟩ := e
    have hstep : erase ((k', v') :: rest) k =
        if k' = k then erase rest k else (k', v') :: erase rest k := by
      by_cases h : k' = k <;> simp [erase, List.filter_cons, h]
    rw [hstep]
    by_cases h1 : k' = k
    · subst h1
      rw [if_pos rfl, ih]
      by_cases h2 : k2 = k'
      · simp [h2]
      · have h2' : ¬ k' = k2 := fun e => h2 e.symm
        simp [find, h2, h2']
    · rw [if_neg h1]
      simp only [find, ih]
      by_cases h2 : k2 = k
      · subst h2
        simp [h1]
      · simp [h2]

end umap

namespace KeyTree

theorem IsKey_eq_isSome (t : KeyTree) (k : _str_t) : t.IsKey k = (t._MAP.find k).isSome := by
  unfold IsKey umap.count
  cases t._MAP.find k <;> simp

/-- C13: `DeleteKey(k)` returns false and leaves the tree unchanged when `k` is not
indexed or when `EnumSubkeys(k)` is non-empty; when `k` is indexed without children it
returns true, `k` is no longer indexed afterwards, and every other key path keeps its
node, so every other indexed key path is still indexed. -/
theorem C13_delete_guard (t : KeyTree) (k : _str_t) :
    ((t.IsKey k = false ∨ ∃ l, t.EnumSubkeys k = some l ∧ l ≠ []) →
      t.DeleteKey k = (false, t)) ∧
    ((t.IsKey k = true ∧ t.EnumSubkeys k = some []) →
      (t.DeleteKey k).1 = true ∧ (t.DeleteKey k).2.IsKey k = false ∧
      ∀ k2, k2 ≠ k → (t.DeleteKey k).2.IsKey k2 = t.IsKey k2 ∧
        (t.DeleteKey k).2._MAP.find k2 = t._MAP.find k2) := by
  constructor
  · intro h
    unfold DeleteKey
    rcases h with h | ⟨l, h1, h2⟩
    · rw [IsKey_eq_isSome] at h
      cases hf : t._MAP.find k with
      | none => rfl
      | some v => rw [hf] at h; cases h
    · unfold EnumSubkeys at h1
      cases hf : t._MAP.find k with
      | none => rfl
      | some v =>
        rw [hf] at h1
        simp only [Option.some.injEq] at h1
        have : 0 < v.children.length := by
          rw [h1]; exact List.length_pos.mpr h2
        simp [this]
  · rintro ⟨_, h2⟩
    unfold EnumSubkeys at h2
    unfold DeleteKey
    cases hf : t._MAP.find k with
    | none => rw [hf] at h2; cases h2
    | some v =>
      rw [hf] at h2
      simp only [Option.some.injEq] at h2
      have hz : ¬ 0 < v.children.length := by rw [h2]; simp
      simp only [hz, if_false]
      refine ⟨trivial, ?_, fun k2 hk2 => ?_⟩
      · rw [IsKey_eq_isSome, umap.find_erase]
        simp
      · have hfind : (umap.erase t._MAP k).find k2 = t._MAP.find k2 := by
          rw [umap.find_erase, if_neg hk2]
        exact ⟨by rw [IsKey_eq_isSome, IsKey_eq_isSome, hfind], hfind⟩

/-- Witness for C13 on the tree of `cmdKTree`: `x` is not indexed, `r\m` has a child,
`r\m\l` has none. -/
theorem C13_delete_guard_witness :
    ktreeExample.DeleteKey [120] = (false, ktreeExample) ∧
    ktreeExample.DeleteKey [114, 92, 109] = (false, ktreeExample) ∧
    (ktreeExample.DeleteKey [114, 92, 109, 92, 108]).1 = true ∧
    (ktreeExample.DeleteKey [114, 92, 109, 92, 108]).2.IsKey [114, 92, 109, 92, 108] = false :=
  ⟨(C13_delete_guard ktreeExample [120]).1 (Or.inl (by decide)),
   (C13_delete_guard ktreeExample [114, 92, 109]).1 (Or.inr ⟨[[108]], by decide, by decide⟩),
   ((C13_delete_guard ktreeExample [114, 92, 109, 92, 108]).2 ⟨by decide, by decide⟩).1,
   ((C13_delete_guard ktreeExample [114, 92, 109, 92, 108]).2 ⟨by decide, by decide⟩).2.1⟩

end KeyTree

/-! ## C12: AddKey counts and is idempotent -/

namespace KeyTree

theorem chain_length (j : Nat) (s : _str_t) : (chain j s).length = j := by
  induction j generalizing s with
  | zero => rfl
  | succ j ih => simp [chain, ih]

theorem mem_chain (j : Nat) (s k : _str_t) : k ∈ chain j s ↔ New j s k := by
  induction j generalizing s with
  | zero => simp [chain, New]
  | succ j ih => simp [chain, New, ih]

theorem erase_last_length_le (s : _str_t) : (erase_last s).length ≤ s.length := by
  by_cases h : s = []
  · rw [h]; exact Nat.le_refl _
  · exact Nat.le_of_lt (erase_last_length s h)

theorem chain_length_le (j : Nat) (s k : _str_t) (h : k ∈ chain j s) :
    k.length ≤ s.length := by
  induction j generalizing s with
  | zero => simp [chain] at h
  | succ j ih =>
    simp only [chain, List.mem_cons] at h
    rcases h with h | h
    · rw [h]
    · exact Nat.le_trans (ih _ h) (erase_last_length_le s)

theorem chain_nodup (j : Nat) (s : _str_t) (m : umap _str_t _val_t) (h : AllNew j s m) :
    (chain j s).Nodup := by
  induction j generalizing s with
  | zero => exact List.nodup_nil
  | succ j ih =>
    simp only [chain, List.nodup_cons]
    refine ⟨fun hmem => ?_, ih _ h.2.2⟩
    have h1 := chain_length_le j _ s hmem
    have h2 := erase_last_length s h.1
    omega

theorem New_not_indexed (j : Nat) (s k : _str_t) (m : umap _str_t _val_t)
    (h : AllNew j s m) (hk : New j s k) : ¬ indexed m k := by
  induction j generalizing s with
  | zero => exact absurd hk (by simp [New])
  | succ j ih =>
    rcases hk with hk | hk
    · rw [hk]; exact h.2.1
    · exact ih _ h.2.2 hk

theorem EnumValues_of_indexed (t : KeyTree) (k : _str_t) (h : indexed t._MAP k) :
    t.EnumValues k = some (vals t._MAP k) := by
  unfold EnumValues vals
  unfold indexed at h
  cases hf : t._MAP.find k with
  | none => rw [hf] at h; cases h
  | some v => rfl

theorem EnumSubkeys_of_indexed (t : KeyTree) (k : _str_t) (h : indexed t._MAP k) :
    t.EnumSubkeys k = some (kids t._MAP k) := by
  unfold EnumSubkeys kids
  unfold indexed at h
  cases hf : t._MAP.find k with
  | none => rw [hf] at h; cases h
  | some v => rfl

/-- `AddKey` of a path that is empty or already indexed adds nothing and changes
nothing. -/
theorem AddKey_present (t : KeyTree) (p : _str_t) (h : p = [] ∨ indexed t._MAP p) :
    t.AddKey p = (0, t) := by
  have hc : ¬ (0 < p.length ∧ t._MAP.count p = 0) := by
    rintro ⟨h1, h2⟩
    rcases h with h | h
    · rw [h] at h1; cases h1
    · unfold umap.count at h2
      unfold indexed at h
      simp [h] at h2
  unfold AddKey
  rw [AddKey_loop1, if_neg hc]
  rfl

/-- C12: `AddKey(p)` returns exactly the number of key paths that are indexed afterwards
but were not indexed before (`added` lists them without repetition), which is 0 when `p`
was already indexed or is empty; every indexed key path stays indexed with the same
value set; and a second `AddKey(p)` returns 0 and leaves the tree unchanged. -/
theorem C12_addkey_counts_idempotent (t : KeyTree) (p : _str_t) :
    (∃ added : List _str_t, added.Nodup ∧ added.length = (t.AddKey p).1 ∧
      ∀ k, k ∈ added ↔ ((t.AddKey p).2.IsKey k = true ∧ t.IsKey k = false)) ∧
    ((t.IsKey p = true ∨ p = []) → (t.AddKey p).1 = 0) ∧
    (∀ k, t.IsKey k = true →
      (t.AddKey p).2.IsKey k = true ∧ (t.AddKey p).2.EnumValues k = t.EnumValues k) ∧
    (t.AddKey p).2.AddKey p = (0, (t.AddKey p).2) := by
  obtain ⟨m⟩ := t
  obtain ⟨j, h1, h2, h3, _, h5, _, h7⟩ := AddKey_spec m p
  refine ⟨⟨chain j p, chain_nodup j p m h5, by rw [chain_length, h1], fun k => ?_⟩, ?_, ?_, ?_⟩
  · rw [mem_chain, IsKey_iff, ← Bool.not_eq_true, IsKey_iff, h2 k]
    constructor
    · intro hk
      exact ⟨Or.inr hk, New_not_indexed j p k m h5 hk⟩
    · rintro ⟨hk | hk, hn⟩
      · exact absurd hk hn
      · exact hk
  · intro h
    rw [h1]
    cases j with
    | zero => rfl
    | succ j =>
      rcases h with h | h
      · exact absurd ((IsKey_iff _ _).mp h) h5.2.1
      · exact absurd h h5.1
  · intro k hk
    have hi : indexed m k := (IsKey_iff _ _).mp hk
    have hi' : indexed (AddKey ⟨m⟩ p).2._MAP k := (h2 k).mpr (Or.inl hi)
    refine ⟨(IsKey_iff _ _).mpr hi', ?_⟩
    rw [EnumValues_of_indexed _ k hi', EnumValues_of_indexed ⟨m⟩ k hi, h3 k]
  · apply AddKey_present
    rcases h7 with h | h | h
    · exact Or.inl h
    · exact Or.inr ((h2 p).mpr (Or.inl h))
    · exact Or.inr ((h2 p).mpr (Or.inr h))

end KeyTree

/-! ## C11: ancestor closure -/

namespace KeyTree

theorem Linked_nil : Linked [] := by
  intro c hc
  simp [indexed, umap.find] at hc

theorem Linked_AddKey (m : umap _str_t _val_t) (p : _str_t) (h : Linked m) :
    Linked (AddKey ⟨m⟩ p).2._MAP := by
  obtain ⟨j, _, h2, _, h4, h5, h6, _⟩ := AddKey_spec m p
  intro c hc hb
  rcases (h2 c).mp hc with hc1 | hc1
  · obtain ⟨g1, g2⟩ := h c hc1 hb
    exact ⟨(h2 _).mpr (Or.inl g1), (h4 _ _).mpr (Or.inl g2)⟩
  · refine ⟨?_, (h4 _ _).mpr (Or.inr (New_Link j p c m h5 hc1 hb))⟩
    rcases New_parent j p c _ (fun x hx => (h2 x).mpr (Or.inr hx)) h6 hc1 with g | g
    · exact absurd g hb
    · exact g

theorem Linked_AddValue (m : umap _str_t _val_t) (p n : _str_t) (h : Linked m) :
    Linked (AddValue ⟨m⟩ p n).2._MAP := by
  obtain ⟨j, h2, h4, _, h5, h6, _⟩ := AddValue_spec m p n
  intro c hc hb
  rcases (h2 c).mp hc with hc1 | hc1 | hc1
  · obtain ⟨g1, g2⟩ := h c hc1 hb
    exact ⟨(h2 _).mpr (Or.inl g1), (h4 _ _).mpr (Or.inl g2)⟩
  · refine ⟨?_, (h4 _ _).mpr (Or.inr (New_Link j p c m h5 hc1 hb))⟩
    rcases New_parent j p c _ (fun x hx => (h2 x).mpr (Or.inr (Or.inl hx))) h6 hc1 with g | g
    · exact absurd g hb
    · exact g
  · rw [hc1.1, erase_last_nil] at hb
    exact absurd rfl hb

theorem Linked_DeleteKey (t : KeyTree) (k : _str_t) (h : Linked t._MAP) :
    Linked (t.DeleteKey k).2._MAP := by
  unfold DeleteKey
  cases hf : t._MAP.find k with
  | none => exact h
  | some v =>
    simp only
    split
    · exact h
    · rename_i hz
      have hkids : kids t._MAP k = [] := by
        unfold kids
        rw [hf]
        exact List.length_eq_zero.mp (Nat.le_zero.mp (Nat.le_of_not_lt hz))
      intro c hc hb
      unfold indexed at hc
      rw [umap.find_erase] at hc
      by_cases hck : c = k
      · simp [hck] at hc
      · rw [if_neg hck] at hc
        obtain ⟨g1, g2⟩ := h c hc hb
        have hpk : erase_last c ≠ k := by
          intro he
          rw [he, hkids] at g2
          cases g2
        constructor
        · unfold indexed
          rw [umap.find_erase, if_neg hpk]
          exact g1
        · unfold kids
          rw [umap.find_erase, if_neg hpk]
          exact g2

theorem Linked_of_Reachable (t : KeyTree) (h : t.Reachable) : Linked t._MAP := by
  induction h with
  | empty => exact Linked_nil
  | addKey t p _ ih => exact Linked_AddKey t._MAP p ih
  | addValue t p n _ ih => exact Linked_AddValue t._MAP p n ih
  | deleteKey t k _ ih => exact Linked_DeleteKey t k ih
  | clear t _ _ => exact Linked_nil

theorem foldl_BuildPath_ne_nil (rest : List _str_t) (s : _str_t) (h : s ≠ []) :
    rest.foldl BuildPath s ≠ [] := by
  induction rest generalizing s with
  | nil => exact h
  | cons x xs ih =>
    exact ih _ (by simp [BuildPath, _buildpath])

theorem joinPath_take_succ (segs : List _str_t) (i : Nat) (h1 : 1 ≤ i)
    (hi : i < segs.length) :
    joinPath (segs.take (i + 1)) = BuildPath (joinPath (segs.take i)) (segs.get ⟨i, hi⟩) := by
  cases segs with
  | nil => simp at hi
  | cons s rest =>
    obtain ⟨i', rfl⟩ : ∃ i', i = i' + 1 := ⟨i - 1, by omega⟩
    have hi' : i' < rest.length := by simpa using hi
    simp only [List.take_succ_cons, joinPath, List.get_cons_succ]
    rw [List.take_succ, List.foldl_append]
    simp [List.getElem?_eq_getElem hi']

/-- After `AddKey` on a linked map every prefix of the path is indexed and lists the
next segment among its children. -/
theorem prefix_indexed (m : umap _str_t _val_t) (segs : List _str_t) (hl : Linked m)
    (hseg : ∀ s ∈ segs, s ≠ [] ∧ _del ∉ s) (hp : indexed m (joinPath segs)) (d : Nat) :
    ∀ i, 1 ≤ i → i + d = segs.length →
      indexed m (joinPath (segs.take i)) ∧
      ∀ (hi : i < segs.length), segs.get ⟨i, hi⟩ ∈ kids m (joinPath (segs.take i)) := by
  induction d with
  | zero =>
    intro i _ hid
    have : i = segs.length := by omega
    subst this
    rw [List.take_length]
    exact ⟨hp, fun hi => absurd hi (Nat.lt_irrefl _)⟩
  | succ d ih =>
    intro i h1 hid
    have hi : i < segs.length := by omega
    obtain ⟨g1, _⟩ := ih (i + 1) (by omega) (by omega)
    have hnd : _del ∉ segs.get ⟨i, hi⟩ := (hseg _ (List.get_mem _ _ _)).2
    have hpre : joinPath (segs.take i) ≠ [] := by
      cases segs with
      | nil => simp at hi
      | cons s rest =>
        obtain ⟨i', rfl⟩ : ∃ i', i = i' + 1 := ⟨i - 1, by omega⟩
        simp only [List.take_succ_cons, joinPath]
        exact foldl_BuildPath_ne_nil _ s (hseg s (List.mem_cons_self _ _)).1
    rw [joinPath_take_succ segs i h1 hi] at g1
    have hb := erase_last_buildpath (joinPath (segs.take i)) (segs.get ⟨i, hi⟩) hnd
    have hlf := splitpath_buildpath (joinPath (segs.take i)) (segs.get ⟨i, hi⟩) hnd
    obtain ⟨k1, k2⟩ := hl _ g1 (by rw [hb]; exact hpre)
    rw [hb] at k1 k2
    rw [hlf] at k2
    exact ⟨k1, fun _ => k2⟩

/-- C11: for every tree `t` (in a state its operations can reach) and every key path
`p = s1\...\sn` of `n >= 1` non-empty segments without delimiter, after `AddKey(p)` every
prefix `s1\...\si` is indexed and, for `i < n`, lists `s(i+1)` among its children.  On an
empty tree `AddKey("root\middle\leaf")` then `AddValue("root", "rval")` gives
`EnumSubkeys("root") = {"middle"}` and `EnumValues("root") = {"rval"}`. -/
theorem C11_ancestor_closure (t : KeyTree) (segs : List _str_t) (ht : t.Reachable)
    (hne : segs ≠ []) (hseg : ∀ s ∈ segs, s ≠ [] ∧ _del ∉ s) :
    (∀ i, 1 ≤ i → i ≤ segs.length →
      (t.AddKey (joinPath segs)).2.IsKey (joinPath (segs.take i)) = true) ∧
    (∀ i (hi : i < segs.length), 1 ≤ i →
      ∃ l, (t.AddKey (joinPath segs)).2.EnumSubkeys (joinPath (segs.take i)) = some l ∧
        segs.get ⟨i, hi⟩ ∈ l) ∧
    ((empty.AddKey [114, 111, 111, 116, 92, 109, 105, 100, 100, 108, 101, 92,
        108, 101, 97, 102]).2.AddValue [114, 111, 111, 116] [114, 118, 97, 108]).2.EnumSubkeys
      [114, 111, 111, 116] = some [[109, 105, 100, 100, 108, 101]] ∧
    ((empty.AddKey [114, 111, 111, 116, 92, 109, 105, 100, 100, 108, 101, 92,
        108, 101, 97, 102]).2.AddValue [114, 111, 111, 116] [114, 118, 97, 108]).2.EnumValues
      [114, 111, 111, 116] = some [[114, 118, 97, 108]] := by
  have hl : Linked (t.AddKey (joinPath segs)).2._MAP :=
    Linked_AddKey t._MAP _ (Linked_of_Reachable t ht)
  have hpne : joinPath segs ≠ [] := by
    cases segs with
    | nil => exact absurd rfl hne
    | cons s rest => exact foldl_BuildPath_ne_nil _ s (hseg s (List.mem_cons_self _ _)).1
  have hp : indexed (t.AddKey (joinPath segs)).2._MAP (joinPath segs) := by
    obtain ⟨j, _, h2, _, _, _, _, h7⟩ := AddKey_spec t._MAP (joinPath segs)
    rcases h7 with h | h | h
    · exact absurd h hpne
    · exact (h2 _).mpr (Or.inl h)
    · exact (h2 _).mpr (Or.inr h)
  refine ⟨fun i h1 hi => ?_, fun i hi h1 => ?_, by decide, by decide⟩
  · exact (IsKey_iff _ _).mpr
      (prefix_indexed _ segs hl hseg hp (segs.length - i) i h1 (by omega)).1
  · obtain ⟨g1, g2⟩ := prefix_indexed _ segs hl hseg hp (segs.length - i) i h1 (by omega)
    exact ⟨_, EnumSubkeys_of_indexed _ _ g1, g2 hi⟩

/-- Witness for C11: `AddKey("r\m\l")` on the tree of `cmdKTree` after `r\m\l` was
deleted from it. -/
theorem C11_ancestor_closure_witness :
    (∀ i, 1 ≤ i → i ≤ ([[114], [109], [108]] : List _str_t).length →
      ((ktreeExample.DeleteKey [114, 92, 109, 92, 108]).2.AddKey
        (joinPath [[114], [109], [108]])).2.IsKey
          (joinPath (([[114], [109], [108]] : List _str_t).take i)) = true) ∧
    (∀ i (hi : i < ([[114], [109], [108]] : List _str_t).length), 1 ≤ i →
      ∃ l, ((ktreeExample.DeleteKey [114, 92, 109, 92, 108]).2.AddKey
        (joinPath [[114], [109], [108]])).2.EnumSubkeys
          (joinPath (([[114], [109], [108]] : List _str_t).take i)) = some l ∧
        ([[114], [109], [108]] : List _str_t).get ⟨i, hi⟩ ∈ l) ∧
    ((empty.AddKey [114, 111, 111, 116, 92, 109, 105, 100, 100, 108, 101, 92,
        108, 101, 97, 102]).2.AddValue [114, 111, 111, 116] [114, 118, 97, 108]).2.EnumSubkeys
      [114, 111, 111, 116] = some [[109, 105, 100, 100, 108, 101]] ∧
    ((empty.AddKey [114, 111, 111, 116, 92, 109, 105, 100, 100, 108, 101, 92,
        108, 101, 97, 102]).2.AddValue [114, 111, 111, 116] [114, 118, 97, 108]).2.EnumValues
      [114, 111, 111, 116] = some [[114, 118, 97, 108]] :=
  C11_ancestor_closure _ [[114], [109], [108]]
    (Reachable.deleteKey _ _ (Reachable.addValue _ _ _ (Reachable.addKey _ _ Reachable.empty)))
    (by decide) (by decide)

end KeyTree

/-! ## C17: handle addressing and round trip -/

namespace ValStore

theorem _getVal_SetVal (S : ValStore) (n : _str_t) (k : Nat) (b : List BYTE) :
    (S.SetVal n k b)._getVal n = some (k, b, b.length) := by
  have hdata : (if 0 < b.length then b else []) = b := by
    cases b <;> simp
  simp only [SetVal, _setVal, _getVal, umap.find_assign_same, hdata]

theorem GetVal_SetVal (S : ValStore) (n : _str_t) (k : Nat) (b : List BYTE) :
    (S.SetVal n k b).GetVal n = (true, b.take (toUINT b.length)) := by
  unfold GetVal
  rw [_getVal_SetVal]

end ValStore

namespace World

/-- What `_setVal` through an open handle does to the world. -/
theorem setVal_open (w : World) (h a : Nat) (d : __vkdata) (n : _str_t) (t : Nat)
    (b : List BYTE) (hd : (w.keys h)._d = some a) (hh : w.heap a = some d) :
    _valKey._setVal w h n t b = some (true,
      (w.setData a (some { d with
          KT := (d.KT.AddValue (w.keys h)._key n).2,
          VS := d.VS.SetVal ((w.keys h)._rel n) (toUINT t) b })).setKey h
        { w.keys h with _lasterr := 0 }) := by
  simp only [_valKey._setVal, hd, hh]

/-- After `_setVal` through an open handle, `_getVal` and `_valLength` through the same
handle read the stored bytes as far as a `UINT` size reaches. -/
theorem getVal_after_setVal (w w' : World) (h a : Nat) (d : __vkdata) (n : _str_t)
    (t : Nat) (b : List BYTE) (hd : (w.keys h)._d = some a) (hh : w.heap a = some d)
    (hs : _valKey._setVal w h n t b = some (true, w')) :
    _valKey._getVal w' h n =
      some (true, b.take (toUINT b.length), (b.take (toUINT b.length)).length) ∧
    _valKey._valLength w' h n = some (toInt (b.take (toUINT b.length)).length) := by
  rw [setVal_open w h a d n t b hd hh] at hs
  simp only [Option.some.injEq, Prod.mk.injEq, true_and] at hs
  have hdat : w'.data h = some { d with
      KT := (d.KT.AddValue (w.keys h)._key n).2,
      VS := d.VS.SetVal ((w.keys h)._rel n) (toUINT t) b } := by
    rw [← hs]
    simp [data, setKey, setData, hd]
  have hrel : (w'.keys h)._rel n = (w.keys h)._rel n := by
    rw [← hs]
    simp [setKey, _valKey._rel]
  have hg : _valKey._getVal w' h n =
      some (true, b.take (toUINT b.length), (b.take (toUINT b.length)).length) := by
    simp only [_valKey._getVal, hdat, hrel, ValStore.GetVal_SetVal]
    simp
  refine ⟨hg, ?_⟩
  simp only [_valKey._valLength, hg, Option.map_some', if_true]

/-- The length reported for a value of 2^31 bytes set through the handle of `sample`. -/
theorem length_wraps (data : List BYTE) (hlen : data.length = 2147483648) :
    ((_valKey._setVal sample 0 [118] 3 data).bind
      (fun r => _valKey._valLength r.2 0 [118])) = some (-2147483648) := by
  have hs := setVal_open sample 0 0 ⟨ValStore.empty, KeyTree.empty, [104], 1⟩ [118] 3 data
    rfl rfl
  have hg := (getVal_after_setVal sample _ 0 0 _ [118] 3 data rfl rfl hs).2
  have htake : data.take (toUINT data.length) = data := by
    apply List.take_of_length_le
    rw [hlen]
    decide
  rw [hs, Option.some_bind, hg, htake, hlen]
  rfl

/-- C17 (refuted as stated): a value of 2^31 bytes is set under `v` through an open
handle; `Length("v")` then returns -2147483648, not the byte count. -/
theorem C17_length_wraps :
    ((_valKey._setVal sample 0 [118] 3 (List.replicate 2147483648 0)).bind
      (fun r => _valKey._valLength r.2 0 [118])) = some (-2147483648) :=
  length_wraps (List.replicate 2147483648 0) (List.length_replicate _ _)

/-- C17 (amended): for every open handle `h` with key path `K`, every value name `n` and
every value `b` shorter than 2^31 bytes, `SetVal(n, b)` through `h` succeeds, makes the
shared store map `BuildPath(K, n)` to the tag and to `b`, records `n` in the tree's value
set of `K`, and a following `GetVal(n)` through `h` returns exactly `b` and `Length(n)`
returns the byte count of `b`. -/
theorem C17_handle_round_trip (w : World) (h a : Nat) (d : __vkdata) (n : _str_t) (t : Nat)
    (b : List BYTE) (hd : (w.keys h)._d = some a) (hh : w.heap a = some d)
    (hb : b.length < 2147483648) :
    ∃ w' d', _valKey._setVal w h n t b = some (true, w') ∧ w'.data h = some d' ∧
      d'.VS._getVal (KeyTree.BuildPath (w.keys h)._key n) = some (toUINT t, b, b.length) ∧
      (∃ l, d'.KT.EnumValues (w.keys h)._key = some l ∧ n ∈ l) ∧
      _valKey._getVal w' h n = some (true, b, b.length) ∧
      _valKey._valLength w' h n = some (b.length : Int) := by
  have hs := setVal_open w h a d n t b hd hh
  obtain ⟨g1, g2⟩ := getVal_after_setVal w _ h a d n t b hd hh hs
  have hU : toUINT b.length = b.length := by unfold toUINT; omega
  have hI : toInt b.length = (b.length : Int) := by
    unfold toInt
    have : b.length % 4294967296 = b.length := by omega
    rw [this, if_pos hb]
  rw [hU, List.take_length] at g1 g2
  rw [hI] at g2
  obtain ⟨j, _, _, a3, _, _, a6⟩ := KeyTree.AddValue_spec d.KT._MAP (w.keys h)._key n
  refine ⟨_, { d with
      KT := (d.KT.AddValue (w.keys h)._key n).2,
      VS := d.VS.SetVal ((w.keys h)._rel n) (toUINT t) b }, hs, ?_, ?_, ?_, g1, g2⟩
  · simp [data, setKey, setData, hd]
  · exact ValStore._getVal_SetVal _ _ _ _
  · refine ⟨_, KeyTree.EnumValues_of_indexed _ _ a6, ?_⟩
    exact (a3 _ _).mpr (Or.inr ⟨rfl, rfl⟩)

/-- Witness for C17: a `DWORD` set under `v` through the handle of `sample`. -/
theorem C17_handle_round_trip_witness :
    ∃ w' d', _valKey._setVal sample 0 [118] 4 [1, 0, 0, 0] = some (true, w') ∧
      w'.data 0 = some d' ∧
      d'.VS._getVal (KeyTree.BuildPath (sample.keys 0)._key [118]) =
        some (toUINT 4, [1, 0, 0, 0], ([1, 0, 0, 0] : List BYTE).length) ∧
      (∃ l, d'.KT.EnumValues (sample.keys 0)._key = some l ∧ [118] ∈ l) ∧
      _valKey._getVal w' 0 [118] = some (true, [1, 0, 0, 0], ([1, 0, 0, 0] : List BYTE).length) ∧
      _valKey._valLength w' 0 [118] = some ((([1, 0, 0, 0] : List BYTE).length : Nat) : Int) :=
  C17_handle_round_trip sample 0 0 ⟨ValStore.empty, KeyTree.empty, [104], 1⟩ [118] 4
    [1, 0, 0, 0] rfl rfl (by decide)

end World

/-! ## C18: subkey handles share the parent's hive -/

namespace KeyTree

theorem BuildPath_assoc (k s n : _str_t) :
    BuildPath (BuildPath k s) n = BuildPath k (BuildPath s n) := by
  simp [BuildPath, _buildpath, List.append_assoc]

end KeyTree

namespace World

/-- Two handles on the same `__vkdata` whose full names agree read the same. -/
theorem getVal_congr (w : World) (h g : Nat) (x y : _str_t) (hd : w.data h = w.data g)
    (hn : (w.keys h)._rel x = (w.keys g)._rel y) :
    _valKey._getVal w h x = _valKey._getVal w g y := by
  simp only [_valKey._getVal, hd, hn]

/-- What `_open(vkey, keyPath, bWrite)` does on a handle that is not open. -/
theorem open_key_null (w : World) (r r2 a : Nat) (d : __vkdata) (s : _str_t)
    (bWrite : Bool) (hr : (w.keys r)._d = some a) (hh : w.heap a = some d)
    (h2 : (w.keys r2)._d = none) :
    _valKey._open_key w r2 r s bWrite = some
      ((w.setData a (some { d with refCount := d.refCount + 1 })).setKey r2
        { w.keys r2 with _d := some a, _key := (w.keys r)._rel s, _write := bWrite }) := by
  simp only [_valKey._open_key, _valKey._close, h2, hr, hh]

/-- Two handles on the same cell: a value set through `g` under `y` is read through `h`
under `x` when the two full names agree. -/
theorem getVal_other_handle (w : World) (h g a : Nat) (d : __vkdata) (x y : _str_t)
    (t : Nat) (b : List BYTE) (hh : (w.keys h)._d = some a) (hg : (w.keys g)._d = some a)
    (hd : w.heap a = some d) (hn : (w.keys h)._rel x = (w.keys g)._rel y) :
    ∃ w2, _valKey._setVal w g y t b = some (true, w2) ∧
      _valKey._getVal w2 g y =
        some (true, b.take (toUINT b.length), (b.take (toUINT b.length)).length) ∧
      _valKey._getVal w2 h x =
        some (true, b.take (toUINT b.length), (b.take (toUINT b.length)).length) := by
  have hs := setVal_open w g a d y t b hg hd
  obtain ⟨g1, _⟩ := getVal_after_setVal w _ g a d y t b hg hd hs
  refine ⟨_, hs, g1, ?_⟩
  rw [← g1]
  apply getVal_congr
  · by_cases e : h = g
    · rw [e]
    · simp [data, setKey, setData, e, hh, hg]
  · by_cases e : h = g
    · subst e
      simpa [setKey, _valKey._rel] using hn
    · simpa [setKey, setData, _valKey._rel, e] using hn

/-- C18: for every open handle `r` with key path `K` and every subkey name `s`, a handle
`r2` that is not yet open and is opened from `r` with name `s` gets the key path
`BuildPath(K, s)` and the same hive as `r`, whose `refCount` is one more than before;
`r` itself is unchanged.  After that, a value set through `r2` under `n` is read through
`r` under `BuildPath(s, n)`, and a value set through `r` under `BuildPath(s, n)` is read
through `r2` under `n`: in both cases the read succeeds and returns the same bytes
through either handle, which are the written bytes when these are shorter than 2^32. -/
theorem C18_subkey_handle_shares_hive (w : World) (r r2 a : Nat) (d : __vkdata)
    (s : _str_t) (bWrite : Bool) (hr : (w.keys r)._d = some a) (hh : w.heap a = some d)
    (h2 : (w.keys r2)._d = none) :
    ∃ w1, _valKey._open_key w r2 r s bWrite = some w1 ∧
      (w1.keys r2)._key = KeyTree.BuildPath (w.keys r)._key s ∧
      (w1.keys r2)._d = (w1.keys r)._d ∧ w1.keys r = w.keys r ∧
      w1.heap a = some { d with refCount := d.refCount + 1 } ∧
      (∀ n t b, ∃ w2 out, _valKey._setVal w1 r2 n t b = some (true, w2) ∧
        _valKey._getVal w2 r (KeyTree.BuildPath s n) = some (true, out, out.length) ∧
        _valKey._getVal w2 r2 n = some (true, out, out.length) ∧
        (b.length < 4294967296 → out = b)) ∧
      (∀ n t b, ∃ w2 out,
        _valKey._setVal w1 r (KeyTree.BuildPath s n) t b = some (true, w2) ∧
        _valKey._getVal w2 r2 n = some (true, out, out.length) ∧
        _valKey._getVal w2 r (KeyTree.BuildPath s n) = some (true, out, out.length) ∧
        (b.length < 4294967296 → out = b)) := by
  have hne : r ≠ r2 := by
    intro e
    rw [e, h2] at hr
    cases hr
  have ho := open_key_null w r r2 a d s bWrite hr hh h2
  have k2 : (((w.setData a (some { d with refCount := d.refCount + 1 })).setKey r2
      { w.keys r2 with _d := some a, _key := (w.keys r)._rel s, _write := bWrite }).keys
      r2)._d = some a := by
    simp [setKey]
  have k1 : ((w.setData a (some { d with refCount := d.refCount + 1 })).setKey r2
      { w.keys r2 with _d := some a, _key := (w.keys r)._rel s, _write := bWrite }).keys
      r = w.keys r := by
    simp [setKey, setData, hne]
  have hp : ((w.setData a (some { d with refCount := d.refCount + 1 })).setKey r2
      { w.keys r2 with _d := some a, _key := (w.keys r)._rel s, _write := bWrite }).heap
      a = some { d with refCount := d.refCount + 1 } := by
    simp [setKey, setData]
  have kk : (((w.setData a (some { d with refCount := d.refCount + 1 })).setKey r2
      { w.keys r2 with _d := some a, _key := (w.keys r)._rel s, _write := bWrite }).keys
      r2)._key = KeyTree.BuildPath (w.keys r)._key s := by
    simp [setKey, _valKey._rel]
  have hk1 : (((w.setData a (some { d with refCount := d.refCount + 1 })).setKey r2
      { w.keys r2 with _d := some a, _key := (w.keys r)._rel s, _write := bWrite }).keys
      r)._d = some a := by
    rw [k1, hr]
  have hn : ∀ n, (((w.setData a (some { d with refCount := d.refCount + 1 })).setKey r2
      { w.keys r2 with _d := some a, _key := (w.keys r)._rel s, _write := bWrite }).keys
      r)._rel (KeyTree.BuildPath s n) =
      (((w.setData a (some { d with refCount := d.refCount + 1 })).setKey r2
      { w.keys r2 with _d := some a, _key := (w.keys r)._rel s, _write := bWrite }).keys
      r2)._rel n := by
    intro n
    have e2 : ∀ k : _valKey, k._key = KeyTree.BuildPath (w.keys r)._key s →
        k._rel n = (w.keys r)._rel (KeyTree.BuildPath s n) := by
      intro k hk
      unfold _valKey._rel
      rw [hk, KeyTree.BuildPath_assoc]
    rw [k1, e2 _ kk]
  have htake : ∀ b : List BYTE, b.length < 4294967296 → b.take (toUINT b.length) = b := by
    intro b hb
    have hU : toUINT b.length = b.length := by unfold toUINT; omega
    rw [hU, List.take_length]
  refine ⟨_, ho, kk, ?_, k1, hp, ?_, ?_⟩
  · rw [k2, hk1]
  · intro n t b
    obtain ⟨w2, e1, e2, e3⟩ := getVal_other_handle _ r r2 a _ (KeyTree.BuildPath s n) n t b
      hk1 k2 hp (hn n)
    exact ⟨w2, _, e1, e3, e2, htake b⟩
  · intro n t b
    obtain ⟨w2, e1, e2, e3⟩ := getVal_other_handle _ r2 r a _ n (KeyTree.BuildPath s n) t b
      k2 hk1 hp (hn n).symm
    exact ⟨w2, _, e1, e3, e2, htake b⟩

/-- Witness for C18: a second handle opened from the handle of `sample` with name `s`. -/
theorem C18_subkey_handle_shares_hive_witness :
    ∃ w1, _valKey._open_key sample 1 0 [115] true = some w1 ∧
      (w1.keys 1)._key = KeyTree.BuildPath (sample.keys 0)._key [115] ∧
      (w1.keys 1)._d = (w1.keys 0)._d ∧ w1.keys 0 = sample.keys 0 ∧
      w1.heap 0 = some { (⟨ValStore.empty, KeyTree.empty, [104], 1⟩ : __vkdata) with
        refCount := (1 : Int) + 1 } ∧
      (∀ n t b, ∃ w2 out, _valKey._setVal w1 1 n t b = some (true, w2) ∧
        _valKey._getVal w2 0 (KeyTree.BuildPath [115] n) = some (true, out, out.length) ∧
        _valKey._getVal w2 1 n = some (true, out, out.length) ∧
        (b.length < 4294967296 → out = b)) ∧
      (∀ n t b, ∃ w2 out,
        _valKey._setVal w1 0 (KeyTree.BuildPath [115] n) t b = some (true, w2) ∧
        _valKey._getVal w2 1 n = some (true, out, out.length) ∧
        _valKey._getVal w2 0 (KeyTree.BuildPath [115] n) = some (true, out, out.length) ∧
        (b.length < 4294967296 → out = b)) :=
  C18_subkey_handle_shares_hive sample 0 1 0 ⟨ValStore.empty, KeyTree.empty, [104], 1⟩
    [115] true rfl rfl rfl

end World

/-! ## C19, C20: DelSubKey -/

namespace ValStore

theorem find_DeleteVal (S : ValStore) (name f : _str_t) :
    (S.DeleteVal name).2._MAP.find f = if f = name then none else S._MAP.find f := by
  unfold DeleteVal IsValue _getVal
  cases hf : S._MAP.find name with
  | none =>
    by_cases e : f = name
    · subst e
      simp [hf]
    · simp [e]
  | some v => simp [umap.find_erase]

/-- The store after the values `BuildPath(S, v)` for `v` in `vs` are deleted in turn. -/
theorem find_foldl_DeleteVal (subkey : _str_t) (vs : List _str_t) (S : ValStore)
    (f : _str_t) :
    (vs.foldl (fun st v => (st.DeleteVal (KeyTree.BuildPath subkey v)).2) S)._MAP.find f =
      if ∃ v ∈ vs, f = KeyTree.BuildPath subkey v then none else S._MAP.find f := by
  induction vs generalizing S with
  | nil => simp
  | cons v rest ih =>
    rw [List.foldl_cons, ih, find_DeleteVal]
    by_cases h1 : ∃ x ∈ rest, f = KeyTree.BuildPath subkey x
    · have h2 : ∃ x ∈ v :: rest, f = KeyTree.BuildPath subkey x := by
        obtain ⟨x, hx, e⟩ := h1
        exact ⟨x, List.mem_cons_of_mem _ hx, e⟩
      rw [if_pos h1, if_pos h2]
    · rw [if_neg h1]
      by_cases h3 : f = KeyTree.BuildPath subkey v
      · have h2 : ∃ x ∈ v :: rest, f = KeyTree.BuildPath subkey x :=
          ⟨v, List.mem_cons_self _ _, h3⟩
        rw [if_pos h3, if_pos h2]
      · have h2 : ¬ ∃ x ∈ v :: rest, f = KeyTree.BuildPath subkey x := by
          rintro ⟨x, hx, e⟩
          rcases List.mem_cons.mp hx with rfl | hx
          · exact h3 e
          · exact h1 ⟨x, hx, e⟩
        rw [if_neg h3, if_neg h2]

end ValStore

namespace World

/-- C19: for every open handle `h` and name `s`, if the key `BuildPath(key path of h, s)`
is not indexed, or is indexed with at least one child, `DelSubKey(s)` returns false and
the world is as before the call: the hive of `h` with its `ValStore` and `KeyTree`, every
other hive, every handle and the file system. -/
theorem C19_delsubkey_failure_atomic (w : World) (h a : Nat) (d : __vkdata) (s : _str_t)
    (hd : (w.keys h)._d = some a) (hh : w.heap a = some d)
    (hfail : d.KT.IsKey (KeyTree.BuildPath (w.keys h)._key s) = false ∨
      ∃ l, d.KT.EnumSubkeys (KeyTree.BuildPath (w.keys h)._key s) = some l ∧ l ≠ []) :
    ∃ w', _valKey._delSubKey w h s = some (false, w') ∧ w'.data h = some d ∧
      (∀ b, w'.heap b = w.heap b) ∧ w'.keys = w.keys ∧ w'.fs = w.fs ∧
      w'.next = w.next := by
  rcases hfail with hk | ⟨l, hl, hne⟩
  · have hE : d.KT.EnumValues (KeyTree.BuildPath (w.keys h)._key s) = none := by
      have := KeyTree.EnumValues_isSome d.KT (KeyTree.BuildPath (w.keys h)._key s)
      rw [hk] at this
      cases hv : d.KT.EnumValues (KeyTree.BuildPath (w.keys h)._key s) with
      | none => rfl
      | some x => rw [hv] at this; cases this
    refine ⟨w, ?_, ?_, fun _ => rfl, rfl, rfl, rfl⟩
    · simp only [_valKey._delSubKey, hd, hh, _valKey._rel, hE]
    · simp only [data, hd, hh]
  · cases hf : d.KT._MAP.find (KeyTree.BuildPath (w.keys h)._key s) with
    | none =>
      simp only [KeyTree.EnumSubkeys, hf] at hl
      cases hl
    | some v =>
      simp only [KeyTree.EnumSubkeys, hf, Option.some.injEq] at hl
      have hpos : 0 < v.children.length := by
        rw [hl]
        exact List.length_pos.mpr hne
      have hD : d.KT.DeleteKey (KeyTree.BuildPath (w.keys h)._key s) = (false, d.KT) := by
        simp only [KeyTree.DeleteKey, hf, if_pos hpos]
      have hE : d.KT.EnumValues (KeyTree.BuildPath (w.keys h)._key s) = some v.values := by
        simp only [KeyTree.EnumValues, hf]
      refine ⟨w.setData a (some { d with KT := d.KT }), ?_, ?_, ?_, rfl, rfl, rfl⟩
      · simp only [_valKey._delSubKey, hd, hh, _valKey._rel, hE, hD, if_true]
      · simp [data, setData, hd]
      · intro b
        by_cases e : b = a
        · subst e
          simp [setData, hh]
        · simp [setData, e]

/-- Witness for C19 on `sample2`: the key `k\x` is not indexed. -/
theorem C19_delsubkey_failure_atomic_witness :
    ∃ w', _valKey._delSubKey sample2 0 [120] = some (false, w') ∧
      w'.data 0 = some ⟨sample2Store, sample2Store.BuildKeyTree KeyTree.empty, [104], 1⟩ ∧
      (∀ b, w'.heap b = sample2.heap b) ∧ w'.keys = sample2.keys ∧ w'.fs = sample2.fs ∧
      w'.next = sample2.next :=
  C19_delsubkey_failure_atomic sample2 0 0
    ⟨sample2Store, sample2Store.BuildKeyTree KeyTree.empty, [104], 1⟩ [120] rfl rfl
    (Or.inl (by decide))

/-- C20: for every open handle `h` and name `s` such that `DelSubKey(s)` returns true,
with `S = BuildPath(key path of h, s)`: every value name `v` the tree listed under `S`
before the call has no entry `BuildPath(S, v)` in the store afterwards, `S` is no longer
an indexed key, and every store entry whose full name is not `BuildPath(S, v)` for such a
`v` is unchanged. -/
theorem C20_delsubkey_success_frame (w : World) (h a : Nat) (d : __vkdata) (s : _str_t)
    (hd : (w.keys h)._d = some a) (hh : w.heap a = some d)
    (hok : (_valKey._delSubKey w h s).map Prod.fst = some true) :
    ∃ vs w' d', d.KT.EnumValues (KeyTree.BuildPath (w.keys h)._key s) = some vs ∧
      _valKey._delSubKey w h s = some (true, w') ∧ w'.data h = some d' ∧
      (∀ v ∈ vs, d'.VS.IsValue
        (KeyTree.BuildPath (KeyTree.BuildPath (w.keys h)._key s) v) = false) ∧
      d'.KT.IsKey (KeyTree.BuildPath (w.keys h)._key s) = false ∧
      (∀ f, (∀ v ∈ vs, f ≠ KeyTree.BuildPath (KeyTree.BuildPath (w.keys h)._key s) v) →
        d'.VS._MAP.find f = d.VS._MAP.find f) := by
  cases hE : d.KT.EnumValues (KeyTree.BuildPath (w.keys h)._key s) with
  | none =>
    simp [_valKey._delSubKey, hd, hh, _valKey._rel, hE] at hok
  | some vs =>
    cases hf : d.KT._MAP.find (KeyTree.BuildPath (w.keys h)._key s) with
    | none =>
      simp only [KeyTree.EnumValues, hf] at hE
      cases hE
    | some v =>
      by_cases hpos : 0 < v.children.length
      · have hD : d.KT.DeleteKey (KeyTree.BuildPath (w.keys h)._key s) = (false, d.KT) := by
          simp only [KeyTree.DeleteKey, hf, if_pos hpos]
        simp [_valKey._delSubKey, hd, hh, _valKey._rel, hE, hD] at hok
      · have hD : d.KT.DeleteKey (KeyTree.BuildPath (w.keys h)._key s) =
            (true, ⟨d.KT._MAP.erase (KeyTree.BuildPath (w.keys h)._key s)⟩) := by
          simp only [KeyTree.DeleteKey, hf, if_neg hpos]
        refine ⟨vs, w.setData a (some { d with
            KT := ⟨d.KT._MAP.erase (KeyTree.BuildPath (w.keys h)._key s)⟩,
            VS := vs.foldl (fun st x => (st.DeleteVal
              (KeyTree.BuildPath (KeyTree.BuildPath (w.keys h)._key s) x)).2) d.VS }),
          { d with
            KT := ⟨d.KT._MAP.erase (KeyTree.BuildPath (w.keys h)._key s)⟩,
            VS := vs.foldl (fun st x => (st.DeleteVal
              (KeyTree.BuildPath (KeyTree.BuildPath (w.keys h)._key s) x)).2) d.VS },
          rfl, ?_, ?_, ?_, ?_, ?_⟩
        · simp [_valKey._delSubKey, hd, hh, _valKey._rel, hE, hD]
        · simp [data, setData, hd]
        · intro x hx
          unfold ValStore.IsValue ValStore._getVal
          rw [ValStore.find_foldl_DeleteVal, if_pos ⟨x, hx, rfl⟩]
          rfl
        · rw [KeyTree.IsKey_eq_isSome]
          simp [umap.find_erase]
        · intro f hfne
          rw [ValStore.find_foldl_DeleteVal, if_neg]
          rintro ⟨x, hx, e⟩
          exact hfne x hx e

/-- Witness for C20 on `sample2`: `DelSubKey` of `s\t`, a key with one value and no
children. -/
theorem C20_delsubkey_success_frame_witness :
    ∃ vs w' d', (sample2Store.BuildKeyTree KeyTree.empty).EnumValues
        (KeyTree.BuildPath (sample2.keys 0)._key [115, 92, 116]) = some vs ∧
      _valKey._delSubKey sample2 0 [115, 92, 116] = some (true, w') ∧
      w'.data 0 = some d' ∧
      (∀ v ∈ vs, d'.VS.IsValue
        (KeyTree.BuildPath (KeyTree.BuildPath (sample2.keys 0)._key [115, 92, 116]) v) =
          false) ∧
      d'.KT.IsKey (KeyTree.BuildPath (sample2.keys 0)._key [115, 92, 116]) = false ∧
      (∀ f, (∀ v ∈ vs,
          f ≠ KeyTree.BuildPath (KeyTree.BuildPath (sample2.keys 0)._key [115, 92, 116]) v) →
        d'.VS._MAP.find f = sample2Store._MAP.find f) :=
  C20_delsubkey_success_frame sample2 0 0
    ⟨sample2Store, sample2Store.BuildKeyTree KeyTree.empty, [104], 1⟩ [115, 92, 116] rfl rfl
    (by decide)

end World

/-! ## C27: DeleteVal -/

namespace ValStore

/-- C27: for every store and name `n`, `DeleteVal(n)` returns true exactly when `n` was
present before the call; afterwards `n` is absent (`IsValue(n)` is false and
`GetSize(n) = -1`), and every other name keeps its entry: same kind, same bytes. -/
theorem C27_deleteval (S : ValStore) (n : _str_t) :
    (S.DeleteVal n).1 = S.IsValue n ∧
    (S.DeleteVal n).2.IsValue n = false ∧
    (S.DeleteVal n).2.GetSize n = -1 ∧
    ∀ n2, n2 ≠ n → (S.DeleteVal n).2._MAP.find n2 = S._MAP.find n2 ∧
      (S.DeleteVal n).2.GetType n2 = S.GetType n2 ∧
      (S.DeleteVal n).2.GetVal n2 = S.GetVal n2 ∧
      (S.DeleteVal n).2.IsValue n2 = S.IsValue n2 := by
  have hf := find_DeleteVal S n
  have hn : (S.DeleteVal n).2._getVal n = none := by
    unfold _getVal
    rw [hf n, if_pos rfl]
  refine ⟨?_, ?_, ?_, fun n2 h2 => ?_⟩
  · unfold DeleteVal
    cases S.IsValue n <;> rfl
  · unfold IsValue
    rw [hn]
    rfl
  · unfold GetSize
    rw [hn]
  · have h3 : (S.DeleteVal n).2._getVal n2 = S._getVal n2 := by
      unfold _getVal
      rw [hf n2, if_neg h2]
    refine ⟨by rw [hf n2, if_neg h2], ?_, ?_, ?_⟩
    · unfold GetType
      rw [h3]
    · unfold GetVal
      rw [h3]
    · unfold IsValue
      rw [h3]

end ValStore

/-! ## C28: the parent's listing after a deletion -/

namespace World

/-- C28 (the code at the failing input): in the tree of `cmdKTree`, `DeleteKey` of
`r\m\l` returns true and `EnumSubkeys` of `r\m` still lists `l`; through handles, on the
hive of `sample2` a handle opened on `k\s` deletes its subkey `t` with `DelSubKey`
returning true, and `GetSubKeys` on that handle still lists `t`. -/
theorem C28_deleted_subkey_still_listed :
    (KeyTree.ktreeExample.DeleteKey [114, 92, 109, 92, 108]).1 = true ∧
    (KeyTree.ktreeExample.DeleteKey [114, 92, 109, 92, 108]).2.EnumSubkeys [114, 92, 109]
      = some [[108]] ∧
    ((_valKey._open_key sample2 1 0 [115] true).bind (fun w1 =>
      (_valKey._delSubKey w1 1 [116]).map (fun r => (r.1, _valKey._getSubKeys r.2 1)))) =
      some (true, some (some [[116]])) := by
  refine ⟨by decide, by decide, ?_⟩
  rfl

end World

/-! ## C21: a read-only open of a missing hive -/

namespace World

/-- C21 (the code at the failing input): no file exists; `Open("h", "k", false)` on a
default-constructed handle returns true and `IsNull()` is false afterwards; the handle
points to an empty hive without file name, and its key path stays empty. -/
theorem C21_read_only_open_of_missing_hive :
    (_valKey.Open_file (init (FS.ofFiles (fun _ => none))) 0 [104] [107] false 0).map
      (fun r => (r.1, (r.2.keys 0).IsNull, (r.2.keys 0)._key,
        (r.2.data 0).map (fun d => (d.VS, d.KT, d.hive, d.refCount)))) =
      some (true, false, [], some (ValStore.empty, KeyTree.empty, [], 1)) := by
  rfl

end World

/-! ## C25: LastErr after a failing operation -/

namespace World

/-- C25 (the code at the failing input): on the hive of `sample2`, through the handle on
`k`, `GetVal` and `Length` of the absent value `x` fail (false and -1), `DelSubKey` of
the missing subkey `x` and of the subkey `s`, which has a child, return false; no member
called writes `_lasterr`, and `LastErr()` is 0 after each of them. -/
theorem C25_lasterr_stays_zero :
    (_valKey._getVal sample2 0 [120]).map Prod.fst = some false ∧
    _valKey._valLength sample2 0 [120] = some (-1) ∧
    (sample2.keys 0).LastErr = 0 ∧
    (_valKey._delSubKey sample2 0 [120]).map (fun r => (r.1, (r.2.keys 0).LastErr)) =
      some (false, 0) ∧
    (_valKey._delSubKey sample2 0 [115]).map (fun r => (r.1, (r.2.keys 0).LastErr)) =
      some (false, 0) := by
  refine ⟨?_, ?_, ?_, ?_, ?_⟩ <;> rfl

end World

/-! ## C22, C23: which close flushes -/

namespace World

/-- What `_close()` does on an open handle. -/
theorem close_open (w : World) (h a : Nat) (d : __vkdata) (hd : (w.keys h)._d = some a)
    (hh : w.heap a = some d) :
    _valKey._close w h = some (true,
      (if d.refCount - 1 < 1 then (_valKey._flush w h d).2.setData a none
        else (_valKey._flush w h d).2.setData a
          (some { d with refCount := d.refCount - 1 })).setKey h
        (_valKey._init (w.keys h))) := by
  simp only [_valKey._close, hd, hh]

theorem fs_close_open (w w' : World) (h a : Nat) (d : __vkdata)
    (hd : (w.keys h)._d = some a) (hh : w.heap a = some d)
    (hc : _valKey._close w h = some (true, w')) :
    w'.fs = (_valKey._flush w h d).2.fs := by
  rw [close_open w h a d hd hh] at hc
  simp only [Option.some.injEq, Prod.mk.injEq, true_and] at hc
  rw [← hc]
  split <;> rfl

/-- When the hive file cannot be opened for writing, closing the last handle on the hive
still returns true and releases the hive, and no file is written: `_close` does not look
at what `_flush` returns. -/
theorem close_unwritable (w : World) (h a : Nat) (d : __vkdata)
    (hd : (w.keys h)._d = some a) (hh : w.heap a = some d) (hlast : d.refCount = 1)
    (hopen : w.fs.canWrite d.hive = false) :
    ∃ w', _valKey.Close w h = some (true, w') ∧ w'.fs = w.fs ∧ w'.heap a = none ∧
      (w'.keys h).IsNull = true := by
  have hc := close_open w h a d hd hh
  have hfs := fs_close_open w _ h a d hd hh hc
  have hF : (_valKey._flush w h d).2.fs = w.fs := by
    unfold _valKey._flush
    split
    · rfl
    · simp [hopen, ValStore.Serialize, ValStore._serialize]
  have hlt : d.refCount - 1 < 1 := by rw [hlast]; decide
  rw [if_pos hlt] at hc hfs
  refine ⟨_, hc, ?_, ?_, ?_⟩
  · rw [hfs, hF]
  · simp [setKey, setData]
  · simp [setKey, _valKey._init, _valKey.IsNull]

/-- A hive file that cannot be opened for writing: a value is set through a root handle
opened with write=true and the handle, the last one, is closed.  The hive is released and
the file still does not exist. -/
theorem unwritable_hive_not_persisted :
    (openRun ⟨fun _ => none, fun _ => false⟩ 0 [104] [107] true 0
      [.setVal 0 [118] 4 [1, 0, 0, 0], .close 0]).map
        (fun w => ((w.heap 0).isNone, w.fs [104])) = some (true, none) := by
  rfl

/-- C22 (refuted as stated): no file exists; the root handle 0 is opened on `h` with
write=true, handle 1 is opened from it with write=true and sets a value.  Before handle
1 is closed the file `h` does not exist; closing handle 1, while handle 0 stays open on
the hive, writes the file. -/
theorem C22_write_handle_close_flushes :
    (openRun (FS.ofFiles (fun _ => none)) 0 [104] [107] true 0
      [.openKey 1 0 [115] true, .setVal 1 [118] 4 [1, 0, 0, 0]]).map
        (fun w => (w.fs [104], (w.data 0).map (fun d => d.refCount))) =
      some (none, some 2) ∧
    (openRun (FS.ofFiles (fun _ => none)) 0 [104] [107] true 0
      [.openKey 1 0 [115] true, .setVal 1 [118] 4 [1, 0, 0, 0], .close 1]).map
        (fun w => (w.fs [104], (w.data 0).map (fun d => d.refCount))) =
      some (some (ValStore._hdr_t ++ [5, 0, 0, 0, 107, 92, 115, 92, 118, 4, 0, 0, 0,
        4, 0, 0, 0, 1, 0, 0, 0]), some 1) := by
  constructor <;> rfl

/-- C22 (amended): for every hive and every open handle `h` on it that is not in write
mode, closing `h` succeeds and leaves every file as it was before the close, whatever
other handles stay open on the hive. -/
theorem C22_read_only_close_keeps_file (w : World) (h a : Nat) (d : __vkdata)
    (hd : (w.keys h)._d = some a) (hh : w.heap a = some d)
    (hro : (w.keys h)._write = false) :
    ∃ w', _valKey.Close w h = some (true, w') ∧ w'.fs = w.fs := by
  refine ⟨_, close_open w h a d hd hh, ?_⟩
  rw [fs_close_open w _ h a d hd hh (close_open w h a d hd hh)]
  simp [_valKey._flush, hro]

/-- Witness for C22: handle 1 of `sample3`, a read-only handle, is closed while handle 0
stays open on the hive. -/
theorem C22_read_only_close_keeps_file_witness :
    ∃ w', _valKey.Close sample3 1 = some (true, w') ∧ w'.fs = sample3.fs :=
  C22_read_only_close_keeps_file sample3 1 0
    ⟨sample2Store, sample2Store.BuildKeyTree KeyTree.empty, [104], 2⟩ rfl rfl rfl

/-- C23 (refuted as stated): no file exists; the root handle 0 is opened on `h` with
write=true, handle 1 is opened from it with write=false, handle 0 sets `v` and is closed,
then `w` is set through handle 1.  Before handle 1, the last one, is closed the store
holds `k\s\w`; that close releases the hive, and the file read back does not hold
`k\s\w`. -/
theorem C23_read_only_last_close_loses_value :
    (openRun (FS.ofFiles (fun _ => none)) 0 [104] [107] true 0
      [.openKey 1 0 [115] false, .setVal 0 [118] 4 [1, 0, 0, 0], .close 0,
       .setVal 1 [119] 4 [2, 0, 0, 0]]).bind
        (fun w => (w.data 1).map
          (fun d => (d.refCount, d.VS.IsValue [107, 92, 115, 92, 119]))) =
      some (1, true) ∧
    (openRun (FS.ofFiles (fun _ => none)) 0 [104] [107] true 0
      [.openKey 1 0 [115] false, .setVal 0 [118] 4 [1, 0, 0, 0], .close 0,
       .setVal 1 [119] 4 [2, 0, 0, 0], .close 1]).map
        (fun w => ((w.heap 0).isNone,
          (ValStore.empty.Deserialize w.fs [104] 0).1,
          (ValStore.empty.Deserialize w.fs [104] 0).2.IsValue [107, 92, 115, 92, 119])) =
      some (true, true, false) := by
  constructor <;> rfl

/-- C23 (amended): for every hive whose file can be opened for writing and every open
handle `h` on it that is in write mode and is the last outstanding handle (`refCount` is
1), closing `h` serializes the hive first: the hive's file then holds the serialization
of the final store, every other file is as before, the hive is released and `h` is null.
When the final store's names and values are shorter than 2^32 bytes the file reads back
to exactly that store. -/
theorem C23_last_write_close_flushes (w : World) (h a : Nat) (d : __vkdata)
    (hd : (w.keys h)._d = some a) (hh : w.heap a = some d)
    (hwr : (w.keys h)._write = true) (hlast : d.refCount = 1)
    (hopen : w.fs.canWrite d.hive = true) :
    ∃ w', _valKey.Close w h = some (true, w') ∧
      w'.fs d.hive = some d.VS._serialize_bytes ∧
      (∀ f, f ≠ d.hive → w'.fs f = w.fs f) ∧
      w'.heap a = none ∧ (w'.keys h).IsNull = true ∧
      (d.VS.WF → d.VS.lengthsBelow → ∀ (S0 : ValStore) (junk : Nat),
        S0.Deserialize w'.fs d.hive junk = (true, d.VS)) := by
  have hc := close_open w h a d hd hh
  have hfs := fs_close_open w _ h a d hd hh hc
  have hF : (_valKey._flush w h d).2.fs = w.fs.write d.hive d.VS._serialize_bytes := by
    simp [_valKey._flush, hwr, hopen, ValStore.Serialize, ValStore._serialize]
  have hlt : d.refCount - 1 < 1 := by rw [hlast]; decide
  rw [if_pos hlt] at hc hfs
  refine ⟨_, hc, ?_, fun f hf => ?_, ?_, ?_, fun hwf hlen S0 junk => ?_⟩
  · rw [hfs, hF]
    simp [FS.write]
  · rw [hfs, hF]
    simp [FS.write, hf]
  · simp [setKey, setData]
  · simp [setKey, _valKey._init, _valKey.IsNull]
  · have hfile : ((((_valKey._flush w h d).2.setData a none).setKey h
        (_valKey._init (w.keys h))).fs) d.hive = some d.VS._serialize_bytes := by
      rw [hfs, hF]
      simp [FS.write]
    simp only [ValStore.Deserialize, ValStore._deserialize, hfile]
    exact ValStore._deserialize_bytes_serialize d.VS junk hwf hlen

/-- Witness for C23: the write-mode handle of `sample2`, the only one on its hive, is
closed. -/
theorem C23_last_write_close_flushes_witness :
    ∃ w', _valKey.Close sample2 0 = some (true, w') ∧
      w'.fs [104] = some sample2Store._serialize_bytes ∧
      (∀ f, f ≠ [104] → w'.fs f = sample2.fs f) ∧
      w'.heap 0 = none ∧ (w'.keys 0).IsNull = true ∧
      (sample2Store.WF → sample2Store.lengthsBelow → ∀ (S0 : ValStore) (junk : Nat),
        S0.Deserialize w'.fs [104] junk = (true, sample2Store)) :=
  C23_last_write_close_flushes sample2 0 0
    ⟨sample2Store, sample2Store.BuildKeyTree KeyTree.empty, [104], 1⟩ rfl rfl rfl rfl rfl

end World

/-! ## Reachable worlds -/

namespace KeyTree

theorem Linked_foldl_AddValue (l : umap _str_t ValStore._val_t) (kt : KeyTree)
    (h : Linked kt._MAP) :
    Linked (l.foldl
      (fun kt e => (kt.AddValue (SplitPath e.1).2.1 (SplitPath e.1).2.2).2) kt)._MAP := by
  induction l generalizing kt with
  | nil => exact h
  | cons e rest ih => exact ih _ (Linked_AddValue kt._MAP _ _ h)

end KeyTree

namespace World

theorem heap_close_open (w : World) (h a : Nat) (d : __vkdata) (b : Nat) :
    ((if d.refCount - 1 < 1 then (_valKey._flush w h d).2.setData a none
        else (_valKey._flush w h d).2.setData a
          (some { d with refCount := d.refCount - 1 })).setKey h
        (_valKey._init (w.keys h))).heap b =
    if b = a then
      (if d.refCount - 1 < 1 then none else some { d with refCount := d.refCount - 1 })
    else w.heap b := by
  by_cases hlt : d.refCount - 1 < 1 <;> by_cases hb : b = a <;>
    simp [hlt, hb, setKey, setData, heap_flush]

theorem Sound_close (w w' : World) (h : Nat) (r : Bool)
    (hc : _valKey._close w h = some (r, w')) (hs : w.Sound) : w'.Sound := by
  cases hd : (w.keys h)._d with
  | none =>
    simp only [_valKey._close, hd, Option.some.injEq, Prod.mk.injEq] at hc
    rw [← hc.2]
    exact hs
  | some a =>
    cases hh : w.heap a with
    | none => simp [_valKey._close, hd, hh] at hc
    | some d =>
      rw [close_open w h a d hd hh] at hc
      simp only [Option.some.injEq, Prod.mk.injEq] at hc
      rw [← hc.2]
      intro b e he
      rw [heap_close_open] at he
      by_cases hb : b = a
      · rw [if_pos hb] at he
        by_cases hlt : d.refCount - 1 < 1
        · rw [if_pos hlt] at he
          cases he
        · rw [if_neg hlt] at he
          simp only [Option.some.injEq] at he
          rw [← he]
          exact ⟨by simp only; omega, (hs a d hh).2⟩
      · rw [if_neg hb] at he
        exact hs b e he

theorem Sound_open_key (w w' : World) (h vkey : Nat) (keyPath : _str_t) (bWrite : Bool)
    (ho : _valKey._open_key w h vkey keyPath bWrite = some w') (hs : w.Sound) :
    w'.Sound := by
  unfold _valKey._open_key at ho
  cases hc : _valKey._close w h with
  | none => simp [hc] at ho
  | some rw1 =>
    obtain ⟨r, w1⟩ := rw1
    have h1 := Sound_close w w1 h r hc hs
    simp only [hc] at ho
    cases hd : (w1.keys vkey)._d with
    | none => simp [hd] at ho
    | some a =>
      cases hh : w1.heap a with
      | none => simp [hd, hh] at ho
      | some d =>
        simp only [hd, hh, Option.some.injEq] at ho
        rw [← ho]
        intro b e he
        by_cases hb : b = a
        · simp only [setKey, setData, hb, if_true, Option.some.injEq] at he
          rw [← he]
          have := h1 a d hh
          exact ⟨by simp only; omega, this.2⟩
        · simp only [setKey, setData, hb, if_false] at he
          exact h1 b e he

theorem Sound_open_file (w w' : World) (h : Nat) (hive keyPath : _str_t) (bWrite : Bool)
    (junk : Nat) (ho : _valKey._open_file w h hive keyPath bWrite junk = some w')
    (hs : w.Sound) : w'.Sound := by
  unfold _valKey._open_file at ho
  cases hc : _valKey._close w h with
  | none => simp [hc] at ho
  | some rw1 =>
    obtain ⟨r, w1⟩ := rw1
    have h1 := Sound_close w w1 h r hc hs
    simp only [hc] at ho
    have hB : ∀ S : ValStore, KeyTree.Linked (S.BuildKeyTree KeyTree.empty)._MAP :=
      fun S => KeyTree.Linked_foldl_AddValue S._MAP _ KeyTree.Linked_nil
    have hnew : (1 : Int) ≤ __vkdata.new.refCount := by decide
    intro b e he
    cases hr : (__vkdata.new.VS.Deserialize w1.fs hive junk).1 with
    | true =>
      simp only [hr, if_true, Bool.true_or, Option.some.injEq] at ho
      rw [← ho] at he
      by_cases hb : b = w1.next
      · simp only [setKey, setData, hb, if_true, Option.some.injEq] at he
        rw [← he]
        exact ⟨hnew, hB _⟩
      · simp only [setKey, setData, hb, if_false] at he
        exact h1 b e he
    | false =>
      simp only [hr, Bool.false_or, Bool.false_eq_true, if_false] at ho
      cases bWrite with
      | true =>
        simp only [if_true, Option.some.injEq] at ho
        rw [← ho] at he
        by_cases hb : b = w1.next
        · simp only [setKey, setData, hb, if_true, Option.some.injEq] at he
          rw [← he]
          exact ⟨hnew, KeyTree.Linked_nil⟩
        · simp only [setKey, setData, hb, if_false] at he
          exact h1 b e he
      | false =>
        simp only [Bool.false_eq_true, if_false, Option.some.injEq] at ho
        rw [← ho] at he
        by_cases hb : b = w1.next
        · simp only [setKey, setData, hb, if_true, Option.some.injEq] at he
          rw [← he]
          exact ⟨hnew, KeyTree.Linked_nil⟩
        · simp only [setKey, setData, hb, if_false] at he
          exact h1 b e he

theorem Sound_setVal (w w' : World) (h : Nat) (name : _str_t) (type : Nat)
    (data : List BYTE) (r : Bool) (ho : _valKey._setVal w h name type data = some (r, w'))
    (hs : w.Sound) : w'.Sound := by
  cases hd : (w.keys h)._d with
  | none => simp [_valKey._setVal, hd] at ho
  | some a =>
    cases hh : w.heap a with
    | none => simp [_valKey._setVal, hd, hh] at ho
    | some d =>
      rw [setVal_open w h a d name type data hd hh] at ho
      simp only [Option.some.injEq, Prod.mk.injEq] at ho
      rw [← ho.2]
      intro b e he
      by_cases hb : b = a
      · simp only [setKey, setData, hb, if_true, Option.some.injEq] at he
        rw [← he]
        exact ⟨(hs a d hh).1, KeyTree.Linked_AddValue d.KT._MAP _ _ (hs a d hh).2⟩
      · simp only [setKey, setData, hb, if_false] at he
        exact hs b e he

theorem Sound_delSubKey (w w' : World) (h : Nat) (name : _str_t) (r : Bool)
    (ho : _valKey._delSubKey w h name = some (r, w')) (hs : w.Sound) : w'.Sound := by
  cases hd : (w.keys h)._d with
  | none => simp [_valKey._delSubKey, hd] at ho
  | some a =>
    cases hh : w.heap a with
    | none => simp [_valKey._delSubKey, hd, hh] at ho
    | some d =>
      simp only [_valKey._delSubKey, hd, hh] at ho
      cases hE : d.KT.EnumValues ((w.keys h)._rel name) with
      | none =>
        simp only [hE, Option.some.injEq, Prod.mk.injEq] at ho
        rw [← ho.2]
        exact hs
      | some vs =>
        simp only [hE] at ho
        have hL := KeyTree.Linked_DeleteKey d.KT ((w.keys h)._rel name) (hs a d hh).2
        intro b e he
        split at ho
        · simp only [Option.some.injEq, Prod.mk.injEq] at ho
          rw [← ho.2] at he
          by_cases hb : b = a
          · simp only [setData, hb, if_true, Option.some.injEq] at he
            rw [← he]
            exact ⟨(hs a d hh).1, hL⟩
          · simp only [setData, hb, if_false] at he
            exact hs b e he
        · simp only [Option.some.injEq, Prod.mk.injEq] at ho
          rw [← ho.2] at he
          by_cases hb : b = a
          · simp only [setData, hb, if_true, Option.some.injEq] at he
            rw [← he]
            exact ⟨(hs a d hh).1, hL⟩
          · simp only [setData, hb, if_false] at he
            exact hs b e he

theorem Sound_step (w w' : World) (op : Op) (ho : w.step op = some w') (hs : w.Sound) :
    w'.Sound := by
  cases op with
  | openKey h vkey keyPath bWrite => exact Sound_open_key w w' h vkey keyPath bWrite ho hs
  | setVal h name type data =>
    simp only [step, Option.map_eq_some'] at ho
    obtain ⟨⟨r, w2⟩, h1, h2⟩ := ho
    simp only at h2
    subst h2
    exact Sound_setVal w w2 h name type data r h1 hs
  | delSubKey h name =>
    simp only [step, Option.map_eq_some'] at ho
    obtain ⟨⟨r, w2⟩, h1, h2⟩ := ho
    simp only at h2
    subst h2
    exact Sound_delSubKey w w2 h name r h1 hs
  | close h =>
    simp only [step, Option.map_eq_some'] at ho
    obtain ⟨⟨r, w2⟩, h1, h2⟩ := ho
    simp only at h2
    subst h2
    exact Sound_close w w2 h r h1 hs

theorem Sound_of_Reachable (w : World) (hw : w.Reachable) : w.Sound := by
  induction hw with
  | init fs =>
    intro a d hd
    simp [init] at hd
  | openFile w w' h hive keyPath bWrite junk _ ho ih =>
    exact Sound_open_file w w' h hive keyPath bWrite junk ho ih
  | step w w' op _ ho ih => exact Sound_step w w' op ho ih

end World

/-! ## C24: closing a derived handle -/

namespace World

theorem sample_Reachable : sample.Reachable :=
  Reachable.openFile (init (FS.ofFiles (fun _ => none))) sample 0 [104] [107] true 0
    (Reachable.init _) rfl

/-- What `_open(vkey, keyPath, bWrite)` on a handle that is not open leaves behind. -/
theorem open_key_null_spec (w : World) (r r2 a : Nat) (d : __vkdata) (s : _str_t)
    (bWrite : Bool) (hr : (w.keys r)._d = some a) (hh : w.heap a = some d)
    (h2 : (w.keys r2)._d = none) :
    ∃ w1, _valKey._open_key w r2 r s bWrite = some w1 ∧
      w1.keys r2 = { w.keys r2 with _d := some a, _key := (w.keys r)._rel s,
                                    _write := bWrite } ∧
      (∀ g, g ≠ r2 → w1.keys g = w.keys g) ∧
      w1.heap a = some { d with refCount := d.refCount + 1 } ∧
      (∀ b, b ≠ a → w1.heap b = w.heap b) ∧ w1.fs = w.fs := by
  refine ⟨_, open_key_null w r r2 a d s bWrite hr hh h2, ?_, fun g hg => ?_, ?_,
    fun b hb => ?_, rfl⟩
  · simp [setKey]
  · simp [setKey, setData, hg]
  · simp [setKey, setData]
  · simp [setKey, setData, hb]

/-- What `_close()` on an open handle leaves behind. -/
theorem close_open_spec (w : World) (h a : Nat) (d : __vkdata)
    (hd : (w.keys h)._d = some a) (hh : w.heap a = some d) :
    ∃ w', _valKey._close w h = some (true, w') ∧
      w'.keys h = _valKey._init (w.keys h) ∧
      (∀ g, g ≠ h → w'.keys g = w.keys g) ∧
      w'.heap a = (if d.refCount - 1 < 1 then none
        else some { d with refCount := d.refCount - 1 }) ∧
      (∀ b, b ≠ a → w'.heap b = w.heap b) := by
  refine ⟨_, close_open w h a d hd hh, ?_, fun g hg => ?_, ?_, fun b hb => ?_⟩
  · simp [setKey]
  · by_cases hlt : d.refCount - 1 < 1 <;> simp [hlt, setKey, setData, hg, keys_flush]
  · rw [heap_close_open, if_pos rfl]
  · rw [heap_close_open, if_neg hb]

/-- C24: in every reachable world, for every open handle `r`, opening a handle `r2` that
is not yet open from `r` and then closing `r2` leaves `r` as it was (non-null), leaves
the hive with the store and tree it had just before the close and with the `refCount` it
had before `r2` was opened, and leaves `r2` null.  After that, closing any open handle
releases its hive exactly when that close brings `refCount` to 0. -/
theorem C24_close_derived_handle (w : World) (r r2 a : Nat) (d : __vkdata) (s : _str_t)
    (bWrite : Bool) (hw : w.Reachable) (hr : (w.keys r)._d = some a)
    (hh : w.heap a = some d) (h2 : (w.keys r2)._d = none) :
    ∃ w1 w2 d1, _valKey._open_key w r2 r s bWrite = some w1 ∧ w1.heap a = some d1 ∧
      d1.refCount = d.refCount + 1 ∧
      _valKey.Close w1 r2 = some (true, w2) ∧
      (w2.keys r).IsNull = false ∧ w2.keys r = w.keys r ∧
      (∃ d2, w2.heap a = some d2 ∧ d2.VS = d1.VS ∧ d2.KT = d1.KT ∧
        d2.refCount = d.refCount ∧ d2 = d) ∧
      (w2.keys r2).IsNull = true ∧
      (∀ g b e, (w2.keys g)._d = some b → w2.heap b = some e →
        ∃ w3, _valKey.Close w2 g = some (true, w3) ∧
          (w3.heap b = none ↔ e.refCount - 1 = 0)) := by
  have hne : r ≠ r2 := by
    intro e
    rw [e, h2] at hr
    cases hr
  have hS := Sound_of_Reachable w hw
  obtain ⟨w1, ho, k1, k2, p1, _, _⟩ := open_key_null_spec w r r2 a d s bWrite hr hh h2
  have hS1 := Sound_open_key w w1 r2 r s bWrite ho hS
  have hd1 : (w1.keys r2)._d = some a := by rw [k1]
  obtain ⟨w2, hc, c1, c2, c3, _⟩ := close_open_spec w1 r2 a _ hd1 p1
  have hS2 := Sound_close w1 w2 r2 true hc hS1
  have hpos := (hS a d hh).1
  have hnlt : ¬ (d.refCount + 1 - 1 < 1) := by omega
  have hheap : w2.heap a = some d := by
    rw [c3]
    simp only [hnlt, if_false]
    have : d.refCount + 1 - 1 = d.refCount := by omega
    rw [this]
  have hkr : w2.keys r = w.keys r := by rw [c2 r hne, k2 r hne]
  refine ⟨w1, w2, _, ho, p1, rfl, hc, ?_, hkr, ⟨d, hheap, rfl, rfl, rfl, rfl⟩, ?_, ?_⟩
  · rw [hkr]
    simp [_valKey.IsNull, hr]
  · rw [c1]
    rfl
  · intro g b e hg hb
    obtain ⟨w3, hc3, _, _, q3, _⟩ := close_open_spec w2 g b e hg hb
    refine ⟨w3, hc3, ?_⟩
    have hpe := (hS2 b e hb).1
    rw [q3]
    by_cases hlt : e.refCount - 1 < 1
    · rw [if_pos hlt]
      constructor
      · intro _
        omega
      · intro _
        rfl
    · rw [if_neg hlt]
      constructor
      · intro hc4
        cases hc4
      · intro h0
        omega

/-- Witness for C24: a handle opened from the handle of `sample` with name `s` and
closed again. -/
theorem C24_close_derived_handle_witness :
    ∃ w1 w2 d1, _valKey._open_key sample 1 0 [115] false = some w1 ∧
      w1.heap 0 = some d1 ∧
      d1.refCount = (⟨ValStore.empty, KeyTree.empty, [104], 1⟩ : __vkdata).refCount + 1 ∧
      _valKey.Close w1 1 = some (true, w2) ∧
      (w2.keys 0).IsNull = false ∧ w2.keys 0 = sample.keys 0 ∧
      (∃ d2, w2.heap 0 = some d2 ∧ d2.VS = d1.VS ∧ d2.KT = d1.KT ∧
        d2.refCount = (⟨ValStore.empty, KeyTree.empty, [104], 1⟩ : __vkdata).refCount ∧
        d2 = ⟨ValStore.empty, KeyTree.empty, [104], 1⟩) ∧
      (w2.keys 1).IsNull = true ∧
      (∀ g b e, (w2.keys g)._d = some b → w2.heap b = some e →
        ∃ w3, _valKey.Close w2 g = some (true, w3) ∧
          (w3.heap b = none ↔ e.refCount - 1 = 0)) :=
  C24_close_derived_handle sample 0 1 0 ⟨ValStore.empty, KeyTree.empty, [104], 1⟩ [115]
    false sample_Reachable rfl rfl rfl

end World

/-! ## C29: a subkey that holds a value -/

namespace World

/-- C29 (refuted as stated): the root handle 0 is opened with the empty key path, handle
1 is opened from it with name `s` and sets a value.  The key path of handle 1 is `\s`,
and `GetSubKeys` on handle 0 returns false. -/
theorem C29_empty_key_path_lists_nothing :
    (openRun (FS.ofFiles (fun _ => none)) 0 [104] [] true 0
      [.openKey 1 0 [115] true, .setVal 1 [118] 4 [1, 0, 0, 0]]).map
        (fun w => ((w.keys 0)._key, (w.keys 1)._key, _valKey._getSubKeys w 0)) =
      some ([], [92, 115], some none) := by
  rfl

/-- C29 (amended): in every reachable world, for every open handle `h` whose relative key
path is not empty and every subkey name `s` without delimiter, after a value is set
through a handle opened from `h` with name `s`, `GetSubKeys` on `h` succeeds and its
result contains `s`. -/
theorem C29_subkey_with_value_listed (w : World) (h r2 a : Nat) (d : __vkdata)
    (s n : _str_t) (bWrite : Bool) (t : Nat) (b : List BYTE) (hw : w.Reachable)
    (hd : (w.keys h)._d = some a) (hh : w.heap a = some d)
    (h2 : (w.keys r2)._d = none) (hK : (w.keys h)._key ≠ []) (hs : _del ∉ s) :
    ∃ w1 w2 l, _valKey._open_key w r2 h s bWrite = some w1 ∧
      _valKey._setVal w1 r2 n t b = some (true, w2) ∧
      _valKey._getSubKeys w2 h = some (some l) ∧ s ∈ l := by
  have hne : h ≠ r2 := by
    intro e
    rw [e, h2] at hd
    cases hd
  have hS := Sound_of_Reachable w hw
  obtain ⟨w1, ho, k1, k2, p1, _, _⟩ := open_key_null_spec w h r2 a d s bWrite hd hh h2
  have hd1 : (w1.keys r2)._d = some a := by rw [k1]
  have hkey : (w1.keys r2)._key = KeyTree.BuildPath (w.keys h)._key s := by
    rw [k1]
    rfl
  have hsv := setVal_open w1 r2 a _ n t b hd1 p1
  have hL : KeyTree.Linked
      (d.KT.AddValue (KeyTree.BuildPath (w.keys h)._key s) n).2._MAP :=
    KeyTree.Linked_AddValue d.KT._MAP _ _ (hS a d hh).2
  obtain ⟨j, _, _, _, _, _, a6⟩ :=
    KeyTree.AddValue_spec d.KT._MAP (KeyTree.BuildPath (w.keys h)._key s) n
  have hel := KeyTree.erase_last_buildpath (w.keys h)._key s hs
  have hsp := KeyTree.splitpath_buildpath (w.keys h)._key s hs
  obtain ⟨g1, g2⟩ := hL _ a6 (by rw [hel]; exact hK)
  rw [hel] at g1 g2
  rw [hsp] at g2
  refine ⟨w1, _, _, ho, hsv, ?_, g2⟩
  have hkh : w1.keys h = w.keys h := k2 h hne
  simp only [_valKey._getSubKeys, data, setKey, setData, hne, if_false, hkh, hd, if_true,
    Option.map_some', hkey]
  rw [KeyTree.EnumSubkeys_of_indexed _ _ g1]

/-- Witness for C29: a handle opened from the handle of `sample` (key path `k`) with
name `s` sets the value `v`. -/
theorem C29_subkey_with_value_listed_witness :
    ∃ w1 w2 l, _valKey._open_key sample 1 0 [115] true = some w1 ∧
      _valKey._setVal w1 1 [118] 4 [1, 0, 0, 0] = some (true, w2) ∧
      _valKey._getSubKeys w2 0 = some (some l) ∧ [115] ∈ l :=
  C29_subkey_with_value_listed sample 0 1 0 ⟨ValStore.empty, KeyTree.empty, [104], 1⟩
    [115] [118] true 4 [1, 0, 0, 0] sample_Reachable rfl rfl rfl (by decide) (by decide)

end World

/-! ## C30: the packing stored in the header -/

namespace ValStore

theorem fillerCount_eq (a len : Nat) : fillerCount a len = _pack_count len a := by
  unfold fillerCount _pack_count
  by_cases h : 2 ≤ a
  · rw [if_pos h, if_neg (by omega)]
  · rw [if_neg h, if_pos (by omega)]

/-- Reading the filler skips it, whatever its content. -/
theorem _rpack_filler (len pack : Nat) (f r : List BYTE) (e : Bool)
    (hf : f.length = _pack_count len pack) :
    _rpack len pack ⟨f ++ r, e⟩ = ⟨r, e⟩ := by
  unfold _rpack
  by_cases h : pack < 2
  · have h0 : f = [] := by
      apply List.length_eq_zero.mp
      rw [hf]
      simp [_pack_count, h]
    simp [h, h0]
  · rw [if_neg h]
    have := fread_append_snd (List.replicate 4 0) f r e
    rwa [hf] at this

/-- One iteration of the reading loop consumes exactly one packed record. -/
theorem _deserialize_loop_packedRecord (junk pack fuel : Nat) (fill : Nat → List BYTE)
    (e : _str_t × _val_t) (r : List BYTE) (m : umap _str_t _val_t) (h : entryFits e)
    (hfill : ∀ k, (fill k).length = k) :
    _deserialize_loop junk pack (fuel + 1) ⟨packedRecord pack fill e ++ r, false⟩ m =
    _deserialize_loop junk pack fuel ⟨r, false⟩ (m.assign e.1 e.2) := by
  obtain ⟨name, ⟨type, data⟩⟩ := e
  obtain ⟨ht, h1, h2⟩ := h
  simp only at ht h1 h2
  simp only [packedRecord, List.append_assoc]
  have e1 : ∀ z, fread (leU32 0) 4 ⟨leU32 name.length ++ z, false⟩ =
      (leU32 name.length, ⟨z, false⟩) :=
    fun z => fread_append (leU32 0) (leU32 name.length) z false rfl
  have e2 : ∀ z, fread (List.replicate name.length 0) name.length ⟨name ++ z, false⟩ =
      (name, ⟨z, false⟩) :=
    fun z => fread_append _ name z false (by simp)
  have p1 : ∀ z, _rpack name.length pack ⟨fill (fillerCount pack name.length) ++ z, false⟩ =
      ⟨z, false⟩ :=
    fun z => _rpack_filler _ _ _ z false (by rw [hfill, fillerCount_eq])
  have e3 : ∀ z, fread (leU32 junk) 4 ⟨leU32 type ++ z, false⟩ = (leU32 type, ⟨z, false⟩) :=
    fun z => fread_append (leU32 junk) (leU32 type) z false rfl
  have e4 : ∀ z, fread (leU32 name.length) 4 ⟨leU32 data.length ++ z, false⟩ =
      (leU32 data.length, ⟨z, false⟩) :=
    fun z => fread_append (leU32 name.length) (leU32 data.length) z false rfl
  have e5 : ∀ z, fread (List.replicate data.length 0) data.length ⟨data ++ z, false⟩ =
      (data, ⟨z, false⟩) :=
    fun z => fread_append _ data z false (by simp)
  have p2 : ∀ z, _rpack data.length pack ⟨fill (fillerCount pack data.length) ++ z, false⟩ =
      ⟨z, false⟩ :=
    fun z => _rpack_filler _ _ _ z false (by rw [hfill, fillerCount_eq])
  have hLn : ofLE (leU32 name.length) = name.length := by
    rw [ofLE_leU32]; exact Nat.mod_eq_of_lt h1
  have hLd : ofLE (leU32 data.length) = data.length := by
    rw [ofLE_leU32]; exact Nat.mod_eq_of_lt h2
  have hLt : ofLE (leU32 type) = type := by
    rw [ofLE_leU32]; exact Nat.mod_eq_of_lt ht
  have h5 : ∀ z : List BYTE, (if 0 < data.length then ((data, ⟨z, false⟩) : List BYTE × File)
      else ([], ⟨data ++ z, false⟩)) = (data, ⟨z, false⟩) := by
    intro z; cases data <;> simp
  rw [_deserialize_loop]
  simp only [feof, e1, hLn, e2, p1, e3, e4, hLd, e5, hLt, h5, p2]
  simp

theorem _deserialize_loop_packedRecords (junk pack : Nat) (fill : Nat → List BYTE)
    (l : List (_str_t × _val_t)) (fuel : Nat) (m : umap _str_t _val_t)
    (hl : ∀ e ∈ l, entryFits e) (hfill : ∀ k, (fill k).length = k) :
    _deserialize_loop junk pack (l.length + (fuel + 1))
      ⟨(l.map (packedRecord pack fill)).flatten, false⟩ m =
    l.foldl (fun acc e => acc.assign e.1 e.2) m := by
  induction l generalizing m with
  | nil =>
    simp only [List.length_nil, Nat.zero_add, List.map_nil, List.flatten_nil, List.foldl_nil]
    exact _deserialize_loop_end junk pack fuel m
  | cons e rest ih =>
    have he := hl e (List.mem_cons_self _ _)
    have hfuel : (e :: rest).length + (fuel + 1) = (rest.length + (fuel + 1)) + 1 := by
      simp only [List.length_cons]; omega
    simp only [List.map_cons, List.flatten_cons, List.foldl_cons]
    rw [hfuel, _deserialize_loop_packedRecord junk pack _ fill e _ m he hfill]
    exact ih _ (fun e' h' => hl e' (List.mem_cons_of_mem _ h'))

/-- Reading a packed file: the header is accepted and the records are assigned in order. -/
theorem _deserialize_bytes_packedFile (hdr : List BYTE) (fill : Nat → List BYTE)
    (l : List (_str_t × _val_t)) (junk : Nat) (h16 : hdr.length = 16)
    (hmagic : _hdr_t.magic hdr = _hdr_t.magic _hdr_t) (hl : ∀ e ∈ l, entryFits e)
    (hfill : ∀ k, (fill k).length = k) :
    _deserialize_bytes (packedFile hdr fill l) junk =
    (true, ⟨l.foldl (fun acc e => acc.assign e.1 e.2) []⟩) := by
  have hr : fread _hdr_t 16 ⟨packedFile hdr fill l, false⟩ =
      (hdr, ⟨(l.map (packedRecord (_hdr_t.packing hdr) fill)).flatten, false⟩) := by
    have := fread_append _hdr_t hdr
      ((l.map (packedRecord (_hdr_t.packing hdr) fill)).flatten) false (by rw [h16]; rfl)
    rwa [h16] at this
  unfold _deserialize_bytes
  simp only [hr, hmagic, ne_eq, not_true_eq_false, if_false]
  rw [_deserialize_loop_fuel junk (_hdr_t.packing hdr) _
    (l.length + (((l.map (packedRecord (_hdr_t.packing hdr) fill)).flatten).length + 1))
    _ _ (by simp [packedFile]; omega) (by simp; omega),
    _deserialize_loop_packedRecords junk _ fill l _ [] hl hfill]

/-- C30: for every store `S` (pairwise different names, 32-bit tags, names and values
shorter than 2^32 bytes) and every packing unit `a` in {0, 1, 2, 3, 4}, a file made of a
header with the right magic whose packing byte is `a`, followed by the records of `S` in
which the name field and the value field are each followed by `(a - len mod a) mod a`
filler bytes of any content when `a >= 2` and by none when `a <= 1`, deserializes
successfully to exactly `S`, into any store.  For `a >= 1` the filler count is less than
`a` and makes `len + filler` a multiple of `a`; for `a <= 1` it is 0. -/
theorem C30_deserialize_honours_packing (S S0 : ValStore) (fs : FS) (file : _str_t)
    (junk : Nat) (hdr : List BYTE) (fill : Nat → List BYTE) (a : Nat)
    (h16 : hdr.length = 16) (hmagic : _hdr_t.magic hdr = _hdr_t.magic _hdr_t)
    (_hpack : _hdr_t.packing hdr = a) (_ha : a ≤ 4) (hfill : ∀ k, (fill k).length = k)
    (hwf : S.WF) (hlen : S.lengthsBelow)
    (hfile : fs file = some (packedFile hdr fill S._MAP)) :
    S0.Deserialize fs file junk = (true, S) ∧
    ∀ len, (1 ≤ a → fillerCount a len < a ∧ a ∣ len + fillerCount a len) ∧
      (a ≤ 1 → fillerCount a len = 0) := by
  constructor
  · simp only [Deserialize, _deserialize, hfile]
    rw [_deserialize_bytes_packedFile hdr fill S._MAP junk h16 hmagic
      (WF_entryFits S hwf hlen) hfill,
      umap.foldl_assign_fresh S._MAP [] (by simpa [umap.keys] using hwf.1)]
    simp
  · intro len
    refine ⟨fun h1 => ?_, fun h1 => ?_⟩
    · unfold fillerCount
      by_cases h2 : 2 ≤ a
      · rw [if_pos h2]
        have hpos : 0 < a := by omega
        have hlt := Nat.mod_lt len hpos
        have hdm := Nat.div_add_mod len a
        refine ⟨Nat.mod_lt _ hpos, ?_⟩
        by_cases h0 : len % a = 0
        · rw [h0, Nat.sub_zero, Nat.mod_self, Nat.add_zero]
          exact Nat.dvd_of_mod_eq_zero h0
        · have hsub : (a - len % a) % a = a - len % a := Nat.mod_eq_of_lt (by omega)
          rw [hsub]
          refine ⟨len / a + 1, ?_⟩
          rw [Nat.mul_add, Nat.mul_one]
          omega
      · rw [if_neg h2]
        have ha1 : a = 1 := by omega
        subst ha1
        exact ⟨by decide, Nat.one_dvd _⟩
    · unfold fillerCount
      rw [if_neg (by omega)]

/-- Witness for C30: the store of `sample2` written with packing unit 4 and fillers of
bytes `255`, read into a store that already holds an entry. -/
theorem C30_deserialize_honours_packing_witness :
    scenarioStore.Deserialize
        (FS.ofFiles (fun _ => some (packedFile (headerWithPacking 4) (fun k => List.replicate k 255)
          World.sample2Store._MAP))) [104] 0 = (true, World.sample2Store) ∧
    ∀ len, (1 ≤ 4 → fillerCount 4 len < 4 ∧ 4 ∣ len + fillerCount 4 len) ∧
      (4 ≤ 1 → fillerCount 4 len = 0) :=
  C30_deserialize_honours_packing World.sample2Store scenarioStore
    (FS.ofFiles (fun _ => some (packedFile (headerWithPacking 4) (fun k => List.replicate k 255)
      World.sample2Store._MAP))) [104] 0 (headerWithPacking 4)
    (fun k => List.replicate k 255) 4 rfl rfl rfl (by decide)
    (fun k => List.length_replicate k 255) (by decide) (by decide) rfl

end ValStore

/-! ## C26: text values -/

theorem cstr_cons (x : BYTE) (xs : List BYTE) :
    cstr (x :: xs) = if x = 0 then [] else x :: cstr xs := by
  by_cases hx : x = 0 <;> simp [cstr, List.takeWhile_cons, hx]

theorem cstr_append (t rest : List BYTE) (h : (0 : BYTE) ∉ t) : cstr (t ++ 0 :: rest) = t := by
  induction t with
  | nil => rw [List.nil_append, cstr_cons, if_pos rfl]
  | cons x xs ih =>
    have hx : x ≠ 0 := fun e => h (by rw [e]; exact List.mem_cons_self _ _)
    have hxs : (0 : BYTE) ∉ xs := fun e => h (List.mem_cons_of_mem _ e)
    rw [List.cons_append, cstr_cons, if_neg hx, ih hxs]

theorem cstr_of_not_mem (t : List BYTE) (h : (0 : BYTE) ∉ t) : cstr t = t := by
  induction t with
  | nil => rfl
  | cons x xs ih =>
    have hx : x ≠ 0 := fun e => h (by rw [e]; exact List.mem_cons_self _ _)
    have hxs : (0 : BYTE) ∉ xs := fun e => h (List.mem_cons_of_mem _ e)
    rw [cstr_cons, if_neg hx, ih hxs]

theorem take_terminated (t rest : List BYTE) :
    (t ++ 0 :: rest).take (t.length + 1) = t ++ [0] := by
  induction t with
  | nil => simp
  | cons x xs ih => simpa using ih

theorem strncpy_terminated (p t : List BYTE) (h0 : (0 : BYTE) ∉ t)
    (hp : p.length = t.length + 1) :
    strncpy p (t ++ [0]) (t.length + 1) = t ++ [0] := by
  unfold strncpy
  rw [cstr_append t [] h0, List.take_of_length_le (Nat.le_succ _),
    List.drop_eq_nil_of_le (Nat.le_of_eq hp)]
  have : t.length + 1 - t.length = 1 := by omega
  rw [this]
  simp

namespace ValStore

theorem SetVal_psz_eq (S : ValStore) (n t rest : _str_t) (h0 : (0 : BYTE) ∉ t) :
    S.SetVal_psz n (t ++ 0 :: rest) = S.SetVal n RT_SZ (t ++ [0]) := by
  unfold SetVal_psz SetVal
  simp only [cstr_append t rest h0, take_terminated]

/-- C26 (refuted as stated): the text `Hi` is stored under `n` with `SetVal(n, psz)`;
`GetVal(n, string&)` yields a string of three characters, `Hi` and a NUL, not `Hi`. -/
theorem C26_text_read_back_with_terminator :
    (empty.SetVal_psz [110] [72, 105, 0]).GetVal_str [110] [] = (true, [72, 105, 0]) ∧
    ((empty.SetVal_psz [110] [72, 105, 0]).GetVal_str [110] []).2 ≠ [72, 105] ∧
    ((empty.SetVal_psz [110] [72, 105, 0]).GetVal_str [110] []).2.length = 3 := by
  decide

end ValStore

namespace World

theorem SetVal_sz_eq (w : World) (h : Nat) (n t rest : _str_t) (h0 : (0 : BYTE) ∉ t) :
    _valKey.SetVal_sz w h n (t ++ 0 :: rest) = _valKey._setVal w h n 1 (t ++ [0]) := by
  unfold _valKey.SetVal_sz _valKey._setVal_sz
  simp only [cstr_append t rest h0, take_terminated]
  have e : (0 : BYTE) :: ([] : List BYTE) = [0] := rfl
  have hc : cstr (t ++ [0]) = t := cstr_append t [] h0
  rw [hc, List.take_of_length_le (Nat.le_refl _)]
  rfl

/-- C26 (amended): for every name `n` and every text `t` without embedded NUL, storing
`t` with the text setter and reading it back with the string getter succeeds and yields
the string `t` followed by one terminator character: its length is `|t| + 1` and its
characters before the terminator are those of `t`.  This holds for `SetVal(n, psz)` and
`GetVal(n, string&)` of a store, and, for `t` shorter than 2^31 - 1 characters, for
`SetVal(n, LPCSTR)` and `GetVal(n, string&)` on an open handle. -/
theorem C26_text_round_trip (S : ValStore) (w : World) (h a : Nat) (d : __vkdata)
    (n t rest val : _str_t) (hd : (w.keys h)._d = some a) (hh : w.heap a = some d)
    (h0 : (0 : BYTE) ∉ t) :
    (S.SetVal_psz n (t ++ 0 :: rest)).GetVal_str n val = (true, t ++ [0]) ∧
    (t.length + 1 < 2147483648 →
      ∃ w', _valKey.SetVal_sz w h n (t ++ 0 :: rest) = some (true, w') ∧
        _valKey.GetVal_str w' h n val = some (true, t ++ [0])) ∧
    (t ++ [0]).length = t.length + 1 ∧ cstr (t ++ [0]) = t := by
  refine ⟨?_, fun hlen => ?_, by simp, cstr_append t [] h0⟩
  · rw [ValStore.SetVal_psz_eq S n t rest h0]
    unfold ValStore.GetVal_str
    rw [ValStore._getVal_SetVal]
    simp
  · have hb : (t ++ [0]).length = t.length + 1 := by simp
    have hs := setVal_open w h a d n 1 (t ++ [0]) hd hh
    obtain ⟨g1, g2⟩ := getVal_after_setVal w _ h a d n 1 (t ++ [0]) hd hh hs
    have hU : toUINT (t ++ [0]).length = (t ++ [0]).length := by
      unfold toUINT; omega
    have hI : toInt (t ++ [0]).length = ((t.length + 1 : Nat) : Int) := by
      unfold toInt
      have : (t ++ [0]).length % 4294967296 = t.length + 1 := by omega
      rw [this, if_pos hlen]
    rw [hU, List.take_length] at g1 g2
    rw [hI] at g2
    rw [hb] at g1
    refine ⟨_, (SetVal_sz_eq w h n t rest h0).trans hs, ?_⟩
    have hne : ¬ (((t.length + 1 : Nat) : Int) = -1) := by omega
    have hnn : ¬ (((t.length + 1 : Nat) : Int) < 0) := by omega
    have hbuf : (val.take (t.length + 1) ++
        List.replicate (t.length + 1 - val.length) 0).length = t.length + 1 := by
      simp only [List.length_append, List.length_take, List.length_replicate]
      omega
    simp only [_valKey.GetVal_str, g1, _valKey._getVal_sz, g2, hne, hnn, if_false,
      Bool.true_eq_false, Int.toNat_ofNat, ne_eq, not_true_eq_false]
    rw [strncpy_terminated _ t h0 hbuf]

/-- Witness for C26: the text `Hi` stored in an empty store and through the handle of
`sample`. -/
theorem C26_text_round_trip_witness :
    (ValStore.empty.SetVal_psz [110] ([72, 105] ++ 0 :: [])).GetVal_str [110] [] =
      (true, [72, 105] ++ [0]) ∧
    (([72, 105] : _str_t).length + 1 < 2147483648 →
      ∃ w', _valKey.SetVal_sz sample 0 [110] ([72, 105] ++ 0 :: []) = some (true, w') ∧
        _valKey.GetVal_str w' 0 [110] [] = some (true, [72, 105] ++ [0])) ∧
    (([72, 105] : _str_t) ++ [0]).length = ([72, 105] : _str_t).length + 1 ∧
    cstr ([72, 105] ++ [0]) = [72, 105] :=
  C26_text_round_trip ValStore.empty sample 0 0 ⟨ValStore.empty, KeyTree.empty, [104], 1⟩
    [110] [72, 105] [] [] rfl rfl (by decide)

end World

/-! ## C36: the parent lookups of AddKey -/

namespace KeyTree

theorem AddKey_loop2_checked_eq (j : Nat) (s : _str_t) (m : umap _str_t _val_t)
    (hp : Present j s m) : AddKey_loop2_checked j s m = some (AddKey_loop2 j s m) := by
  induction j generalizing s m with
  | zero => rfl
  | succ j ih =>
    by_cases hb : erase_last s = []
    · have hfl : (_splitpath s).1 = false := (splitpath_flag s).mpr hb
      rw [AddKey_loop2_checked, AddKey_loop2]
      simp [hfl]
    · have hfl : ¬ (_splitpath s).1 = false := fun h => hb ((splitpath_flag s).mp h)
      rcases hp with hp | ⟨hi, hp⟩
      · exact absurd hp hb
      · rw [AddKey_loop2_checked, AddKey_loop2]
        simp only [hfl, if_false, splitpath_branch]
        unfold indexed at hi
        cases hf : m.find (erase_last s) with
        | none => rw [hf] at hi; cases hi
        | some v =>
          simp only
          apply ih
          exact Present_congr j _ m _ (fun k hk => (indexed_modify m _ k _).mpr hk) hp

/-- The first loop of `AddKey` stops by itself: more fuel than the length of the working
path does not change its result. -/
theorem AddKey_loop1_fuel (f1 f2 : Nat) (s : _str_t) (m : umap _str_t _val_t) (n : Nat)
    (h1 : s.length ≤ f1) (h2 : s.length ≤ f2) :
    AddKey_loop1 f1 s m n = AddKey_loop1 f2 s m n := by
  induction f1 generalizing f2 s m n with
  | zero =>
    have hs : s = [] := List.length_eq_zero.mp (Nat.le_zero.mp h1)
    subst hs
    cases f2 with
    | zero => rfl
    | succ f2 => simp [AddKey_loop1]
  | succ f1 ih =>
    cases f2 with
    | zero =>
      have hs : s = [] := List.length_eq_zero.mp (Nat.le_zero.mp h2)
      subst hs
      simp [AddKey_loop1]
    | succ f2 =>
      rw [AddKey_loop1, AddKey_loop1]
      by_cases hc : 0 < s.length ∧ m.count s = 0
      · have hs : s ≠ [] := List.length_pos.mp hc.1
        have hlt := erase_last_length s hs
        rw [if_pos hc, if_pos hc]
        exact ih f2 _ _ _ (by omega) (by omega)
      · rw [if_neg hc, if_neg hc]

/-- C36: for every tree (reachable or not) and every key path `p`, every parent lookup
`_MAP.find(branch)` in the linking loop of `AddKey(p)` finds a node, so the checked run
of `AddKey` never dereferences `end()` and returns what `AddKey` returns; the first loop
terminates because each iteration strictly shortens the working path: its result is the
same for every bound on the number of iterations of at least the length of `p`. -/
theorem C36_addkey_lookups_succeed (t : KeyTree) (p : _str_t) :
    t.AddKey_checked p = some (t.AddKey p) ∧
    (∀ s : _str_t, s ≠ [] → (erase_last s).length < s.length) ∧
    (∀ fuel, p.length ≤ fuel →
      AddKey_loop1 fuel p t._MAP 0 = AddKey_loop1 (p.length + 1) p t._MAP 0) := by
  refine ⟨?_, erase_last_length, fun fuel hf =>
    AddKey_loop1_fuel fuel _ p t._MAP 0 hf (Nat.le_succ _)⟩
  obtain ⟨j, h1, h2, _, _, _, h6⟩ :=
    AddKey_loop1_spec (p.length + 1) p t._MAP 0 (Nat.le_succ _)
  have hj : (AddKey_loop1 (p.length + 1) p t._MAP 0).2 = j := by rw [h1]; omega
  have hP : Present j p (AddKey_loop1 (p.length + 1) p t._MAP 0).1 :=
    Present_of_Stop j p _ (fun x hx => (h2 x).mpr (Or.inr hx)) h6
  unfold AddKey_checked AddKey
  simp only [hj]
  rw [AddKey_loop2_checked_eq j p _ hP]
  rfl

end KeyTree

/-! ## C37, C38: short files and failed reads -/

namespace ValStore

/-- C37: for every file content that is a proper prefix of the 16-byte default header,
the empty file included, `Deserialize` returns true and leaves the store empty, whatever
it held before. -/
theorem C37_short_file_accepted (S : ValStore) (fs : FS) (file : _str_t) (junk : Nat)
    (content : List BYTE) (hpre : content <+: _hdr_t) (hlt : content.length < 16)
    (hfile : fs file = some content) :
    S.Deserialize fs file junk = (true, empty) := by
  obtain ⟨t, ht⟩ := hpre
  have hdrop : _hdr_t.drop content.length = t := by
    rw [← ht, List.drop_left]
  have hr : fread _hdr_t 16 ⟨content, false⟩ = (_hdr_t, ⟨[], true⟩) := by
    unfold fread
    have hc : ¬ 16 ≤ content.length := by omega
    simp only [Nat.succ_ne_zero, if_false, hc, hdrop, ht]
  simp only [Deserialize, _deserialize, hfile, _deserialize_bytes, hr, ne_eq,
    not_true_eq_false, if_false]
  rw [_deserialize_loop_eof _ _ _ _ _ rfl]
  rfl

/-- Witness for C37: the file holds the first five bytes of the header, `WDQAP`. -/
theorem C37_short_file_accepted_witness :
    scenarioStore.Deserialize (FS.ofFiles (fun _ => some [87, 68, 81, 65, 80])) [104] 0 = (true, empty) :=
  C37_short_file_accepted scenarioStore (FS.ofFiles (fun _ => some [87, 68, 81, 65, 80])) [104] 0
    [87, 68, 81, 65, 80] (by decide) (by decide) rfl

/-- C38: when `Deserialize` returns false because the file cannot be opened, the store
is unchanged; when it returns false because the magic read does not match, the store is
empty afterwards.  These are the only two ways for it to return false. -/
theorem C38_failed_deserialize_state (S : ValStore) (fs : FS) (file : _str_t) (junk : Nat) :
    (fs file = none → S.Deserialize fs file junk = (false, S)) ∧
    (∀ content, fs file = some content →
      _hdr_t.magic (fread _hdr_t 16 ⟨content, false⟩).1 ≠ _hdr_t.magic _hdr_t →
      S.Deserialize fs file junk = (false, empty)) ∧
    (∀ content, fs file = some content → 8 ≤ content.length →
      content.take 8 ≠ [87, 68, 81, 65, 80, 73, 48, 48] →
      S.Deserialize fs file junk = (false, empty)) ∧
    ((S.Deserialize fs file junk).1 = false →
      fs file = none ∨ ∃ content, fs file = some content ∧
        _hdr_t.magic (fread _hdr_t 16 ⟨content, false⟩).1 ≠ _hdr_t.magic _hdr_t) := by
  have hbad : ∀ content, fs file = some content →
      _hdr_t.magic (fread _hdr_t 16 ⟨content, false⟩).1 ≠ _hdr_t.magic _hdr_t →
      S.Deserialize fs file junk = (false, empty) := by
    intro content hf hm
    simp only [Deserialize, _deserialize, hf, _deserialize_bytes]
    rw [if_pos (fun e => hm e.symm)]
    rfl
  refine ⟨fun hf => ?_, hbad, fun content hf h8 hm => ?_, fun hfalse => ?_⟩
  · simp only [Deserialize, _deserialize, hf]
  · apply hbad content hf
    rw [magic_fread content h8]
    exact hm
  · cases hf : fs file with
    | none => exact Or.inl rfl
    | some content =>
      refine Or.inr ⟨content, rfl, fun hm => ?_⟩
      simp only [Deserialize, _deserialize, hf, _deserialize_bytes] at hfalse
      rw [if_neg (fun e => e hm.symm)] at hfalse
      cases hfalse

/-- Witness for C38: a store with one entry reads a missing file and a file with a wrong
magic. -/
theorem C38_failed_deserialize_state_witness :
    scenarioStore.Deserialize (FS.ofFiles (fun _ => none)) [104] 0 = (false, scenarioStore) ∧
    scenarioStore.Deserialize (FS.ofFiles (fun _ => some [88, 68, 81, 65, 80, 73, 48, 48, 0, 0])) [104] 0
      = (false, empty) :=
  ⟨(C38_failed_deserialize_state scenarioStore (FS.ofFiles (fun _ => none)) [104] 0).1 rfl,
   (C38_failed_deserialize_state scenarioStore
      (FS.ofFiles (fun _ => some [88, 68, 81, 65, 80, 73, 48, 48, 0, 0])) [104] 0).2.2.1
      [88, 68, 81, 65, 80, 73, 48, 48, 0, 0] rfl (by decide) (by decide)⟩

end ValStore

/-! ## C33: padding -/

/-- C33 (the code at the failing inputs): with block size 16, an empty plaintext gets a
buffer of `PadLen(0, 16) = 16` bytes, `PadWrite` fills it with the pad byte 16 and
`PadCheckGet` returns -1; the plaintext `00 0e` gets a buffer of 16 bytes, `PadWrite`
appends 14 bytes `0e` and `PadCheckGet` returns -1; for the plaintext `00 07` it returns
the pad byte 14. -/
theorem C33_padding_not_recognised :
    PadLen 0 16 = 16 ∧ PadWrite 0 16 (List.replicate 16 0) = List.replicate 16 16 ∧
    (PadCheckGet (PadWrite 0 16 (List.replicate 16 0)) (PadLen 0 16) false).1 = -1 ∧
    PadLen 2 16 = 16 ∧
    PadWrite 2 16 ([0, 14] ++ List.replicate 14 0) = [0, 14] ++ List.replicate 14 14 ∧
    (PadCheckGet (PadWrite 2 16 ([0, 14] ++ List.replicate 14 0)) (PadLen 2 16) false).1
      = -1 ∧
    (PadCheckGet (PadWrite 2 16 ([0, 7] ++ List.replicate 14 0)) (PadLen 2 16) false).1
      = 14 := by
  refine ⟨?_, ?_, ?_, ?_, ?_, ?_, ?_⟩ <;> decide

/-! ## C34: hex formatting -/

theorem HexDigit_Hex (n : Fin 16) : (HexDigit (Hex.getD n.val 0)).val = n.val := by
  revert n
  decide

theorem HexDigit_toupper_Hex (n : Fin 16) : (HexDigit (toupper (Hex.getD n.val 0))).val = n.val := by
  revert n
  decide

theorem Hex_range (n : Fin 16) :
    (48 ≤ Hex.getD n.val 0 ∧ Hex.getD n.val 0 ≤ 57) ∨
    (97 ≤ Hex.getD n.val 0 ∧ Hex.getD n.val 0 ≤ 102) := by
  revert n
  decide

theorem shl4_val (a : BYTE) : (a <<< (4 : BYTE)).val = a.val * 16 % 256 := by
  show (a.val <<< (4 : BYTE).val) % 256 = _
  rw [Nat.shiftLeft_eq]
  rfl

theorem hi_lt (b : BYTE) : b.val >>> 4 < 16 := by
  rw [Nat.shiftRight_eq_div_pow]
  have := b.isLt
  omega

theorem lo_eq (b : BYTE) : b.val &&& 15 = b.val % 16 :=
  Nat.and_pow_two_sub_one_eq_mod b.val 4

theorem combine (b : BYTE) (h l : BYTE) (hh : h.val = b.val >>> 4) (hl : l.val = b.val &&& 15) :
    (h <<< 4) + l = b := by
  apply Fin.ext
  rw [Fin.val_add, shl4_val, hh, hl, lo_eq, Nat.shiftRight_eq_div_pow]
  have := b.isLt
  omega

theorem lo_lt (b : BYTE) : b.val &&& 15 < 16 := by
  rw [lo_eq]
  omega

theorem hexDigits_value (b : BYTE) :
    (HexDigit (Hex.getD (b.val >>> 4) 0) <<< 4) + HexDigit (Hex.getD (b.val &&& 15) 0) = b :=
  combine b _ _ (HexDigit_Hex ⟨b.val >>> 4, hi_lt b⟩) (HexDigit_Hex ⟨b.val &&& 15, lo_lt b⟩)

theorem hexDigits_upper_value (b : BYTE) :
    (HexDigit (toupper (Hex.getD (b.val >>> 4) 0)) <<< 4) +
      HexDigit (toupper (Hex.getD (b.val &&& 15) 0)) = b :=
  combine b _ _ (HexDigit_toupper_Hex ⟨b.val >>> 4, hi_lt b⟩)
    (HexDigit_toupper_Hex ⟨b.val &&& 15, lo_lt b⟩)

theorem hexDigits_range (b : BYTE) :
    ∀ c ∈ hexDigits b, (48 ≤ c ∧ c ≤ 57) ∨ (97 ≤ c ∧ c ≤ 102) := by
  intro c hc
  simp only [hexDigits, List.mem_cons, List.mem_singleton, List.not_mem_nil, or_false] at hc
  rcases hc with hc | hc
  · rw [hc]; exact Hex_range ⟨b.val >>> 4, hi_lt b⟩
  · rw [hc]; exact Hex_range ⟨b.val &&& 15, lo_lt b⟩

theorem FmtHex_loop_nodelim (i : Nat) (p s : List BYTE) :
    FmtHex_loop 0 i p s = s ++ (p.map hexDigits).flatten := by
  induction p generalizing i s with
  | nil => simp [FmtHex_loop]
  | cons b rest ih =>
    rw [FmtHex_loop]
    simp only [ne_eq, not_true_eq_false, false_and, if_false]
    rw [ih]
    simp [hexDigits]

theorem FmtHex_eq (p : List BYTE) : FmtHex p 0 = (p.map hexDigits).flatten := by
  unfold FmtHex
  rw [FmtHex_loop_nodelim]
  rfl

theorem FmtHex_length (p : List BYTE) : (FmtHex p 0).length = 2 * p.length := by
  rw [FmtHex_eq]
  induction p with
  | nil => rfl
  | cons b rest ih =>
    simp only [List.map_cons, List.flatten_cons, List.length_append, ih, List.length_cons]
    simp only [hexDigits, List.length_cons, List.length_nil]
    omega

theorem FmtHex_range (p : List BYTE) :
    ∀ c ∈ FmtHex p 0, (48 ≤ c ∧ c ≤ 57) ∨ (97 ≤ c ∧ c ≤ 102) := by
  rw [FmtHex_eq]
  intro c hc
  simp only [List.mem_flatten, List.mem_map] at hc
  obtain ⟨l, ⟨b, _, rfl⟩, hc⟩ := hc
  exact hexDigits_range b c hc

theorem FmtHex_no_nul (p : List BYTE) : (0 : BYTE) ∉ FmtHex p 0 := by
  intro h
  rcases FmtHex_range p 0 h with h1 | h1
  · exact absurd h1.1 (by decide)
  · exact absurd h1.1 (by decide)

theorem CvtHex_loop_digits (f : BYTE → BYTE) (p : List BYTE) (i : Nat) (m : List BYTE)
    (hi : i % 2 = 0)
    (hf : ∀ b : BYTE, (HexDigit (f (Hex.getD (b.val >>> 4) 0)) <<< 4) +
      HexDigit (f (Hex.getD (b.val &&& 15) 0)) = b) :
    CvtHex_loop (((p.map hexDigits).flatten).map f) i 0 m = m ++ p := by
  induction p generalizing i m with
  | nil => simp [CvtHex_loop]
  | cons b rest ih =>
    have h1 : (i + 1) % 2 = 1 := by omega
    have h2 : (i + 1 + 1) % 2 = 0 := by omega
    simp only [List.map_cons, List.flatten_cons, hexDigits, List.cons_append, List.nil_append,
      List.map_append]
    rw [CvtHex_loop]
    simp only [hi, if_true, Nat.zero_ne_one, if_false, Fin.zero_add]
    rw [CvtHex_loop]
    simp only [h1, if_true, Nat.one_ne_zero, if_false, hf b]
    have := ih (i + 1 + 1) (m ++ [b]) h2
    simp only [hexDigits] at this
    rw [this]
    simp

theorem map_digits_no_nul (f : BYTE → BYTE) (p : List BYTE)
    (hz : ∀ n : Fin 16, f (Hex.getD n.val 0) ≠ 0) :
    (0 : BYTE) ∉ ((p.map hexDigits).flatten).map f := by
  intro h
  simp only [List.mem_map, List.mem_flatten] at h
  obtain ⟨c, ⟨l, ⟨b, _, rfl⟩, hc⟩, h0⟩ := h
  simp only [hexDigits, List.mem_cons, List.mem_singleton, List.not_mem_nil, or_false] at hc
  rcases hc with hc | hc
  · rw [hc] at h0; exact hz ⟨b.val >>> 4, hi_lt b⟩ h0
  · rw [hc] at h0; exact hz ⟨b.val &&& 15, lo_lt b⟩ h0

theorem CvtHex_digits (f : BYTE → BYTE) (p : List BYTE) (hlen : p.length < 1073741824)
    (hz : ∀ n : Fin 16, f (Hex.getD n.val 0) ≠ 0)
    (hf : ∀ b : BYTE, (HexDigit (f (Hex.getD (b.val >>> 4) 0)) <<< 4) +
      HexDigit (f (Hex.getD (b.val &&& 15) 0)) = b) :
    CvtHex ((FmtHex p 0).map f ++ [0]) = ((p.length : Int), p) := by
  have hl : ((FmtHex p 0).map f).length = 2 * p.length := by
    rw [List.length_map, FmtHex_length]
  have hc : cstr ((FmtHex p 0).map f ++ [0]) = (FmtHex p 0).map f := by
    apply cstr_append _ []
    rw [FmtHex_eq]
    exact map_digits_no_nul f p hz
  have hI : toInt (2 * p.length) = ((2 * p.length : Nat) : Int) := by
    unfold toInt
    have : 2 * p.length % 4294967296 = 2 * p.length := by omega
    rw [this, if_pos (by omega)]
  unfold CvtHex
  simp only [hc, hl, hI, Int.toNat_ofNat]
  rw [← hl, List.take_length, FmtHex_eq, CvtHex_loop_digits f p 0 [] rfl hf]
  simp

theorem CvtHex_long (p : List BYTE) (hlen : p.length = 1073741824) :
    CvtHex (FmtHex p 0 ++ [0]) = (0, []) := by
  have hc : cstr (FmtHex p 0 ++ [0]) = FmtHex p 0 := cstr_append _ [] (FmtHex_no_nul p)
  have hI : toInt (2 * p.length) = -2147483648 := by
    rw [hlen]
    rfl
  unfold CvtHex
  simp only [hc, FmtHex_length, hI]
  rfl

/-- C34 (refuted as stated): for a sequence of 2^30 bytes `FmtHex` produces a string of
2^31 characters; `CvtHex` converts its length to `int`, runs its loop over no character,
returns the count 0 and writes no byte. -/
theorem C34_long_hex_string_not_converted :
    (FmtHex (List.replicate 1073741824 0) 0).length = 2147483648 ∧
    CvtHex (FmtHex (List.replicate 1073741824 0) 0 ++ [0]) = (0, []) :=
  ⟨by rw [FmtHex_length, List.length_replicate],
   CvtHex_long _ (List.length_replicate _ _)⟩

/-- C34 (amended): for every byte sequence `b` shorter than 2^30 bytes, `CvtHex` applied
to the string `FmtHex` produces for `b` without delimiter returns the count `|b|` and
writes exactly the bytes `b`; the string has `2*|b|` characters, all in `0`-`9`, `a`-`f`,
and `CvtHex` gives the same count and bytes when the letters are upper-cased. -/
theorem C34_hex_round_trip (b : List BYTE) (hlen : b.length < 1073741824) :
    CvtHex (FmtHex b 0 ++ [0]) = ((b.length : Int), b) ∧
    (FmtHex b 0).length = 2 * b.length ∧
    (∀ c ∈ FmtHex b 0, (48 ≤ c ∧ c ≤ 57) ∨ (97 ≤ c ∧ c ≤ 102)) ∧
    CvtHex ((FmtHex b 0).map toupper ++ [0]) = ((b.length : Int), b) := by
  refine ⟨?_, FmtHex_length b, FmtHex_range b, ?_⟩
  · have := CvtHex_digits id b hlen (by decide) hexDigits_value
    simpa using this
  · exact CvtHex_digits toupper b hlen (by decide) hexDigits_upper_value

/-- Witness for C34: the bytes `00 ab ff`. -/
theorem C34_hex_round_trip_witness :
    CvtHex (FmtHex [0, 171, 255] 0 ++ [0]) =
      ((([0, 171, 255] : List BYTE).length : Int), [0, 171, 255]) ∧
    (FmtHex [0, 171, 255] 0).length = 2 * ([0, 171, 255] : List BYTE).length ∧
    (∀ c ∈ FmtHex [0, 171, 255] 0, (48 ≤ c ∧ c ≤ 57) ∨ (97 ≤ c ∧ c ≤ 102)) ∧
    CvtHex ((FmtHex [0, 171, 255] 0).map toupper ++ [0]) =
      ((([0, 171, 255] : List BYTE).length : Int), [0, 171, 255]) :=
  C34_hex_round_trip [0, 171, 255] (by decide)

/-! ## HMAC (`HMAC.cpp`) -/

/-- The xor loop changes the first `n` bytes and leaves the others. -/
theorem xorLoop_eq (n : Nat) (c : BYTE) (buf : List BYTE) (h : n ≤ buf.length) :
    xorLoop n c buf = (buf.take n).map (fun x => x ^^^ c) ++ buf.drop n := by
  unfold xorLoop
  induction n with
  | zero => simp
  | succ n ih =>
    have hn : n < buf.length := by omega
    rw [List.range_succ, List.foldl_append, ih (by omega)]
    simp only [List.foldl_cons, List.foldl_nil]
    have hlen : ((buf.take n).map (fun x => x ^^^ c)).length = n := by
      simp [List.length_take]; omega
    have hget : ((buf.take n).map (fun x => x ^^^ c) ++ buf.drop n).getD n 0 = buf[n] := by
      rw [List.getD_eq_getElem?_getD, List.getElem?_append_right (by omega), hlen]
      simp [hn]
    rw [hget]
    have hd : buf.drop n = buf[n] :: buf.drop (n + 1) := by
      exact (List.drop_eq_getElem_cons hn)
    rw [hd, List.set_append_right _ _ (by omega), hlen, Nat.sub_self, List.set_cons_zero,
      List.take_succ, List.getElem?_eq_getElem hn]
    simp only [Option.toList_some, List.map_append, List.map_take, List.map_cons, List.map_nil,
      List.append_assoc, List.singleton_append]

/-- Xor with a block of one repeated byte is a byte-wise map. -/
theorem zipWith_xor_replicate (l : List BYTE) (n : Nat) (c : BYTE) (h : l.length = n) :
    xorBytes l (List.replicate n c) = l.map (fun x => x ^^^ c) := by
  subst h
  unfold xorBytes
  induction l with
  | nil => rfl
  | cons x xs ih => simp [List.replicate_succ, ih]

/-- The working key buffer `K` of `hmac` is the key, or the hash of the key, followed by the
zero bytes the buffer was created with. -/
theorem hmac_key (hash : List BYTE → List BYTE) (key : List BYTE) :
    (if key.length ≤ HMAC_KEY_LEN then memcpy (List.replicate HMAC_KEY_LEN (0 : BYTE)) key key.length
      else memcpy (List.replicate HMAC_KEY_LEN (0 : BYTE)) (hash key) (hash key).length) =
    (if key.length ≤ 64 then key ++ List.replicate (64 - key.length) (0 : BYTE)
      else hash key ++ List.replicate (64 - (hash key).length) (0 : BYTE)) := by
  unfold HMAC_KEY_LEN memcpy
  by_cases hk : key.length ≤ 64
  · simp only [hk, if_true, List.take_length, List.drop_replicate]
  · simp only [hk, if_false, List.take_length, List.drop_replicate]

/-- C31: `hmac` computes the RFC 2104 formula for every hash function `H` whose output has
`L ≤ 64` bytes, every text and every key: `H((K0 xor opad) || H((K0 xor ipad) || text))` with
`K0` the zero-padded key, or the zero-padded hash of a key longer than 64 bytes. The lengths
are `int` arguments of `hmac` and `HMAC_KEY_LEN + txtlen` is computed in `int`. -/
theorem C31_hmac_rfc2104 (H : List BYTE → List BYTE) (L : Nat) (txt key : List BYTE)
    (hL : ∀ x, (H x).length = L) (hL64 : L ≤ 64)
    (_htxt : txt.length + 64 < 2147483648) (_hkey : key.length < 2147483648) :
    hmac H L txt key = hmacRFC H txt key := by
  have hK := hmac_key H key
  unfold hmac hmacRFC
  simp only [hK]
  generalize hK0 : (if key.length ≤ 64 then key ++ List.replicate (64 - key.length) (0 : BYTE)
      else H key ++ List.replicate (64 - (H key).length) (0 : BYTE)) = K0
  have hlen : K0.length = 64 := by
    rw [← hK0]
    by_cases hk : key.length ≤ 64
    · simp only [hk, if_true, List.length_append, List.length_replicate]; omega
    · simp only [hk, if_false, List.length_append, List.length_replicate, hL]; omega
  have hA : ∀ (x : List BYTE),
      (memcpy (List.replicate (HMAC_KEY_LEN + x.length) (0 : BYTE)) K0 HMAC_KEY_LEN).take
          HMAC_KEY_LEN ++
        memcpy ((memcpy (List.replicate (HMAC_KEY_LEN + x.length) (0 : BYTE)) K0
          HMAC_KEY_LEN).drop HMAC_KEY_LEN) x x.length = K0 ++ x := by
    intro x
    unfold memcpy HMAC_KEY_LEN
    rw [← hlen, List.take_length, List.take_left, List.drop_left, List.take_length,
      List.drop_replicate, List.drop_replicate]
    simp
  have hX : ∀ (c : BYTE) (x : List BYTE), xorLoop HMAC_KEY_LEN c (K0 ++ x) =
      xorBytes K0 (List.replicate 64 c) ++ x := by
    intro c x
    rw [xorLoop_eq _ _ _ (by simp [HMAC_KEY_LEN, hlen]), zipWith_xor_replicate K0 64 c hlen]
    unfold HMAC_KEY_LEN
    rw [← hlen, List.take_left, List.drop_left]
  have hH : ∀ x : List BYTE,
      memcpy (List.replicate L (0 : BYTE)) (H x) (H x).length = H x := by
    intro x
    unfold memcpy
    rw [List.take_length, hL, List.drop_replicate]
    simp
  simp only [hA, hX, hH, HMAC_IPAD_BYTE, HMAC_OPAD_BYTE]

/-- The HMAC of a three-byte text under a two-byte key with the checksum hash. -/
theorem C31_hmac_rfc2104_witness :
    (∀ x, (sumHash x).length = 1) ∧ 1 ≤ 64 ∧
      ([1, 2, 3] : List BYTE).length + 64 < 2147483648 ∧
      ([7, 8] : List BYTE).length < 2147483648 ∧
      hmac sumHash 1 [1, 2, 3] [7, 8] = hmacRFC sumHash [1, 2, 3] [7, 8] :=
  ⟨fun _ => rfl, by decide, by decide, by decide,
    C31_hmac_rfc2104 sumHash 1 [1, 2, 3] [7, 8] (fun _ => rfl) (by decide) (by decide)
      (by decide)⟩

/-! ## CMAC (`CMAC.cpp`) -/

set_option maxRecDepth 100000 in
theorem and128 : ∀ x : BYTE, (x &&& 128 ≠ 0) ↔ 128 ≤ x.val := by decide

set_option maxRecDepth 100000 in
theorem shl1_or0 : ∀ x : BYTE, ((x <<< 1) ||| 0).val = (2 * x.val) % 256 + 0 := by decide

set_option maxRecDepth 100000 in
theorem shl1_or1 : ∀ x : BYTE, ((x <<< 1) ||| 1).val = (2 * x.val) % 256 + 1 := by decide

theorem ofBE_lt (l : List BYTE) : ofBE l < 256 ^ l.length := by
  induction l with
  | nil => simp [ofBE]
  | cons x xs ih =>
    have hx := x.isLt
    simp only [ofBE, List.length_cons, pow_succ]
    nlinarith

theorem toBE_length (n v : Nat) : (toBE n v).length = n := by
  induction n with
  | zero => rfl
  | succ n ih => simp [toBE, ih]

theorem toBE_mod (n v : Nat) : toBE n (v % 256 ^ n) = toBE n v := by
  induction n generalizing v with
  | zero => rfl
  | succ n ih =>
    simp only [toBE, List.cons.injEq]
    constructor
    · apply Fin.ext
      simp only
      rw [pow_succ, Nat.mod_mul_right_div_self, Nat.mod_mod]
    · rw [← ih (v % 256 ^ (n + 1)), ← ih v, pow_succ, Nat.mod_mul_right_mod]

theorem toBE_ofBE (l : List BYTE) : toBE l.length (ofBE l) = l := by
  induction l with
  | nil => rfl
  | cons x xs ih =>
    have hlt := ofBE_lt xs
    have hx := x.isLt
    have hpos : 0 < 256 ^ xs.length := Nat.pow_pos (by decide)
    simp only [List.length_cons, toBE, ofBE, List.cons.injEq]
    constructor
    · apply Fin.ext
      simp only
      rw [Nat.add_comm, Nat.add_mul_div_right _ _ hpos, Nat.div_eq_of_lt hlt, Nat.zero_add,
        Nat.mod_eq_of_lt hx]
    · rw [← toBE_mod, Nat.add_comm, Nat.add_mul_mod_self_right, Nat.mod_eq_of_lt hlt]
      exact ih

theorem lsh1_loop_length (l : List BYTE) : (MemBuf.lsh1_loop l).1.length = l.length := by
  induction l with
  | nil => rfl
  | cons x xs ih => simp [MemBuf.lsh1_loop, ih]

theorem lsh1_loop_carry (l : List BYTE) : (MemBuf.lsh1_loop l).2.val ≤ 1 := by
  cases l with
  | nil => simp [MemBuf.lsh1_loop]
  | cons x xs =>
    simp only [MemBuf.lsh1_loop]
    split <;> simp

/-- The byte loop shifts the number the bytes spell by one bit. -/
theorem lsh1_loop_value (l : List BYTE) :
    ofBE (MemBuf.lsh1_loop l).1 + (MemBuf.lsh1_loop l).2.val * 256 ^ l.length = 2 * ofBE l := by
  induction l with
  | nil => simp [MemBuf.lsh1_loop, ofBE]
  | cons x xs ih =>
    have hc := lsh1_loop_carry xs
    have hlen := lsh1_loop_length xs
    have hor : ((x <<< 1) ||| (MemBuf.lsh1_loop xs).2).val =
        (2 * x.val) % 256 + (MemBuf.lsh1_loop xs).2.val := by
      have h01 : (MemBuf.lsh1_loop xs).2 = 0 ∨ (MemBuf.lsh1_loop xs).2 = 1 := by
        rcases Nat.le_one_iff_eq_zero_or_eq_one.mp hc with h | h
        · left; exact Fin.ext h
        · right; exact Fin.ext h
      rcases h01 with h | h
      · rw [h]; exact shl1_or0 x
      · rw [h]; exact shl1_or1 x
    have hx := x.isLt
    simp only [MemBuf.lsh1_loop, ofBE, hlen, hor, List.length_cons, pow_succ]
    by_cases hm : x &&& 128 ≠ 0
    · have h128 := (and128 x).mp hm
      have hmod : 2 * x.val % 256 = 2 * x.val - 256 := by omega
      rw [if_pos hm, hmod]
      have : (1 : BYTE).val = 1 := rfl
      rw [this]
      generalize 256 ^ xs.length = P at ih ⊢
      have e : 2 * x.val - 256 + (MemBuf.lsh1_loop xs).2.val + 256 =
          2 * x.val + (MemBuf.lsh1_loop xs).2.val := by omega
      nlinarith
    · have h128 : x.val < 128 := by
        by_contra hcon
        exact hm ((and128 x).mpr (by omega))
      have hmod : 2 * x.val % 256 = 2 * x.val := by omega
      rw [if_neg hm, hmod]
      have : (0 : BYTE).val = 0 := rfl
      rw [this]
      generalize 256 ^ xs.length = P at ih ⊢
      nlinarith

theorem lsh1_loop_eq (l : List BYTE) : (MemBuf.lsh1_loop l).1 = shiftLeftRFC l := by
  have hv := lsh1_loop_value l
  have hlen := lsh1_loop_length l
  have hlt := ofBE_lt (MemBuf.lsh1_loop l).1
  rw [hlen] at hlt
  unfold shiftLeftRFC
  rw [← hv, Nat.add_mul_mod_self_right, Nat.mod_eq_of_lt hlt, ← hlen, toBE_ofBE]

theorem msb_eq (l : List BYTE) (h : l ≠ []) :
    (l.getD 0 0 &&& 128 ≠ 0) ↔ msbRFC l = true := by
  cases l with
  | nil => exact absurd rfl h
  | cons x xs =>
    have hlt := ofBE_lt xs
    have hx := x.isLt
    simp only [List.getD_cons_zero, msbRFC, ofBE, List.length_cons, pow_succ,
      decide_eq_true_eq]
    rw [and128]
    generalize 256 ^ xs.length = P at hlt ⊢
    constructor
    · intro h1
      nlinarith
    · intro h1
      by_contra hcon
      have : x.val ≤ 127 := by omega
      nlinarith

theorem xorBytes_comm (a b : List BYTE) : xorBytes a b = xorBytes b a := by
  unfold xorBytes
  rw [List.zipWith_comm]
  congr 1
  funext x y
  apply Fin.ext
  show (y.val ^^^ x.val) % 256 = (x.val ^^^ y.val) % 256
  rw [Nat.xor_comm]

theorem xorBytes_take (a b : List BYTE) : xorBytes a (b.take a.length) = xorBytes a b := by
  unfold xorBytes
  induction a generalizing b with
  | nil => simp
  | cons x xs ih =>
    cases b with
    | nil => simp
    | cons y ys => simp [ih]

theorem xorBytes_take16 (a b : List BYTE) (h : a.length = 16) :
    xorBytes a (b.take 16) = xorBytes a b := by
  rw [← h]
  exact xorBytes_take a b

theorem xorBytes_length (a b : List BYTE) (h : a.length = b.length) :
    (xorBytes a b).length = a.length := by
  unfold xorBytes
  simp [h]

theorem MemBuf_xor_eq (dst src : List BYTE) (h : dst.length = 16) :
    MemBuf.xor dst src 16 = xorBytes dst src := by
  unfold MemBuf.xor
  rw [← h, List.take_length, List.drop_length, List.append_nil]
  exact xorBytes_take dst src

theorem MemBuf_lsh1_eq (src : List BYTE) (h : src.length = 16) :
    MemBuf.lsh1 (List.replicate BLK_SIZE 0) src BLK_SIZE = shiftLeftRFC src := by
  unfold MemBuf.lsh1 BLK_SIZE
  rw [← h, List.take_length, lsh1_loop_eq, h]
  simp

theorem shiftLeftRFC_length (l : List BYTE) : (shiftLeftRFC l).length = l.length := by
  unfold shiftLeftRFC
  rw [toBE_length]

theorem subkeyRFC_length (l : List BYTE) (h : l.length = 16) : (subkeyRFC l).length = 16 := by
  unfold subkeyRFC
  split
  · rw [xorBytes_length _ _ (by rw [shiftLeftRFC_length, h]; rfl), shiftLeftRFC_length, h]
  · rw [shiftLeftRFC_length, h]

theorem subkey_eq (l : List BYTE) (h : l.length = 16) :
    (if l.getD 0 0 &&& 128 ≠ 0 then
        MemBuf.xor (MemBuf.lsh1 (List.replicate BLK_SIZE 0) l BLK_SIZE) const_Rb BLK_SIZE
      else MemBuf.lsh1 (List.replicate BLK_SIZE 0) l BLK_SIZE) = subkeyRFC l := by
  have hne : l ≠ [] := by
    intro e
    rw [e] at h
    cases h
  have hs := MemBuf_lsh1_eq l h
  have hsl : (shiftLeftRFC l).length = 16 := by rw [shiftLeftRFC_length, h]
  have hrb : const_Rb = List.replicate 15 0 ++ [135] := by decide
  unfold subkeyRFC
  by_cases hm : l.getD 0 0 &&& 128 ≠ 0
  · rw [if_pos hm, if_pos ((msb_eq l hne).mp hm), hs]
    unfold BLK_SIZE
    rw [MemBuf_xor_eq _ _ hsl, hrb]
  · rw [if_neg hm, hs]
    have : ¬ msbRFC l = true := fun e => hm ((msb_eq l hne).mpr e)
    rw [if_neg this]

theorem GenSubkeys_eq (E : List BYTE → List BYTE → List BYTE) (key : List BYTE)
    (hE : ∀ k x, (E k x).length = 16) :
    GenSubkeys E key =
      (subkeyRFC (E key (List.replicate 16 0)),
       subkeyRFC (subkeyRFC (E key (List.replicate 16 0)))) := by
  have hL : AES_128 E key (List.replicate BLK_SIZE 0) = E key (List.replicate 16 0) := by
    unfold AES_128 BLK_SIZE
    rw [List.take_replicate]
    rfl
  unfold GenSubkeys
  simp only [hL]
  rw [subkey_eq _ (hE _ _), subkey_eq _ (subkeyRFC_length _ (hE _ _))]

theorem Pad_eq (buf : List BYTE) (r : Nat) (hr : r < 16) (hb : buf.length = r) :
    Pad buf r = paddingRFC buf := by
  subst hb
  unfold Pad paddingRFC BLK_SIZE
  apply List.ext_getElem?
  intro i
  by_cases h16 : i < 16
  · rw [List.getElem?_map, List.getElem?_range h16, Option.map_some']
    by_cases hlt : i < buf.length
    · rw [if_pos hlt, List.append_assoc, List.getElem?_append_left hlt,
        List.getD_eq_getElem?_getD, List.getElem?_eq_getElem hlt]
      rfl
    · rw [if_neg hlt, List.append_assoc, List.getElem?_append_right (by omega)]
      by_cases he : i = buf.length
      · rw [if_pos he, he, Nat.sub_self, List.singleton_append, List.getElem?_cons_zero]
      · rw [if_neg he]
        obtain ⟨j, hj⟩ : ∃ j, i - buf.length = j + 1 := ⟨i - buf.length - 1, by omega⟩
        rw [hj, List.singleton_append, List.getElem?_cons_succ, List.getElem?_replicate,
          if_pos (by omega)]
  · have hl1 : ((List.range 16).map
        (fun i => if i < buf.length then buf.getD i 0
          else if i = buf.length then (128 : BYTE) else 0)).length ≤ i := by
      simp only [List.length_map, List.length_range]
      omega
    have hl2 : (buf ++ [128] ++ List.replicate (15 - buf.length) (0 : BYTE)).length ≤ i := by
      simp only [List.length_append, List.length_cons, List.length_nil, List.length_replicate]
      omega
    rw [List.getElem?_eq_none hl1, List.getElem?_eq_none hl2]

theorem AES_128_xor (E : List BYTE → List BYTE → List BYTE) (key X src : List BYTE)
    (hX : X.length = 16) :
    AES_128 E key (MemBuf.xor X src BLK_SIZE) = E key (xorBytes X (src.take 16)) := by
  unfold AES_128 BLK_SIZE
  rw [MemBuf_xor_eq X src hX, ← xorBytes_take X src, hX]
  rw [List.take_of_length_le]
  unfold xorBytes
  simp only [List.length_zipWith, hX]
  omega

theorem chain_eq (E : List BYTE → List BYTE → List BYTE) (key inp : List BYTE)
    (hE : ∀ k x, (E k x).length = 16) (l : List Nat) (X : List BYTE) (hX : X.length = 16) :
    l.foldl (fun X i => AES_128 E key (MemBuf.xor X (inp.drop (BLK_SIZE * i)) BLK_SIZE)) X =
    l.foldl (fun X i => E key (xorBytes X ((inp.drop (16 * i)).take 16))) X ∧
    (l.foldl (fun X i => E key (xorBytes X ((inp.drop (16 * i)).take 16))) X).length = 16 := by
  induction l generalizing X with
  | nil => exact ⟨rfl, hX⟩
  | cons i rest ih =>
    simp only [List.foldl_cons]
    rw [AES_128_xor E key X _ hX]
    exact ih _ (hE _ _)

/-- C32: `cmac_aes128` computes the algorithm of RFC 4493 figure 2.3 over its block cipher,
taken as an arbitrary function `E` with 16-byte output, for every key and every message, the
empty one included: `n = max(1, ceil(len/16))` blocks, subkeys by shift and conditional xor
with 0x87, last block xored with `K1` or padded and xored with `K2`. The length is an `int`
argument and `length + BLK_SIZE - 1` is computed in `int`. -/
theorem C32_cmac_rfc4493 (E : List BYTE → List BYTE → List BYTE) (key M : List BYTE)
    (hE : ∀ k x, (E k x).length = 16) (_hlen : M.length + 15 < 2147483648) :
    cmac_aes128 E key M M.length = cmacRFC E key M := by
  have hBlks : max 1 ((M.length + BLK_SIZE - 1) / BLK_SIZE) =
      max 1 (if M.length % 16 = 0 then M.length / 16 else M.length / 16 + 1) := by
    unfold BLK_SIZE
    split <;> omega
  have hK := GenSubkeys_eq E key hE
  have hK1 := subkeyRFC_length _ (hE key (List.replicate 16 0))
  have hK2 := subkeyRFC_length _ hK1
  unfold cmac_aes128 cmacRFC
  simp only [hK, hBlks]
  generalize hn : max 1 (if M.length % 16 = 0 then M.length / 16 else M.length / 16 + 1) = n
  have hn1 : 1 ≤ n := by rw [← hn]; exact Nat.le_max_left _ _
  obtain ⟨hc1, hc2⟩ := chain_eq E key M hE (List.range (n - 1)) (List.replicate BLK_SIZE 0)
    (by simp [BLK_SIZE])
  have hz : List.replicate BLK_SIZE (0 : BYTE) = List.replicate 16 0 := rfl
  rw [hc1, hz]
  rw [hz] at hc2
  rw [AES_128_xor E key _ _ hc2]
  generalize (List.range (n - 1)).foldl
    (fun X i => E key (xorBytes X ((M.drop (16 * i)).take 16))) (List.replicate 16 0) = X
    at hc2 ⊢
  congr 1
  rw [xorBytes_take16 _ _ hc2, xorBytes_comm]
  congr 1
  by_cases hflag : 0 < M.length ∧ M.length % 16 = 0
  · have hb : ¬ M.length < n * BLK_SIZE := by
      unfold BLK_SIZE
      rw [← hn]
      rw [if_pos hflag.2]
      omega
    simp only [hb, decide_False, Bool.false_eq_true, if_false, hflag, and_self, decide_True,
      if_true]
    unfold MemBuf.xor3 BLK_SIZE
    rw [List.drop_replicate]
    simp only [Nat.sub_self, List.replicate_zero, List.append_nil]
    rw [List.take_of_length_le (Nat.le_of_eq hK1)]
    rfl
  · have hb : M.length < n * BLK_SIZE := by
      unfold BLK_SIZE
      rw [← hn]
      split <;> omega
    have hlen : (M.drop (BLK_SIZE * (n - 1))).length = M.length % BLK_SIZE := by
      unfold BLK_SIZE
      rw [List.length_drop, ← hn]
      split <;> omega
    have hr : M.length % BLK_SIZE < 16 := Nat.mod_lt _ (by decide)
    simp only [hb, decide_True, if_true, hflag, decide_False, Bool.false_eq_true, if_false]
    rw [Pad_eq _ _ hr hlen]
    have hpl : (paddingRFC (M.drop (BLK_SIZE * (n - 1)))).length = 16 := by
      unfold paddingRFC
      simp only [List.length_append, List.length_cons, List.length_nil, List.length_replicate,
        hlen]
      omega
    unfold BLK_SIZE at hpl ⊢
    rw [MemBuf_xor_eq _ _ hpl, List.take_of_length_le]
    unfold BLK_SIZE at hlen
    omega

/-- The CMAC of a three-byte message with the sample cipher. -/
theorem C32_cmac_rfc4493_witness :
    (∀ k x, (addCipher k x).length = 16) ∧
      ([5, 6, 7] : List BYTE).length + 15 < 2147483648 ∧
      cmac_aes128 addCipher [1, 2] [5, 6, 7] ([5, 6, 7] : List BYTE).length =
        cmacRFC addCipher [1, 2] [5, 6, 7] :=
  ⟨fun _ _ => by simp [addCipher], by decide,
    C32_cmac_rfc4493 addCipher [1, 2] [5, 6, 7] (fun _ _ => by simp [addCipher]) (by decide)⟩

/-! ## C35: writes keep the tree, also across a reload -/

namespace ValStore

theorem toUINT_le (n : Nat) : toUINT n ≤ n := Nat.mod_le _ _

theorem toUINT_lt (n : Nat) : toUINT n < 4294967296 := Nat.mod_lt _ (by decide)

theorem _serialize_record_cutEntry (pack : Nat) (e : _str_t × _val_t) :
    _serialize_record pack (cutEntry e) = _serialize_record pack e := by
  have h1 : (e.2.data.take (toUINT e.2.data.length)).length = toUINT e.2.data.length := by
    rw [List.length_take]
    exact Nat.min_eq_left (toUINT_le _)
  have h2 : toUINT (toUINT e.2.data.length) = toUINT e.2.data.length :=
    Nat.mod_eq_of_lt (toUINT_lt _)
  simp only [_serialize_record, cutEntry, h1, h2, List.take_take, Nat.min_self]

/-- A `SetVal` whose full name has 2^32 bytes: the tree has the key `k`, the tree of the
reloaded hive has not. -/
theorem long_name_reload (N : List BYTE) (hlen : N.length = 4294967294) (hN : _del ∉ N) :
    Op.plain (.setVal 0 N 1 [0]) ∧
    ((World.openRun (FS.ofFiles (fun _ => none)) 0 [104] [107] true 0 [.setVal 0 N 1 [0]]).bind
      (fun w => w.data 0)).map (fun d => d.KT.IsKey [107]) = some true ∧
    ((World.openRun (FS.ofFiles (fun _ => none)) 0 [104] [107] true 0 [.setVal 0 N 1 [0]]).bind
      (fun w => w.data 0)).bind (fun d => (World.reload (FS.ofFiles (fun _ => none)) d 1 [] false 0).bind
        (fun w' => (w'.data 1).map (fun d' => d'.KT.IsKey [107]))) = some false := by
  have hrun1 : ((World.openRun (FS.ofFiles (fun _ => none)) 0 [104] [107] true 0 [.setVal 0 N 1 [0]]).bind
      (fun w => w.data 0)) =
      some ⟨⟨[([107, 92] ++ N, ⟨1, [0]⟩)]⟩, ((KeyTree.empty.AddKey [107]).2.AddValue [107] N).2, [104], 1⟩ := rfl
  have hname : ([107, 92] ++ N).length = 4294967296 := by
    rw [List.length_append, hlen]; rfl
  have hbytes : ValStore._serialize_bytes ⟨[([107, 92] ++ N, ⟨1, [0]⟩)]⟩ =
      _hdr_t ++ [0, 0, 0, 0, 1, 0, 0, 0, 1, 0, 0, 0, 0] := by
    simp only [_serialize_bytes, _serialize_record, List.map_cons, List.map_nil,
      List.flatten_cons, List.flatten_nil, hname]
    have h0 : toUINT 4294967296 = 0 := by decide
    rw [h0, List.take_zero]
    decide
  have hreload : (World.reload (FS.ofFiles (fun _ => none))
      ⟨⟨[([107, 92] ++ N, ⟨1, [0]⟩)]⟩, ((KeyTree.empty.AddKey [107]).2.AddValue [107] N).2,
        [104], 1⟩ 1 [] false 0).bind
        (fun w' => (w'.data 1).map (fun d' => d'.KT.IsKey [107])) = some false := by
    simp only [World.reload, Serialize, _serialize, hbytes]
    decide
  rw [hrun1]
  refine ⟨hN, ?_, ?_⟩
  · rfl
  · simp only [Option.some_bind]
    exact hreload

theorem _serialize_bytes_cutStore (S : ValStore) :
    (cutStore S)._serialize_bytes = S._serialize_bytes := by
  simp only [_serialize_bytes, cutStore, List.map_map]
  congr 2
  apply List.map_congr_left
  intro e _
  exact _serialize_record_cutEntry _PACK e

theorem keys_cutStore (S : ValStore) : umap.keys (cutStore S)._MAP = umap.keys S._MAP := by
  simp only [cutStore, umap.keys, List.map_map]
  apply List.map_congr_left
  intro e _
  rfl

theorem cutStore_fits (S : ValStore) (h : NamesFit S._MAP) :
    (cutStore S).WF ∧ (cutStore S).lengthsBelow := by
  refine ⟨⟨by rw [keys_cutStore]; exact h.1, ?_⟩, ?_⟩
  · intro e he
    simp only [cutStore, List.mem_map] at he
    obtain ⟨e0, h0, rfl⟩ := he
    exact (h.2 e0 h0).1
  · intro e he
    simp only [cutStore, List.mem_map] at he
    obtain ⟨e0, h0, rfl⟩ := he
    refine ⟨(h.2 e0 h0).2, ?_⟩
    simp only [cutEntry, List.length_take]
    exact lt_of_le_of_lt (Nat.min_le_left _ _) (toUINT_lt _)

/-- Reading back what `_serialize` wrote for a store whose names fit returns the store
with the values cut. -/
theorem _deserialize_bytes_serialize_names (S : ValStore) (junk : Nat)
    (h : NamesFit S._MAP) : _deserialize_bytes S._serialize_bytes junk = (true, cutStore S) := by
  rw [← _serialize_bytes_cutStore]
  exact _deserialize_bytes_serialize (cutStore S) junk (cutStore_fits S h).1 (cutStore_fits S h).2

theorem NamesFit_of_AllFit (m : umap _str_t _val_t) (h : AllFit m) : NamesFit m :=
  ⟨h.1, fun e he => ⟨(h.2 e he).1, (h.2 e he).2.1⟩⟩

theorem NamesFit_foldl (l m : umap _str_t _val_t) (h : NamesFit m)
    (hl : ∀ e ∈ l, e.2.type < 4294967296 ∧ e.1.length < 4294967296) :
    NamesFit (l.foldl (fun acc e => acc.assign e.1 e.2) m) := by
  induction l generalizing m with
  | nil => exact h
  | cons e rest ih =>
    refine ih _ ⟨umap.nodup_keys_assign m e.1 e.2 h.1, fun e' hmem => ?_⟩
      (fun e' he' => hl e' (List.mem_cons_of_mem _ he'))
    rcases umap.mem_assign m e.1 e.2 e' hmem with h1 | h1
    · exact h.2 e' h1
    · rw [h1]; exact hl e (List.mem_cons_self _ _)

end ValStore

namespace World

/-- Opening a root handle in a world without hives gives one hive, at address 0, that
holds what `Deserialize` left. -/
theorem open_file_init_any (fs : FS) (r : Nat) (hive keyPath : _str_t) (bWrite : Bool)
    (junk : Nat) :
    ∃ w0 hv, _valKey._open_file (init fs) r hive keyPath bWrite junk = some w0 ∧
      OneHive hv (ValStore.empty.Deserialize fs hive junk).2._MAP w0 := by
  have hc : _valKey._close (init fs) r = some (true, init fs) := rfl
  have hfs : (init fs).fs = fs := rfl
  unfold _valKey._open_file
  simp only [hc, hfs]
  by_cases hb : ((__vkdata.new.VS.Deserialize fs hive junk).1 || bWrite) = true
  · simp only [hb, if_true]
    refine ⟨_, hive, rfl, fun b hb => ?_, fun g a hg => ?_, fun d hd => ?_⟩
    · simp [init, setKey, setData, hb]
    · simp only [init, _valKey.null, setKey, setData] at hg
      by_cases hgr : g = r
      · simp only [hgr, if_true, Option.some.injEq] at hg
        exact hg.symm
      · simp [hgr] at hg
    · simp only [init, setKey, setData, if_true, Option.some.injEq] at hd
      rw [← hd]
      refine ⟨rfl, ?_⟩
      by_cases hr : (__vkdata.new.VS.Deserialize fs hive junk).1 = true
      · simp only [hr, if_true]
        rfl
      · simp only [hr, if_false]
        rfl
  · simp only [hb, if_false]
    refine ⟨_, [], rfl, fun b hb => ?_, fun g a hg => ?_, fun d hd => ?_⟩
    · simp [init, setKey, setData, hb]
    · simp only [init, _valKey.null, setKey, setData] at hg
      by_cases hgr : g = r
      · simp only [hgr, if_true, Option.some.injEq] at hg
        exact hg.symm
      · simp [hgr] at hg
    · simp only [init, setKey, setData, if_true, Option.some.injEq] at hd
      rw [← hd]
      have hr : ¬ (__vkdata.new.VS.Deserialize fs hive junk).1 = true := by
        intro e
        rw [e] at hb
        exact hb rfl
      simp only [hr, if_false]
      exact ⟨rfl, rfl⟩

/-- A reload of a hive whose names fit gives a hive whose tree is rebuilt from the store
with the same names. -/
theorem reload_spec (fs : FS) (d : __vkdata) (r : Nat) (keyPath : _str_t) (bWrite : Bool)
    (junk : Nat) (h : ValStore.NamesFit d.VS._MAP) (hopen : fs.canWrite d.hive = true) :
    ∃ w' d', reload fs d r keyPath bWrite junk = some w' ∧ w'.data r = some d' ∧
      KeyTree.Derived d'.KT._MAP (umap.keys d.VS._MAP) := by
  have hc : ∀ fs1, _valKey._close (init fs1) r = some (true, init fs1) := fun _ => rfl
  have hfs : ∀ fs1, (init fs1).fs = fs1 := fun _ => rfl
  have hd : __vkdata.new.VS.Deserialize (d.VS.Serialize fs d.hive).2 d.hive junk =
      (true, ValStore.cutStore d.VS) := by
    simp only [ValStore.Deserialize, ValStore._deserialize, ValStore.Serialize,
      ValStore._serialize, hopen, FS.write, if_true]
    exact ValStore._deserialize_bytes_serialize_names d.VS junk h
  unfold reload _valKey._open_file
  simp only [hc, hfs, hd, Bool.true_or, if_true]
  refine ⟨_, ⟨ValStore.cutStore d.VS, (ValStore.cutStore d.VS).BuildKeyTree __vkdata.new.KT,
    d.hive, __vkdata.new.refCount⟩, rfl, ?_, ?_⟩
  · simp [data, setKey, setData, init]
  · rw [← ValStore.keys_cutStore]
    exact ValStore.BuildKeyTree_Derived _ _

/-- After a run of plain operations from a freshly opened root handle, the store of the
hive holds names that fit when the names written fit. -/
theorem NamesFit_openRun (fs : FS) (r : Nat) (hive keyPath : _str_t) (bWrite : Bool)
    (junk : Nat) (ops : List Op) (hp : ∀ op ∈ ops, op.plain)
    (hlen : ∀ e ∈ openWrites fs r hive keyPath bWrite junk ops, e.1.length < 4294967296) :
    AllHives (openRun fs r hive keyPath bWrite junk ops)
      (fun d => ValStore.NamesFit d.VS._MAP) := by
  intro w hw a d hd
  obtain ⟨w0, hv, h0, hone0⟩ := open_file_init_any fs r hive keyPath bWrite junk
  simp only [openRun, h0, Option.some_bind] at hw
  simp only [openWrites, h0] at hlen
  have hnd : ∀ op ∈ ops, op.noDel := by
    intro op hop
    have := hp op hop
    cases op <;> simp_all [Op.plain, Op.noDel]
  have hone := OneHive_run hv ops _ w0 w hnd hw hone0
  have ha : a = 0 := by
    by_contra hne
    rw [hone.1 a hne] at hd
    cases hd
  subst ha
  rw [(hone.2.2 d hd).2]
  exact ValStore.NamesFit_foldl _ _
    (ValStore.NamesFit_of_AllFit _ (ValStore.Deserialize_AllFit fs hive junk))
    (fun e he => ⟨writes_type_lt ops w0 e he, hlen e he⟩)

/-- C35 (refuted as stated): a value name of 2^32 - 2 letters `n`, which contains no
delimiter, is set through a root handle on key `k` of an empty hive. The tree then has the
key `k`; the hive written to its file and opened again has a tree without the key `k`. -/
theorem C35_long_name_not_reloaded :
    Op.plain (.setVal 0 (List.replicate 4294967294 110) 1 [0]) ∧
    ((openRun (FS.ofFiles (fun _ => none)) 0 [104] [107] true 0
        [.setVal 0 (List.replicate 4294967294 110) 1 [0]]).bind
      (fun w => w.data 0)).map (fun d => d.KT.IsKey [107]) = some true ∧
    ((openRun (FS.ofFiles (fun _ => none)) 0 [104] [107] true 0
        [.setVal 0 (List.replicate 4294967294 110) 1 [0]]).bind
      (fun w => w.data 0)).bind
        (fun d => (reload (FS.ofFiles (fun _ => none)) d 1 [] false 0).bind
          (fun w' => (w'.data 1).map (fun d' => d'.KT.IsKey [107]))) = some false :=
  ValStore.long_name_reload (List.replicate 4294967294 110) (List.length_replicate _ _)
    (fun h => absurd (List.eq_of_mem_replicate h) (by decide))

/-- C35 (amended): in every hive state reached from a freshly opened root handle by `SetVal`
operations with value names that contain no delimiter, made through the root handle and
handles opened from it, the hive's tree equals `BuildKeyTree` of the hive's store (same
indexed key paths, same children sets, same value-name sets); and when every full name
written is shorter than 2^32 bytes, writing the hive to its file, where the file can be
opened for writing, and opening the file again gives a hive with the same tree. -/
theorem C35_writes_keep_tree (fs : FS) (r : Nat) (hive keyPath : _str_t) (bWrite : Bool)
    (junk : Nat) (ops : List Op) (hp : ∀ op ∈ ops, op.plain) :
    AllHives (openRun fs r hive keyPath bWrite junk ops)
      (fun d => KeyTree.TreeEq d.KT (d.VS.BuildKeyTree d.KT)) ∧
    ((∀ e ∈ openWrites fs r hive keyPath bWrite junk ops, e.1.length < 4294967296) →
      AllHives (openRun fs r hive keyPath bWrite junk ops) Reloads) := by
  have hcons : AllHives (openRun fs r hive keyPath bWrite junk ops)
      (fun d => KeyTree.Derived d.KT._MAP d.VS._MAP.keys) := by
    intro w hw a d hd
    unfold openRun at hw
    cases h0 : _valKey._open_file (init fs) r hive keyPath bWrite junk with
    | none => simp [h0] at hw
    | some w0 =>
      simp only [h0, Option.some_bind] at hw
      exact Consistent_run ops w0 w hp (Consistent_open_file (init fs) w0 r hive keyPath bWrite
        junk (Consistent_init fs) h0) hw a d hd
  refine ⟨fun w hw a d hd => KeyTree.Derived_TreeEq d.KT _ _ (hcons w hw a d hd)
    (ValStore.BuildKeyTree_Derived d.VS d.KT), fun hlen w hw a d hd => ?_⟩
  have hfit := NamesFit_openRun fs r hive keyPath bWrite junk ops hp hlen w hw a d hd
  intro fs1 r1 keyPath1 bWrite1 junk1 hopen1
  obtain ⟨w', d', h1, h2, h3⟩ := reload_spec fs1 d r1 keyPath1 bWrite1 junk1 hfit hopen1
  exact ⟨w', d', h1, h2, KeyTree.Derived_TreeEq d.KT d'.KT _ (hcons w hw a d hd) h3⟩

/-- Witness for C35: one value set through the root handle and one through a subkey handle
of an empty hive; the run reaches a world with a hive, the names written are short, the
hive's tree equals the rebuilt tree and survives a reload. -/
theorem C35_writes_keep_tree_witness :
    ((openRun (FS.ofFiles (fun _ => none)) 0 [104] [107, 49] true 0
        [.setVal 0 [83] 1 [72, 0], .openKey 1 0 [107, 50] true,
         .setVal 1 [68] 4 [1, 0, 0, 0]]).bind (fun w => w.heap 0)).isSome = true ∧
    (∀ e ∈ openWrites (FS.ofFiles (fun _ => none)) 0 [104] [107, 49] true 0
        [.setVal 0 [83] 1 [72, 0], .openKey 1 0 [107, 50] true,
         .setVal 1 [68] 4 [1, 0, 0, 0]], e.1.length < 4294967296) ∧
    AllHives (openRun (FS.ofFiles (fun _ => none)) 0 [104] [107, 49] true 0
        [.setVal 0 [83] 1 [72, 0], .openKey 1 0 [107, 50] true,
         .setVal 1 [68] 4 [1, 0, 0, 0]])
      (fun d => KeyTree.TreeEq d.KT (d.VS.BuildKeyTree d.KT)) ∧
    AllHives (openRun (FS.ofFiles (fun _ => none)) 0 [104] [107, 49] true 0
        [.setVal 0 [83] 1 [72, 0], .openKey 1 0 [107, 50] true,
         .setVal 1 [68] 4 [1, 0, 0, 0]]) Reloads :=
  ⟨by decide, by decide,
    (C35_writes_keep_tree (FS.ofFiles (fun _ => none)) 0 [104] [107, 49] true 0 _
      (by simp [Op.plain]; decide)).1,
    (C35_writes_keep_tree (FS.ofFiles (fun _ => none)) 0 [104] [107, 49] true 0
      [.setVal 0 [83] 1 [72, 0], .openKey 1 0 [107, 50] true, .setVal 1 [68] 4 [1, 0, 0, 0]]
      (by simp [Op.plain]; decide)).2 (by decide)⟩

end World

end jhblib
